import Mathlib

/-!
# Verification of the exoplanet computation driver

Shallow embedding of `src/exoplanet/theano_ops/driver.cpp` (the functions
`get_cl`, `get_cl_rev`, `LimbDark::apply`, `kepler`) and of the constructor of
`KeplerOpBase` in `exoplanet/ops/kepler/kepler_op.cc`.

Modelling conventions.

* `double` values are rationals (`ℚ`), and the arithmetic that produces the
  output values (sums, products, quotients, dot products) is exact: the
  development is about the arithmetic and control structure of the code.
  Infinities and NaN are not modelled.
* The one place where rounding decides which branch runs is the overlap test
  `b_ < 1 + r_` of `LimbDark::apply`: there the sum is rounded to the nearest
  double, ties to even (`fl64`), as the double addition of the code does.
* `ssize_t` indices are integers (`Int`); no overflow is modelled for them
  because every index is bounded by the size of an allocated array.
* An array is the list of its elements in row-major (C) order.
* A call ends in an `Outcome`: it returns, it raises a C++ exception (the
  buffers then hold whatever had been written before the `throw`), or it makes
  an out-of-range element access, which is undefined behaviour in C++.
-/

set_option linter.dupNamespace false

namespace driver

/-- The exceptions of the driver, named after the message each one carries. -/
inductive Error where
  | dimension_mismatch
  | outputs_must_be_writeable
  | invalid_dimensions_for_dfdcl
  | dfdcl_must_be_writeable
  | eccentricity_range
  deriving DecidableEq, Repr

/-- How a call ends: `returned value mem` with the returned value and the final
contents of the caller's buffers, `raised e mem` with the exception and the
contents of the buffers at the `throw`, or `undefined` after an element access
outside an array. -/
inductive Outcome (ρ σ : Type) where
  | returned (value : ρ) (mem : σ)
  | raised (e : Error) (mem : σ)
  | undefined
  deriving DecidableEq, Repr

/-- A one-dimensional array of doubles. -/
abbrev Vec := List ℚ

/-- Element read `v[i]` / `v(i)`; `none` when `i` is outside `0 .. size-1`. -/
def rd (v : Vec) (i : Int) : Option ℚ :=
  if 0 ≤ i ∧ i < (v.length : Int) then some (v.getD i.toNat 0) else none

/-- Element write `v[i] = x` / `v(i) = x`; `none` when `i` is outside
`0 .. size-1`. -/
def wr (v : Vec) (i : Int) (x : ℚ) : Option Vec :=
  if 0 ≤ i ∧ i < (v.length : Int) then some (v.set i.toNat x) else none

/-- Runs `body j`, `body (j+1)`, ... for `k` iterations, threading the state. -/
def loopUp {σ : Type} (body : Int → σ → Option σ) : Nat → Int → σ → Option σ
  | 0, _, s => some s
  | k + 1, j, s => (body j s).bind (loopUp body k (j + 1))

/-- Runs `body j`, `body (j-1)`, ... for `k` iterations, threading the state. -/
def loopDown {σ : Type} (body : Int → σ → Option σ) : Nat → Int → σ → Option σ
  | 0, _, s => some s
  | k + 1, j, s => (body j s).bind (loopDown body k (j - 1))

/-- The loop `for (j = lo; j < hi; ++j) body`. -/
def forLt {σ : Type} (lo hi : Int) (body : Int → σ → Option σ) (s : σ) : Option σ :=
  loopUp body (hi - lo).toNat lo s

/-- The loop `for (j = lo; j <= hi; ++j) body`. -/
def forLe {σ : Type} (lo hi : Int) (body : Int → σ → Option σ) (s : σ) : Option σ :=
  loopUp body (hi + 1 - lo).toNat lo s

/-- The loop `for (j = hi; j >= lo; --j) body`. -/
def forDownGe {σ : Type} (hi lo : Int) (body : Int → σ → Option σ) (s : σ) : Option σ :=
  loopDown body (hi + 1 - lo).toNat hi s

/-! ## Arrays and helpers -/

/-- An argument of type `py::array_t<double, py::array::c_style>` as the driver
sees it through `py::buffer_info`: the elements in C order, the extents, and the
read-only flag. -/
structure array_t where
  data : List ℚ
  shape : List Nat
  readonly : Bool
  deriving DecidableEq, Repr

/-- The field `info.size`: the number of elements, which is the product of the
extents. -/
def array_t.size (x : array_t) : Nat := x.data.length

/-- The field `info.ndim`: the number of dimensions. -/
def array_t.ndim (x : array_t) : Nat := x.shape.length

/-- The flat element read `x(index)` of `flat_unchecked_array`. The size checks
of `apply` and `kepler` keep every index they use below `size`. -/
def array_t.at (x : array_t) (index : Nat) : ℚ := x.data.getD index 0

/-- The flat element write `x(index) = v` of `flat_unchecked_array`. -/
def array_t.put (x : array_t) (index : Nat) (v : ℚ) : array_t :=
  { x with data := x.data.set index v }

/-- A writeable one-dimensional array with the given elements. -/
def vector1 (xs : List ℚ) : array_t := ⟨xs, [xs.length], false⟩

/-- A writeable two-dimensional array of the given extents and elements. -/
def matrix2 (rows cols : Nat) (xs : List ℚ) : array_t := ⟨xs, [rows, cols], false⟩

/-- The function `driver::sgn`: `(T(0) < val) - (val < T(0))`. -/
def sgn (val : ℚ) : Int :=
  (if (0 : ℚ) < val then 1 else 0) - (if val < (0 : ℚ) then 1 else 0)

/-- The conversion `int(x)` of an `ssize_t` to a 32-bit `int`. -/
def toInt32 (x : Int) : Int := (x + 2147483648) % 4294967296 - 2147483648

/-- Rounding of a rational to the nearest integer, a tie going to the even
neighbour: the rounding rule of IEEE 754 arithmetic, applied to a significand. -/
def roundEven (q : ℚ) : Int :=
  if q - (⌊q⌋ : ℚ) < 1 / 2 then ⌊q⌋
  else if 1 / 2 < q - (⌊q⌋ : ℚ) then ⌊q⌋ + 1
  else if ⌊q⌋ % 2 = 0 then ⌊q⌋ else ⌊q⌋ + 1

/-- The spacing of the doubles in the binade of `x > 0`: with
`2^e <= x < 2^(e+1)` it is `2^(e-52)`, a significand having 53 bits. -/
def ulp (x : ℚ) : ℚ := (2 : ℚ) ^ (Int.log 2 x - 52)

/-- The result of a `double` operation whose exact value is `x`: the nearest
number with a 53-bit significand, ties to even. The exponent range is not
bounded: the only operation rounded with it is `1 + r_` with `r_ >= 0` a
double, whose value lies in `[1, 2^1024)`, where neither underflow nor
overflow occurs. A double is a fixed point of `fl64`. -/
def fl64 (x : ℚ) : ℚ :=
  if 0 < x then (roundEven (x / ulp x) : ℚ) * ulp x
  else if x < 0 then -((roundEven (-x / ulp (-x)) : ℚ) * ulp (-x))
  else 0

namespace starry

/-! ## `get_cl` -/

/-- The variables of the loop nest that computes the `a_n` coefficients. -/
structure ACoeffs where
  a : Vec
  bcoeff : ℚ
  sign : Int
  deriving DecidableEq, Repr

/-- Body of the inner loop of `get_cl`:
`a[j] -= u(i) * bcoeff * sign; sign *= -1; bcoeff *= (double(i - j) / (j + 1));` -/
def get_cl_inner (u : Vec) (i j : Int) (s : ACoeffs) : Option ACoeffs :=
  (rd s.a j).bind fun aj =>
  (rd u i).bind fun ui =>
  (wr s.a j (aj - ui * s.bcoeff * (s.sign : ℚ))).bind fun a =>
  some ⟨a, s.bcoeff * (((i - j : Int) : ℚ) / ((j + 1 : Int) : ℚ)), s.sign * (-1)⟩

/-- Body of the outer loop of `get_cl`:
`bcoeff = 1; sign = 1; for (j = 0; j <= i; ++j) ...`. -/
def get_cl_outer (u : Vec) (i : Int) (a : Vec) : Option Vec :=
  (forLe 0 i (get_cl_inner u i) ⟨a, 1, 1⟩).map ACoeffs.a

/-- Body of the first `c` loop: `c(j) = a[j] / (j + 2);`. -/
def get_cl_top (a : Vec) (j : Int) (c : Vec) : Option Vec :=
  (rd a j).bind fun aj => wr c j (aj / ((j + 2 : Int) : ℚ))

/-- Body of the second `c` loop: `c(j) = a[j] / (j + 2) + c(j + 2);`. -/
def get_cl_mid (a : Vec) (j : Int) (c : Vec) : Option Vec :=
  (rd a j).bind fun aj =>
  (rd c (j + 2)).bind fun cj =>
  wr c j (aj / ((j + 2 : Int) : ℚ) + cj)

/-- The statements of `get_cl` after the dimension check; `none` when an
element access is out of range. -/
def get_cl_body (u c : Vec) : Option Vec :=
  let N : Int := u.length
  (wr (List.replicate N.toNat 0) 0 1).bind fun a =>
  (forLt 1 N (fun n a => wr a n 0) a).bind fun a =>
  (forLt 1 N (get_cl_outer u) a).bind fun a =>
  (forDownGe (N - 1) (max 2 (N - 2)) (get_cl_top a) c).bind fun c =>
  (forDownGe (N - 3) 2 (get_cl_mid a) c).bind fun c =>
  (if N ≥ 4 then
      (rd a 1).bind fun a1 => (rd c 3).bind fun c3 => wr c 1 (a1 + 3 * c3)
    else
      (rd a 1).bind fun a1 => wr c 1 a1).bind fun c =>
  if N ≥ 3 then
    (rd a 0).bind fun a0 => (rd c 2).bind fun c2 => wr c 0 (a0 + 2 * c2)
  else
    (rd a 0).bind fun a0 => wr c 0 a0

/-- The function `driver::starry::get_cl(u_in, c_out)`. The accessors
`unchecked<1>` and `mutable_unchecked<1>` make both arguments
one-dimensional arrays, the second one writeable. -/
def get_cl (u_in c_out : Vec) : Outcome Vec Vec :=
  let N : Int := u_in.length
  if N < 1 ∨ (c_out.length : Int) ≠ N then Outcome.raised Error.dimension_mismatch c_out
  else
    match get_cl_body u_in c_out with
    | some c => Outcome.returned c c
    | none => Outcome.undefined

/-! ## `get_cl_rev` -/

/-- The local vectors `ba`, `bc` and the output `bu` of `get_cl_rev`. -/
structure RevState where
  ba : Vec
  bc : Vec
  bu : Vec
  deriving DecidableEq, Repr

/-- Body of the copy loop: `bu(i) = 0; bc[i] = bc_(i);`. -/
def get_cl_rev_copy (bc_ : Vec) (i : Int) (s : RevState) : Option RevState :=
  (wr s.bu i 0).bind fun bu =>
  (rd bc_ i).bind fun x =>
  (wr s.bc i x).bind fun bc =>
  some ⟨s.ba, bc, bu⟩

/-- The statement pair `ba[k] = bc[k]; bc[k + 2] += m * bc[k];` of the branches
`N >= 3` (k = 0, m = 2) and `N >= 4` (k = 1, m = 3). -/
def get_cl_rev_fold (k : Int) (m : ℚ) (s : RevState) : Option RevState :=
  (rd s.bc k).bind fun x =>
  (wr s.ba k x).bind fun ba =>
  (rd s.bc (k + 2)).bind fun y =>
  (rd s.bc k).bind fun z =>
  (wr s.bc (k + 2) (y + m * z)).bind fun bc =>
  some ⟨ba, bc, s.bu⟩

/-- The statement `ba[k] = bc[k];` of the `else` branches. -/
def get_cl_rev_seed (k : Int) (s : RevState) : Option RevState :=
  (rd s.bc k).bind fun x =>
  (wr s.ba k x).bind fun ba =>
  some ⟨ba, s.bc, s.bu⟩

/-- Body of the loop `for (j = 2; j <= N - 3; ++j)`:
`ba[j] = bc[j] / (j + 2); bc[j + 2] += bc[j];`. -/
def get_cl_rev_mid (j : Int) (s : RevState) : Option RevState :=
  (rd s.bc j).bind fun x =>
  (wr s.ba j (x / ((j + 2 : Int) : ℚ))).bind fun ba =>
  (rd s.bc (j + 2)).bind fun y =>
  (rd s.bc j).bind fun z =>
  (wr s.bc (j + 2) (y + z)).bind fun bc =>
  some ⟨ba, bc, s.bu⟩

/-- Body of the loop `for (j = max(2, N - 2); j <= N - 1; ++j)`:
`ba[j] = bc[j] / (j + 2);`. -/
def get_cl_rev_top (j : Int) (s : RevState) : Option RevState :=
  (rd s.bc j).bind fun x =>
  (wr s.ba j (x / ((j + 2 : Int) : ℚ))).bind fun ba =>
  some ⟨ba, s.bc, s.bu⟩

/-- The variables of the last loop nest of `get_cl_rev`. -/
structure BCoeffs where
  bu : Vec
  bcoeff : ℚ
  sign : Int
  deriving DecidableEq, Repr

/-- Body of the inner loop of `get_cl_rev`:
`bu(i) -= ba[j] * bcoeff * sign; sign *= -1; bcoeff *= (double(i - j) / (j + 1));` -/
def get_cl_rev_inner (ba : Vec) (i j : Int) (s : BCoeffs) : Option BCoeffs :=
  (rd s.bu i).bind fun bui =>
  (rd ba j).bind fun baj =>
  (wr s.bu i (bui - baj * s.bcoeff * (s.sign : ℚ))).bind fun bu =>
  some ⟨bu, s.bcoeff * (((i - j : Int) : ℚ) / ((j + 1 : Int) : ℚ)), s.sign * (-1)⟩

/-- Body of the outer loop of `get_cl_rev`. -/
def get_cl_rev_outer (ba : Vec) (i : Int) (bu : Vec) : Option Vec :=
  (forLe 0 i (get_cl_rev_inner ba i) ⟨bu, 1, 1⟩).map BCoeffs.bu

/-- The statements of `get_cl_rev` after the dimension check; `none` when an
element access is out of range. -/
def get_cl_rev_body (bc_ bu : Vec) : Option Vec :=
  let N : Int := bc_.length
  (forLt 0 N (get_cl_rev_copy bc_)
      ⟨List.replicate N.toNat 0, List.replicate N.toNat 0, bu⟩).bind fun s =>
  (if N ≥ 3 then get_cl_rev_fold 0 2 s else get_cl_rev_seed 0 s).bind fun s =>
  (if N ≥ 4 then get_cl_rev_fold 1 3 s else get_cl_rev_seed 1 s).bind fun s =>
  (forLe 2 (N - 3) get_cl_rev_mid s).bind fun s =>
  (forLe (max 2 (N - 2)) (N - 1) get_cl_rev_top s).bind fun s =>
  forLt 1 N (get_cl_rev_outer s.ba) s.bu

/-- The function `driver::starry::get_cl_rev(bc_in, bu_out)`. -/
def get_cl_rev (bc_in bu_out : Vec) : Outcome Vec Vec :=
  let N : Int := bc_in.length
  if N < 1 ∨ (bu_out.length : Int) ≠ N then Outcome.raised Error.dimension_mismatch bu_out
  else
    match get_cl_rev_body bc_in bu_out with
    | some bu => Outcome.returned bu bu
    | none => Outcome.undefined

/-! ## `LimbDark::apply` -/

/-- The class `exoplanet::starry::limbdark::GreensLimbDark<double>` as far as
`LimbDark` uses it. Its header `exoplanet/starry.h` is not among the sources, so
the class is a parameter of the model: `σ` is the type of its objects, `make` the
constructor from an `int`, `lmax` the member of that name, `compute` the member
function `compute<true>(b, r)`, which updates the object, and `sT`, `dsTdb`,
`dsTdr` the members of these names, vectors read by index. -/
structure GreensLimbDark (σ : Type) where
  make : Int → σ
  lmax : σ → Int
  compute : σ → ℚ → ℚ → σ
  sT : σ → Nat → ℚ
  dsTdb : σ → Nat → ℚ
  dsTdr : σ → Nat → ℚ

/-- The product `v.dot(cl)` of an engine vector with the coefficient map `cl` of
`num_cl` entries. -/
def dot (v : Nat → ℚ) (cl : array_t) : ℚ :=
  ∑ k ∈ Finset.range cl.size, v k * cl.at k

/-- The assignment `dfdcl.col(i) = v` on the row-major `num_cl` by `N` map of
`dfdcl`: entry `(k, i)` is the flat entry `k * N + i`. -/
def setCol (dfdcl : array_t) (num_cl N i : Nat) (v : Nat → ℚ) : array_t :=
  (List.range num_cl).foldl (fun d k => d.put (k * N + i) (v k)) dfdcl

/-- The call `dfdcl.setZero()` on the `num_cl` by `N` map of `dfdcl`. -/
def setZero (dfdcl : array_t) (num_cl N : Nat) : array_t :=
  (List.range (num_cl * N)).foldl (fun d p => d.put p 0) dfdcl

/-- The output buffers of `LimbDark::apply` and the member `ld` of the object. -/
structure LimbDarkMem (σ : Type) where
  f : array_t
  dfdcl : array_t
  dfdb : array_t
  dfdr : array_t
  ld : σ

/-- The constructor `LimbDark() : ld(0)`. -/
def LimbDark_new {σ : Type} (E : GreensLimbDark σ) : σ := E.make 0

/-- The checks of `LimbDark::apply`, in the order of the source; `none` when
all of them pass. -/
def apply_checks (cl_in b_in r_in los_in f_out dfdcl_out dfdb_out dfdr_out : array_t) :
    Option Error :=
  let N := b_in.size
  if r_in.size ≠ N ∨ los_in.size ≠ N then some Error.dimension_mismatch
  else if f_out.readonly then some Error.outputs_must_be_writeable
  else if dfdb_out.readonly then some Error.outputs_must_be_writeable
  else if dfdr_out.readonly then some Error.outputs_must_be_writeable
  else if f_out.size ≠ N ∨ dfdb_out.size ≠ N ∨ dfdr_out.size ≠ N then
    some Error.dimension_mismatch
  else
    let num_cl := cl_in.size
    if dfdcl_out.ndim ≤ 1 ∨ dfdcl_out.shape.getD 0 0 ≠ num_cl ∨ dfdcl_out.size ≠ N * num_cl then
      some Error.invalid_dimensions_for_dfdcl
    else if dfdcl_out.readonly then some Error.dfdcl_must_be_writeable
    else none

/-- Body of the loop over the samples of `LimbDark::apply`. In the test
`b_ < 1 + r_` the sum is a double addition and is rounded (`fl64`); `b_` is a
double already, which `fl64` leaves as it is, and it is written `fl64 b_` so
that the comparison is one between doubles whatever rational the array holds. -/
def apply_sample {σ : Type} (E : GreensLimbDark σ) (cl b r los : array_t) (N : Nat)
    (m : LimbDarkMem σ) (i : Nat) : LimbDarkMem σ :=
  let f := m.f.put i 0
  let dfdb := m.dfdb.put i 0
  let dfdr := m.dfdr.put i 0
  if los.at i > 0 then
    let b_ := |b.at i|
    let r_ := |r.at i|
    if fl64 b_ < fl64 (1 + r_) then
      let ld := E.compute m.ld b_ r_
      let sT := E.sT ld
      { f := f.put i (dot sT cl - 1),
        dfdcl := setCol m.dfdcl cl.size N i sT,
        dfdb := dfdb.put i ((sgn (b.at i) : ℚ) * dot (E.dsTdb ld) cl),
        dfdr := dfdr.put i ((sgn (r.at i) : ℚ) * dot (E.dsTdr ld) cl),
        ld := ld }
    else { f := f, dfdcl := m.dfdcl, dfdb := dfdb, dfdr := dfdr, ld := m.ld }
  else { f := f, dfdcl := m.dfdcl, dfdb := dfdb, dfdr := dfdr, ld := m.ld }

/-- The statement `if (ld.lmax != int(num_cl)) ld = GreensLimbDark<double>(int(num_cl));`
of `LimbDark::apply`: the engine after it. -/
def apply_reinit {σ : Type} (E : GreensLimbDark σ) (self : σ) (num_cl : Nat) : σ :=
  if E.lmax self ≠ toInt32 (num_cl : Int) then E.make (toInt32 (num_cl : Int)) else self

/-- The member function `driver::starry::LimbDark::apply` called on an object
whose member `ld` is `self`. The sizes checked at the start keep every flat
index of the loop inside its array. -/
def apply {σ : Type} (E : GreensLimbDark σ) (self : σ)
    (cl_in b_in r_in los_in f_out dfdcl_out dfdb_out dfdr_out : array_t) :
    Outcome (array_t × array_t × array_t × array_t) (LimbDarkMem σ) :=
  match apply_checks cl_in b_in r_in los_in f_out dfdcl_out dfdb_out dfdr_out with
  | some e => Outcome.raised e ⟨f_out, dfdcl_out, dfdb_out, dfdr_out, self⟩
  | none =>
    let N := b_in.size
    let num_cl := cl_in.size
    let dfdcl := setZero dfdcl_out num_cl N
    let ld := apply_reinit E self num_cl
    let m := (List.range N).foldl (apply_sample E cl_in b_in r_in los_in N)
      ⟨f_out, dfdcl, dfdb_out, dfdr_out, ld⟩
    Outcome.returned (m.f, m.dfdcl, m.dfdb, m.dfdr) m

end starry

/-! ## `kepler` -/

namespace kepler

/-- The output buffers of `kepler`. -/
structure KeplerMem where
  sinf : array_t
  cosf : array_t
  deriving DecidableEq, Repr

/-- The loop of `kepler` from index `n` on, for `k` more iterations. The
parameter `solve_kepler` stands for `exoplanet::kepler::solve_kepler`, whose
header `exoplanet/kepler.h` is not among the sources: from its four arguments
`M(n)`, `ecc(n)`, `cosf(n)`, `sinf(n)`, the last two passed by reference, it
gives the new contents of the third and of the fourth. -/
def kepler_loop (solve_kepler : ℚ → ℚ → ℚ → ℚ → ℚ × ℚ) (M ecc : array_t) :
    Nat → Nat → KeplerMem → Outcome (array_t × array_t) KeplerMem
  | 0, _, m => Outcome.returned (m.cosf, m.sinf) m
  | k + 1, n, m =>
    if ecc.at n < 0 ∨ ecc.at n > 1 then Outcome.raised Error.eccentricity_range m
    else
      let out := solve_kepler (M.at n) (ecc.at n) (m.cosf.at n) (m.sinf.at n)
      kepler_loop solve_kepler M ecc k (n + 1)
        ⟨m.sinf.put n out.2, m.cosf.put n out.1⟩

/-- The function `driver::kepler::kepler(M_in, ecc_in, sinf_out, cosf_out)`. -/
def kepler (solve_kepler : ℚ → ℚ → ℚ → ℚ → ℚ × ℚ)
    (M_in ecc_in sinf_out cosf_out : array_t) : Outcome (array_t × array_t) KeplerMem :=
  if cosf_out.readonly then Outcome.raised Error.outputs_must_be_writeable ⟨sinf_out, cosf_out⟩
  else if sinf_out.readonly then
    Outcome.raised Error.outputs_must_be_writeable ⟨sinf_out, cosf_out⟩
  else
    let N := M_in.size
    if ecc_in.size ≠ N ∨ cosf_out.size ≠ N ∨ sinf_out.size ≠ N then
      Outcome.raised Error.dimension_mismatch ⟨sinf_out, cosf_out⟩
    else kepler_loop solve_kepler M_in ecc_in N 0 ⟨sinf_out, cosf_out⟩

end kepler

end driver

/-! ## The constructor of `KeplerOpBase` -/

/-- The members of `KeplerOpBase<T>`. -/
structure KeplerOpBase where
  maxiter_ : Int
  tol_ : ℚ
  deriving DecidableEq, Repr

/-- The constructor `KeplerOpBase<T>(context)` for the attribute values
`maxiter` and `tol` (both have defaults, so the two `GetAttr` calls succeed), with
`eps` the value of `std::numeric_limits<T>::epsilon()`; `none` when `OP_REQUIRES`
rejects a negative `maxiter` and leaves the constructor. -/
def KeplerOpBase.construct (maxiter : Int) (tol eps : ℚ) : Option KeplerOpBase :=
  if ¬ (maxiter ≥ 0) then none
  else some ⟨maxiter, if tol < eps then 2 * eps else tol⟩

namespace driver

namespace starry

/-! ## Reference quantities used to state the results -/

/-- The test of `LimbDark::apply` that sample `i` contributes:
`los(i) > 0` and `abs(b(i)) < 1 + abs(r(i))`, the sum rounded to a double. -/
def occulting (b r los : array_t) (i : Nat) : Prop :=
  los.at i > 0 ∧ fl64 |b.at i| < fl64 (1 + |r.at i|)

instance (b r los : array_t) (i : Nat) : Decidable (occulting b r los i) := by
  unfold occulting
  infer_instance

/-- The engine object of `LimbDark::apply` when the loop reaches sample `i`,
starting from the object `ld` left by the re-initialisation: every earlier
sample that passes the test `occulting` has called `compute` on it. -/
def engineAt {σ : Type} (E : GreensLimbDark σ) (ld : σ) (b r los : array_t) : Nat → σ
  | 0 => ld
  | i + 1 =>
    if occulting b r los i then E.compute (engineAt E ld b r los i) |b.at i| |r.at i|
    else engineAt E ld b r los i

/-- The engine object right after the call `ld.compute<true>(b_, r_)` made for
sample `i`. -/
def engineResult {σ : Type} (E : GreensLimbDark σ) (ld : σ) (b r los : array_t) (i : Nat) : σ :=
  E.compute (engineAt E ld b r los i) |b.at i| |r.at i|

/-- The value of `f(i)` after `LimbDark::apply`. -/
def fRef {σ : Type} (E : GreensLimbDark σ) (ld : σ) (cl b r los : array_t) (i : Nat) : ℚ :=
  if occulting b r los i then dot (E.sT (engineResult E ld b r los i)) cl - 1 else 0

/-- The value of entry `(k, i)` of `dfdcl` after `LimbDark::apply`. -/
def dfdclRef {σ : Type} (E : GreensLimbDark σ) (ld : σ) (b r los : array_t) (i k : Nat) : ℚ :=
  if occulting b r los i then E.sT (engineResult E ld b r los i) k else 0

/-- The value of `dfdb(i)` after `LimbDark::apply`. -/
def dfdbRef {σ : Type} (E : GreensLimbDark σ) (ld : σ) (cl b r los : array_t) (i : Nat) : ℚ :=
  if occulting b r los i then
    (sgn (b.at i) : ℚ) * dot (E.dsTdb (engineResult E ld b r los i)) cl
  else 0

/-- The value of `dfdr(i)` after `LimbDark::apply`. -/
def dfdrRef {σ : Type} (E : GreensLimbDark σ) (ld : σ) (cl b r los : array_t) (i : Nat) : ℚ :=
  if occulting b r los i then
    (sgn (r.at i) : ℚ) * dot (E.dsTdr (engineResult E ld b r los i)) cl
  else 0


/-- Value of `bcoeff` when the inner loop of outer step `i` reaches step `j`:
it starts at `1` and is multiplied by `double(i - j) / (j + 1)` after step `j`. -/
def bcoeffAt (i : Nat) : Nat → ℚ
  | 0 => 1
  | j + 1 => bcoeffAt i j * ((((i : Int) - (j : Int) : Int) : ℚ) / ((((j : Int) + 1 : Int)) : ℚ))

/-- Value of `sign` when the inner loop reaches step `j`. -/
def signAt : Nat → Int
  | 0 => 1
  | j + 1 => signAt j * (-1)

/-- The signed weight `bcoeff * sign` applied at inner step `j` of outer step `i`. -/
def weight (i j : Nat) : ℚ := bcoeffAt i j * (signAt j : ℚ)

/-- The vector `a` of `get_cl` as a function of `u`, for `N` coefficients:
`a[j] = [j = 0] - sum over 1 <= i < N with j <= i of u[i] * weight i j`. -/
def aRef (u : Vec) (N j : Nat) : ℚ :=
  (if j = 0 then 1 else 0) -
    ∑ i ∈ Finset.range N, if 1 ≤ i ∧ j ≤ i then u.getD i 0 * weight i j else 0

/-- The downward accumulation of `get_cl`: the sum of `a (j + 2k) / (j + 2k + 2)`
over the `k` with `j + 2k < N`. -/
def cUp (a : Nat → ℚ) (N j : Nat) : ℚ :=
  ∑ k ∈ Finset.range N,
    if j + 2 * k < N then a (j + 2 * k) / (((j + 2 * k : Nat) : ℚ) + 2) else 0

/-- The output of `get_cl` as a function of the vector `a`: entry `j` of `c`. -/
def cOf (a : Nat → ℚ) (N j : Nat) : ℚ :=
  if j = 0 then a 0 + 2 * cUp a N 2
  else if j = 1 then a 1 + 3 * cUp a N 3
  else cUp a N j

/-- The output of `get_cl` for the input `u`, entry by entry. -/
def clRef (u : Vec) : Vec :=
  (List.range u.length).map (cOf (aRef u u.length) u.length)

/-- Final value of the local vector `bc` of `get_cl_rev` at index `j`, as a
function of the input `bc_`: entries `2` and `3` receive the fold-ins of
entries `0` and `1`, every later entry receives the entry two places below. -/
def bcFinal (bc : Nat → ℚ) : Nat → ℚ
  | 0 => bc 0
  | 1 => bc 1
  | 2 => bc 2 + 2 * bc 0
  | 3 => bc 3 + 3 * bc 1
  | j + 4 => bc (j + 4) + bcFinal bc (j + 2)

/-- The local vector `ba` of `get_cl_rev` as a function of the input. -/
def baOf (bc : Nat → ℚ) (j : Nat) : ℚ :=
  if j < 2 then bc j else bcFinal bc j / ((j : ℚ) + 2)

/-- The output of `get_cl_rev` as a function of the vector `ba`: entry `i`. -/
def buOf (ba : Nat → ℚ) (i : Nat) : ℚ :=
  0 - if 1 ≤ i then ∑ j ∈ Finset.range (i + 1), ba j * weight i j else 0

/-- The output of `get_cl_rev` for the input `bc_`, entry by entry. -/
def clRevRef (bc_ : Vec) : Vec :=
  (List.range bc_.length).map (buOf (baOf fun m => bc_.getD m 0))

/-- An engine for concrete instances of the results: its object is the degree it
was made with, `compute` leaves it unchanged, and `sT[k] = k + 1`, `dsTdb[k] = 1`,
`dsTdr[k] = 2`. -/
def sampleEngine : GreensLimbDark Int :=
  { make := fun l => l,
    lmax := fun s => s,
    compute := fun s _ _ => s,
    sT := fun _ k => (k : ℚ) + 1,
    dsTdb := fun _ _ => 1,
    dsTdr := fun _ _ => 2 }

/-- The closed form of `a[j]` for `N` coefficients: `[j = 0]` minus `(-1)^j` times
the sum of `binom(i, j) * u[i]` over `i` from `max(1, j)` to `N - 1`. -/
def aClosed (u : Vec) (N j : Nat) : ℚ :=
  (if j = 0 then 1 else 0) -
    (-1) ^ j * ∑ i ∈ Finset.Icc (max 1 j) (N - 1), (Nat.choose i j : ℚ) * u.getD i 0

/-- The closed form of `c[j]` for `j >= 2`: the sum of `a[j + 2k] / (j + 2k + 2)`
over the `k >= 0` with `j + 2k <= N - 1`. -/
def cClosedHigh (u : Vec) (N j : Nat) : ℚ :=
  ∑ k ∈ (Finset.range N).filter (fun k => j + 2 * k ≤ N - 1),
    aClosed u N (j + 2 * k) / ((j + 2 * k + 2 : Nat) : ℚ)

/-- The closed form of `c[j]`: the sum above for `j >= 2`, `a[1] + 3 c[3]` if
`N >= 4` else `a[1]` for `j = 1`, and `a[0] + 2 c[2]` if `N >= 3` else `a[0]` for
`j = 0`. -/
def cClosed (u : Vec) (N j : Nat) : ℚ :=
  if 2 ≤ j then cClosedHigh u N j
  else if j = 1 then
    (if 4 ≤ N then aClosed u N 1 + 3 * cClosedHigh u N 3 else aClosed u N 1)
  else (if 3 ≤ N then aClosed u N 0 + 2 * cClosedHigh u N 2 else aClosed u N 0)

/-- The closed-form reference of `get_cl`, entry by entry. -/
def get_cl_closed (u : Vec) : Vec :=
  (List.range u.length).map (cClosed u u.length)

/-- The unit vector `e_k` of length `N`. -/
def unitVec (N k : Nat) : Vec :=
  (List.range N).map fun m => if m = k then 1 else 0

/-- The vector `u + e_i`. -/
def addUnit (u : Vec) (i : Nat) : Vec :=
  u.set i (u.getD i 0 + 1)

end starry

/-! ## Rounding to the nearest double

`fl64` is monotone, fixes the powers of two and is idempotent: its values are
the doubles, and a double is rounded to itself. -/

theorem roundEven_ge (q : ℚ) : ⌊q⌋ ≤ roundEven q := by
  unfold roundEven
  split_ifs <;> omega

theorem roundEven_le (q : ℚ) : roundEven q ≤ ⌊q⌋ + 1 := by
  unfold roundEven
  split_ifs <;> omega

theorem roundEven_intCast (n : Int) : roundEven (n : ℚ) = n := by
  unfold roundEven
  rw [Int.floor_intCast, sub_self, if_pos (by norm_num)]

theorem roundEven_mono (q q2 : ℚ) (h : q ≤ q2) : roundEven q ≤ roundEven q2 := by
  have hf : ⌊q⌋ ≤ ⌊q2⌋ := Int.floor_mono h
  rcases lt_or_eq_of_le hf with hlt | heq
  · have h1 := roundEven_le q
    have h2 := roundEven_ge q2
    omega
  · unfold roundEven
    rw [← heq]
    by_cases c1 : q - (⌊q⌋ : ℚ) < 1 / 2
    · rw [if_pos c1]
      split_ifs <;> omega
    · rw [if_neg c1]
      by_cases c2 : 1 / 2 < q - (⌊q⌋ : ℚ)
      · have d1 : ¬ (q2 - (⌊q⌋ : ℚ) < 1 / 2) := by linarith
        have d2 : 1 / 2 < q2 - (⌊q⌋ : ℚ) := by linarith
        rw [if_pos c2, if_neg d1, if_pos d2]
      · rw [if_neg c2]
        have d1 : ¬ (q2 - (⌊q⌋ : ℚ) < 1 / 2) := by linarith
        rw [if_neg d1]
        by_cases d2 : 1 / 2 < q2 - (⌊q⌋ : ℚ)
        · rw [if_pos d2]
          split_ifs <;> omega
        · rw [if_neg d2]

theorem ulp_pos (x : ℚ) : 0 < ulp x := by
  unfold ulp
  positivity

theorem fl64_pos_eq (x : ℚ) (hx : 0 < x) : fl64 x = (roundEven (x / ulp x) : ℚ) * ulp x := by
  unfold fl64
  rw [if_pos hx]

theorem two_zpow_le (x : ℚ) (hx : 0 < x) : (2 : ℚ) ^ Int.log 2 x ≤ x := by
  have := Int.zpow_log_le_self (b := 2) (by norm_num) hx
  simpa using this

theorem lt_two_zpow (x : ℚ) : x < (2 : ℚ) ^ (Int.log 2 x + 1) := by
  have := Int.lt_zpow_succ_log_self (b := 2) (by norm_num) x
  simpa using this

theorem zpow_split (e : Int) : (2 : ℚ) ^ e = ((2 ^ 52 : Int) : ℚ) * (2 : ℚ) ^ (e - 52) := by
  have h : e = 52 + (e - 52) := by ring
  conv_lhs => rw [h, zpow_add₀ (by norm_num : (2 : ℚ) ≠ 0)]
  norm_num

theorem zpow_split_succ (e : Int) :
    (2 : ℚ) ^ (e + 1) = ((2 ^ 53 : Int) : ℚ) * (2 : ℚ) ^ (e - 52) := by
  have h : e + 1 = 53 + (e - 52) := by ring
  conv_lhs => rw [h, zpow_add₀ (by norm_num : (2 : ℚ) ≠ 0)]
  norm_num

theorem fl64_ge_zpow (x : ℚ) (hx : 0 < x) : (2 : ℚ) ^ Int.log 2 x ≤ fl64 x := by
  rw [fl64_pos_eq x hx, zpow_split (Int.log 2 x)]
  have hu := ulp_pos x
  have hq : ((2 ^ 52 : Int) : ℚ) ≤ x / ulp x := by
    rw [le_div_iff₀ hu]
    have := two_zpow_le x hx
    rw [zpow_split (Int.log 2 x)] at this
    exact this
  have hr := roundEven_mono _ _ hq
  rw [roundEven_intCast] at hr
  have hr2 : ((2 ^ 52 : Int) : ℚ) ≤ (roundEven (x / ulp x) : ℚ) := by exact_mod_cast hr
  exact mul_le_mul_of_nonneg_right hr2 (le_of_lt hu)

theorem fl64_le_zpow (x : ℚ) (hx : 0 < x) : fl64 x ≤ (2 : ℚ) ^ (Int.log 2 x + 1) := by
  rw [fl64_pos_eq x hx, zpow_split_succ (Int.log 2 x)]
  have hu := ulp_pos x
  have hq : x / ulp x ≤ ((2 ^ 53 : Int) : ℚ) := by
    rw [div_le_iff₀ hu]
    have := le_of_lt (lt_two_zpow x)
    rw [zpow_split_succ (Int.log 2 x)] at this
    exact this
  have hr := roundEven_mono _ _ hq
  rw [roundEven_intCast] at hr
  have hr2 : (roundEven (x / ulp x) : ℚ) ≤ ((2 ^ 53 : Int) : ℚ) := by exact_mod_cast hr
  exact mul_le_mul_of_nonneg_right hr2 (le_of_lt hu)

theorem fl64_mono (x y : ℚ) (hx : 0 < x) (h : x ≤ y) : fl64 x ≤ fl64 y := by
  have hy : 0 < y := lt_of_lt_of_le hx h
  have hlog : Int.log 2 x ≤ Int.log 2 y := Int.log_mono_right hx h
  rcases lt_or_eq_of_le hlog with hlt | heq
  · calc fl64 x ≤ (2 : ℚ) ^ (Int.log 2 x + 1) := fl64_le_zpow x hx
      _ ≤ (2 : ℚ) ^ Int.log 2 y := zpow_le_zpow_right₀ (by norm_num) (by omega)
      _ ≤ fl64 y := fl64_ge_zpow y hy
  · have hu : ulp x = ulp y := by unfold ulp; rw [heq]
    rw [fl64_pos_eq x hx, fl64_pos_eq y hy, hu]
    have huy := ulp_pos y
    have hq : x / ulp y ≤ y / ulp y := div_le_div_of_nonneg_right h (le_of_lt huy)
    have hr := roundEven_mono _ _ hq
    have hr2 : (roundEven (x / ulp y) : ℚ) ≤ (roundEven (y / ulp y) : ℚ) := by exact_mod_cast hr
    exact mul_le_mul_of_nonneg_right hr2 (le_of_lt huy)

theorem fl64_zero : fl64 0 = 0 := by
  unfold fl64
  simp

theorem log_two_zpow (z : Int) : Int.log 2 ((2 : ℚ) ^ z) = z := by
  have := Int.log_zpow (R := ℚ) (b := 2) (by norm_num) z
  simpa using this

theorem fl64_zpow (z : Int) : fl64 ((2 : ℚ) ^ z) = (2 : ℚ) ^ z := by
  have hx : (0 : ℚ) < (2 : ℚ) ^ z := by positivity
  rw [fl64_pos_eq _ hx]
  have hu : ulp ((2 : ℚ) ^ z) = (2 : ℚ) ^ (z - 52) := by
    unfold ulp
    rw [log_two_zpow]
  rw [hu]
  have hq : (2 : ℚ) ^ z / (2 : ℚ) ^ (z - 52) = ((2 ^ 52 : Int) : ℚ) := by
    rw [div_eq_iff (by positivity), ← zpow_split]
  rw [hq, roundEven_intCast, ← zpow_split]

theorem fl64_one : fl64 1 = 1 := by
  have := fl64_zpow 0
  simpa using this

theorem log_eq_of_bounds (x : ℚ) (e : Int) (h1 : (2 : ℚ) ^ e ≤ x) (h2 : x < (2 : ℚ) ^ (e + 1)) :
    Int.log 2 x = e := by
  have hx : 0 < x := lt_of_lt_of_le (by positivity) h1
  have a1 : e ≤ Int.log 2 x := by
    rw [← Int.zpow_le_iff_le_log (b := 2) (by norm_num) hx]
    simpa using h1
  have a2 : Int.log 2 x < e + 1 := by
    rw [← Int.lt_zpow_iff_log_lt (b := 2) (by norm_num) hx]
    simpa using h2
  omega

theorem fl64_neg_eq (x : ℚ) (hx : x < 0) : fl64 x = -fl64 (-x) := by
  have hnx : 0 < -x := by linarith
  rw [fl64_pos_eq (-x) hnx]
  unfold fl64
  rw [if_neg (by linarith), if_pos hx]

theorem roundEven_ulp_bounds (x : ℚ) (hx : 0 < x) :
    (2 ^ 52 : Int) ≤ roundEven (x / ulp x) ∧ roundEven (x / ulp x) ≤ (2 ^ 53 : Int) := by
  have hu := ulp_pos x
  constructor
  · have hq : ((2 ^ 52 : Int) : ℚ) ≤ x / ulp x := by
      rw [le_div_iff₀ hu]
      have := two_zpow_le x hx
      rw [zpow_split (Int.log 2 x)] at this
      exact this
    have hr := roundEven_mono _ _ hq
    rw [roundEven_intCast] at hr
    exact hr
  · have hq : x / ulp x ≤ ((2 ^ 53 : Int) : ℚ) := by
      rw [div_le_iff₀ hu]
      have := le_of_lt (lt_two_zpow x)
      rw [zpow_split_succ (Int.log 2 x)] at this
      exact this
    have hr := roundEven_mono _ _ hq
    rw [roundEven_intCast] at hr
    exact hr

theorem fl64_idem_pos (x : ℚ) (hx : 0 < x) : fl64 (fl64 x) = fl64 x := by
  obtain ⟨hlo, hhi⟩ := roundEven_ulp_bounds x hx
  have hu := ulp_pos x
  have hue : ulp x = (2 : ℚ) ^ (Int.log 2 x - 52) := rfl
  rcases lt_or_eq_of_le hhi with hlt | heq
  · have hval : fl64 x = (roundEven (x / ulp x) : ℚ) * ulp x := fl64_pos_eq x hx
    have h1 : (2 : ℚ) ^ Int.log 2 x ≤ fl64 x := fl64_ge_zpow x hx
    have h2 : fl64 x < (2 : ℚ) ^ (Int.log 2 x + 1) := by
      rw [hval, zpow_split_succ (Int.log 2 x), ← hue]
      have : (roundEven (x / ulp x) : ℚ) < ((2 ^ 53 : Int) : ℚ) := by exact_mod_cast hlt
      exact mul_lt_mul_of_pos_right this hu
    have hlog : Int.log 2 (fl64 x) = Int.log 2 x := log_eq_of_bounds _ _ h1 h2
    have hpos : 0 < fl64 x := lt_of_lt_of_le (by positivity) h1
    have hu2 : ulp (fl64 x) = ulp x := by
      unfold ulp
      rw [hlog]
    rw [fl64_pos_eq (fl64 x) hpos, hu2]
    have hq : fl64 x / ulp x = (roundEven (x / ulp x) : ℚ) := by
      rw [hval]
      field_simp
    rw [hq, roundEven_intCast, hval]
  · have hval : fl64 x = (2 : ℚ) ^ (Int.log 2 x + 1) := by
      rw [fl64_pos_eq x hx, heq, zpow_split_succ (Int.log 2 x), ← hue]
    rw [hval, fl64_zpow]

theorem fl64_idem (x : ℚ) : fl64 (fl64 x) = fl64 x := by
  rcases lt_trichotomy x 0 with h | h | h
  · have hnx : 0 < -x := by linarith
    have hp : 0 < fl64 (-x) := lt_of_lt_of_le (by positivity) (fl64_ge_zpow (-x) hnx)
    rw [fl64_neg_eq x h, fl64_neg_eq (-fl64 (-x)) (by linarith), neg_neg, fl64_idem_pos (-x) hnx]
  · rw [h, fl64_zero, fl64_zero]
  · exact fl64_idem_pos x h

/-! ## Elementary facts on element access and loops -/

theorem getD_set (v : Vec) (n m : Nat) (x : ℚ) (h : n < v.length) :
    (v.set n x).getD m 0 = if m = n then x else v.getD m 0 := by
  simp only [List.getD_eq_getElem?_getD, List.getElem?_set]
  by_cases hmn : m = n
  · subst hmn; simp [h]
  · have hnm : ¬ n = m := fun h => hmn h.symm
    simp [hmn, hnm]

theorem getD_replicate_zero (n m : Nat) : (List.replicate n (0 : ℚ)).getD m 0 = 0 := by
  simp only [List.getD_eq_getElem?_getD, List.getElem?_replicate]
  split <;> rfl

theorem getD_of_length_le (v : Vec) (m : Nat) (h : v.length ≤ m) : v.getD m 0 = 0 := by
  simp [List.getD_eq_getElem?_getD, List.getElem?_eq_none h]

theorem rd_nat (v : Vec) (n : Nat) (h : n < v.length) :
    rd v (n : Int) = some (v.getD n 0) := by
  have h1 : (0 : Int) ≤ (n : Int) ∧ (n : Int) < (v.length : Int) := ⟨by omega, by omega⟩
  simp [rd, h1]

theorem wr_nat (v : Vec) (n : Nat) (x : ℚ) (h : n < v.length) :
    wr v (n : Int) x = some (v.set n x) := by
  have h1 : (0 : Int) ≤ (n : Int) ∧ (n : Int) < (v.length : Int) := ⟨by omega, by omega⟩
  simp [wr, h1]

theorem rd_eq_none (v : Vec) (i : Int) (h : (v.length : Int) ≤ i) : rd v i = none := by
  have h1 : ¬ (0 ≤ i ∧ i < (v.length : Int)) := by omega
  simp [rd, h1]

theorem loopUp_succ {σ : Type} (body : Int → σ → Option σ) (k : Nat) (j : Int) (s t : σ)
    (h : body j s = some t) : loopUp body (k + 1) j s = loopUp body k (j + 1) t := by
  simp [loopUp, h]

theorem loopDown_succ {σ : Type} (body : Int → σ → Option σ) (k : Nat) (j : Int) (s t : σ)
    (h : body j s = some t) : loopDown body (k + 1) j s = loopDown body k (j - 1) t := by
  simp [loopDown, h]

theorem vec_ext (a b : Vec) (hl : a.length = b.length)
    (h : ∀ m, m < a.length → a.getD m 0 = b.getD m 0) : a = b := by
  apply List.ext_getElem hl
  intro m h1 h2
  have := h m h1
  simp only [List.getD_eq_getElem?_getD, List.getElem?_eq_getElem h1,
    List.getElem?_eq_getElem h2, Option.getD_some] at this
  exact this

theorem getD_range_map (f : Nat → ℚ) (n m : Nat) (h : m < n) :
    ((List.range n).map f).getD m 0 = f m := by
  simp [List.getD_eq_getElem?_getD, List.getElem?_map, List.getElem?_range h]

theorem loopUp_snoc {σ : Type} (body : Int → σ → Option σ) :
    ∀ (k : Nat) (j : Int) (s : σ),
      loopUp body (k + 1) j s = (loopUp body k j s).bind (body (j + (k : Int))) := by
  intro k
  induction k with
  | zero =>
    intro j s
    simp only [loopUp, Option.some_bind, Nat.cast_zero, add_zero]
    cases body j s <;> simp [loopUp]
  | succ k ih =>
    intro j s
    have hunf : ∀ (n : Nat) (t : σ),
        loopUp body (n + 1) j t = (body j t).bind (loopUp body n (j + 1)) := fun _ _ => rfl
    rw [hunf (k + 1) s, hunf k s]
    cases hb : body j s with
    | none => simp
    | some t =>
      simp only [Option.some_bind]
      rw [ih (j + 1) t]
      have : j + 1 + (k : Int) = j + ((k + 1 : Nat) : Int) := by push_cast; ring
      rw [this]

namespace starry

/-! ## The `a` coefficients of `get_cl` -/

theorem get_cl_inner_run (u : Vec) (i : Nat) (hi : i < u.length) :
    ∀ (k j0 : Nat) (a : Vec), j0 + k ≤ a.length →
      ∃ a2 : Vec,
        loopUp (get_cl_inner u i) k (j0 : Int) ⟨a, bcoeffAt i j0, signAt j0⟩
            = some ⟨a2, bcoeffAt i (j0 + k), signAt (j0 + k)⟩ ∧
          a2.length = a.length ∧
          ∀ m, a2.getD m 0 = a.getD m 0 -
            (if j0 ≤ m ∧ m < j0 + k then u.getD i 0 * weight i m else 0) := by
  intro k
  induction k with
  | zero =>
    intro j0 a _
    refine ⟨a, by simp [loopUp], rfl, ?_⟩
    intro m
    have h0 : ¬ (j0 ≤ m ∧ m < j0 + 0) := by omega
    rw [if_neg h0, sub_zero]
  | succ k ih =>
    intro j0 a hlen
    have hj : j0 < a.length := by omega
    have hstep : get_cl_inner u i (j0 : Int) ⟨a, bcoeffAt i j0, signAt j0⟩
        = some ⟨a.set j0 (a.getD j0 0 - u.getD i 0 * bcoeffAt i j0 * (signAt j0 : ℚ)),
            bcoeffAt i (j0 + 1), signAt (j0 + 1)⟩ := by
      simp [get_cl_inner, rd_nat _ _ hj, rd_nat _ _ hi, wr_nat _ _ _ hj, bcoeffAt, signAt]
    rw [loopUp_succ _ _ _ _ _ hstep]
    have hcast : ((j0 : Int) + 1) = ((j0 + 1 : Nat) : Int) := by push_cast; rfl
    rw [hcast]
    obtain ⟨a2, hrun, hl, hval⟩ := ih (j0 + 1)
      (a.set j0 (a.getD j0 0 - u.getD i 0 * bcoeffAt i j0 * (signAt j0 : ℚ)))
      (by rw [List.length_set]; omega)
    refine ⟨a2, ?_, ?_, ?_⟩
    · rw [hrun]
      have : j0 + 1 + k = j0 + (k + 1) := by omega
      rw [this]
    · rw [hl, List.length_set]
    · intro m
      rw [hval m, getD_set _ _ _ _ hj]
      by_cases hm : m = j0
      · subst hm
        have h1 : ¬ (m + 1 ≤ m ∧ m < m + 1 + k) := by omega
        have h2 : m ≤ m ∧ m < m + (k + 1) := by omega
        rw [if_neg h1, if_pos h2, if_pos rfl, sub_zero]
        simp only [weight, mul_assoc]
      · rw [if_neg hm]
        by_cases hr : j0 + 1 ≤ m ∧ m < j0 + 1 + k
        · have h2 : j0 ≤ m ∧ m < j0 + (k + 1) := by omega
          rw [if_pos hr, if_pos h2]
        · have h2 : ¬ (j0 ≤ m ∧ m < j0 + (k + 1)) := by omega
          rw [if_neg hr, if_neg h2]


theorem get_cl_outer_run (u : Vec) (i : Nat) (hi : i < u.length) (a : Vec)
    (ha : i < a.length) :
    ∃ a2 : Vec, get_cl_outer u (i : Int) a = some a2 ∧ a2.length = a.length ∧
      ∀ m, a2.getD m 0 = a.getD m 0 - (if m ≤ i then u.getD i 0 * weight i m else 0) := by
  obtain ⟨a2, hrun, hl, hval⟩ := get_cl_inner_run u i hi (i + 1) 0 a (by omega)
  refine ⟨a2, ?_, hl, ?_⟩
  · have hcount : ((i : Int) + 1 - 0).toNat = i + 1 := by omega
    simp only [get_cl_outer, forLe, hcount]
    have h0 : ((0 : Nat) : Int) = 0 := rfl
    rw [h0] at hrun
    have hb : bcoeffAt i 0 = 1 := rfl
    have hs : signAt 0 = 1 := rfl
    rw [hb, hs] at hrun
    rw [hrun]
    rfl
  · intro m
    rw [hval m]
    by_cases hm : m ≤ i
    · have h2 : 0 ≤ m ∧ m < 0 + (i + 1) := by omega
      rw [if_pos hm, if_pos h2]
    · have h2 : ¬ (0 ≤ m ∧ m < 0 + (i + 1)) := by omega
      rw [if_neg hm, if_neg h2]

theorem get_cl_outer_loop (u : Vec) :
    ∀ (k : Nat) (a : Vec), 1 + k ≤ u.length → a.length = u.length →
      ∃ a2 : Vec, loopUp (get_cl_outer u) k 1 a = some a2 ∧ a2.length = a.length ∧
        ∀ m, a2.getD m 0 = a.getD m 0 -
          ∑ i ∈ Finset.range (1 + k),
            if 1 ≤ i ∧ m ≤ i then u.getD i 0 * weight i m else 0 := by
  intro k
  induction k with
  | zero =>
    intro a _ _
    refine ⟨a, rfl, rfl, ?_⟩
    intro m
    simp
  | succ k ih =>
    intro a hk ha
    obtain ⟨a1, hrun, hl, hval⟩ := ih a (by omega) ha
    have hcast : (1 : Int) + (k : Int) = ((1 + k : Nat) : Int) := by push_cast; rfl
    obtain ⟨a2, hstep, hl2, hval2⟩ :=
      get_cl_outer_run u (1 + k) (by omega) a1 (by rw [hl, ha]; omega)
    refine ⟨a2, ?_, by rw [hl2, hl], ?_⟩
    · rw [loopUp_snoc, hrun, Option.some_bind, hcast, hstep]
    · intro m
      rw [hval2 m, hval m]
      have hr : 1 + (k + 1) = (1 + k) + 1 := by omega
      rw [hr, Finset.sum_range_succ]
      by_cases hm : m ≤ 1 + k
      · have h2 : 1 ≤ 1 + k ∧ m ≤ 1 + k := ⟨by omega, hm⟩
        rw [if_pos hm, if_pos h2]
        ring
      · have h2 : ¬ (1 ≤ 1 + k ∧ m ≤ 1 + k) := fun h => hm h.2
        rw [if_neg hm, if_neg h2]
        ring

theorem zero_loop (k : Nat) :
    ∀ (a : Vec), 1 + k ≤ a.length →
      ∃ a2 : Vec, loopUp (fun n a => wr a n 0) k 1 a = some a2 ∧ a2.length = a.length ∧
        ∀ m, a2.getD m 0 = if 1 ≤ m ∧ m < 1 + k then 0 else a.getD m 0 := by
  induction k with
  | zero =>
    intro a _
    refine ⟨a, rfl, rfl, ?_⟩
    intro m
    have h : ¬ (1 ≤ m ∧ m < 1 + 0) := by omega
    rw [if_neg h]
  | succ k ih =>
    intro a hk
    obtain ⟨a1, hrun, hl, hval⟩ := ih a (by omega)
    have hcast : (1 : Int) + (k : Int) = ((1 + k : Nat) : Int) := by push_cast; rfl
    have hlt : 1 + k < a1.length := by rw [hl]; omega
    refine ⟨a1.set (1 + k) 0, ?_, by rw [List.length_set, hl], ?_⟩
    · rw [loopUp_snoc, hrun, Option.some_bind, hcast, wr_nat _ _ _ hlt]
    · intro m
      rw [getD_set _ _ _ _ hlt, hval m]
      by_cases hm : m = 1 + k
      · have h2 : 1 ≤ m ∧ m < 1 + (k + 1) := by omega
        rw [if_pos hm, if_pos h2]
      · rw [if_neg hm]
        by_cases h1 : 1 ≤ m ∧ m < 1 + k
        · have h2 : 1 ≤ m ∧ m < 1 + (k + 1) := by omega
          rw [if_pos h1, if_pos h2]
        · have h2 : ¬ (1 ≤ m ∧ m < 1 + (k + 1)) := by omega
          rw [if_neg h1, if_neg h2]

/-- The first half of `get_cl`: the vector `a` after the two initialisation
statements and the loop nest. -/
theorem get_cl_a_stage (u : Vec) (n : Nat) (hn : u.length = n + 1) :
    ∃ a0 a1 a : Vec,
      wr (List.replicate ((u.length : Int)).toNat 0) 0 1 = some a0 ∧
      forLt 1 (u.length : Int) (fun n a => wr a n 0) a0 = some a1 ∧
      forLt 1 (u.length : Int) (get_cl_outer u) a1 = some a ∧
      a.length = u.length ∧ ∀ m, a.getD m 0 = aRef u u.length m := by
  have hN : ((u.length : Int)).toNat = n + 1 := by omega
  have hcount : ((u.length : Int) - 1).toNat = n := by omega
  have hw : wr (List.replicate (n + 1) (0 : ℚ)) 0 1
      = some ((List.replicate (n + 1) (0 : ℚ)).set 0 1) := by
    have := wr_nat (List.replicate (n + 1) (0 : ℚ)) 0 1 (by simp)
    simpa using this
  obtain ⟨a1, hrun1, hl1, hval1⟩ := zero_loop n ((List.replicate (n + 1) (0 : ℚ)).set 0 1)
    (by simp; omega)
  obtain ⟨a2, hrun2, hl2, hval2⟩ := get_cl_outer_loop u n a1 (by omega)
    (by rw [hl1, hn]; simp)
  refine ⟨(List.replicate (n + 1) (0 : ℚ)).set 0 1, a1, a2, ?_, ?_, ?_, ?_, ?_⟩
  · rw [hN, hw]
  · simp only [forLt, hcount, hrun1]
  · simp only [forLt, hcount, hrun2]
  · rw [hl2, hl1, hn]; simp
  · intro m
    rw [hval2 m, hval1 m, getD_set _ _ _ _ (by simp), getD_replicate_zero, aRef, hn]
    have hr : 1 + n = n + 1 := by omega
    rw [hr]
    by_cases hm : m = 0
    · subst hm
      have h1 : ¬ (1 ≤ 0 ∧ 0 < n + 1) := by omega
      rw [if_neg h1, if_pos rfl]
    · by_cases h1 : 1 ≤ m ∧ m < n + 1
      · rw [if_pos h1, if_neg hm]
      · rw [if_neg h1, if_neg hm]

/-! ## The `c` coefficients of `get_cl` -/

theorem cUp_of_le (a : Nat → ℚ) (N j : Nat) (h : N ≤ j) : cUp a N j = 0 := by
  unfold cUp
  apply Finset.sum_eq_zero
  intro k _
  have : ¬ (j + 2 * k < N) := by omega
  rw [if_neg this]

theorem cUp_rec (a : Nat → ℚ) (N j : Nat) (h : j < N) :
    cUp a N j = a j / ((j : ℚ) + 2) + cUp a N (j + 2) := by
  have hlast : (∑ k ∈ Finset.range (N + 1),
      if j + 2 * k < N then a (j + 2 * k) / (((j + 2 * k : Nat) : ℚ) + 2) else 0)
      = cUp a N j := by
    rw [Finset.sum_range_succ]
    have : ¬ (j + 2 * N < N) := by omega
    rw [if_neg this, add_zero]
    rfl
  rw [← hlast, Finset.sum_range_succ']
  have h0 : j + 2 * 0 < N := by omega
  rw [if_pos h0, add_comm]
  congr 1
  unfold cUp
  apply Finset.sum_congr rfl
  intro k _
  have e : j + 2 * (k + 1) = j + 2 + 2 * k := by ring
  rw [e]

theorem get_cl_top_loop (a : Vec) :
    ∀ (k hi : Nat) (c : Vec), k ≤ hi → hi < a.length → hi < c.length →
      ∃ c2 : Vec, loopDown (get_cl_top a) k (hi : Int) c = some c2 ∧ c2.length = c.length ∧
        ∀ m, c2.getD m 0 =
          if m ≤ hi ∧ hi < m + k then a.getD m 0 / ((m : ℚ) + 2) else c.getD m 0 := by
  intro k
  induction k with
  | zero =>
    intro hi c _ _ _
    refine ⟨c, rfl, rfl, ?_⟩
    intro m
    have h : ¬ (m ≤ hi ∧ hi < m + 0) := by omega
    rw [if_neg h]
  | succ k ih =>
    intro hi c hk ha hc
    have hstep : get_cl_top a (hi : Int) c
        = some (c.set hi (a.getD hi 0 / ((hi : ℚ) + 2))) := by
      simp [get_cl_top, rd_nat _ _ ha, wr_nat _ _ _ hc]
    rw [loopDown_succ _ _ _ _ _ hstep]
    have hcast : ((hi : Int) - 1) = ((hi - 1 : Nat) : Int) := by omega
    rw [hcast]
    obtain ⟨c2, hrun, hl, hval⟩ := ih (hi - 1) (c.set hi (a.getD hi 0 / ((hi : ℚ) + 2)))
      (by omega) (by omega) (by rw [List.length_set]; omega)
    refine ⟨c2, hrun, by rw [hl, List.length_set], ?_⟩
    intro m
    rw [hval m, getD_set _ _ _ _ hc]
    by_cases hm : m = hi
    · subst hm
      have h1 : ¬ (m ≤ m - 1 ∧ m - 1 < m + k) := by omega
      have h2 : m ≤ m ∧ m < m + (k + 1) := by omega
      rw [if_neg h1, if_pos rfl, if_pos h2]
    · rw [if_neg hm]
      by_cases h1 : m ≤ hi - 1 ∧ hi - 1 < m + k
      · have h2 : m ≤ hi ∧ hi < m + (k + 1) := by omega
        rw [if_pos h1, if_pos h2]
      · have h2 : ¬ (m ≤ hi ∧ hi < m + (k + 1)) := by omega
        rw [if_neg h1, if_neg h2]

theorem get_cl_mid_loop (a : Vec) (N : Nat) (ha : a.length = N) :
    ∀ (k hi : Nat) (c : Vec), k ≤ hi → hi + 2 < N → c.length = N →
      (∀ m, hi < m → m < N → c.getD m 0 = cUp (fun t => a.getD t 0) N m) →
      ∃ c2 : Vec, loopDown (get_cl_mid a) k (hi : Int) c = some c2 ∧ c2.length = N ∧
        (∀ m, hi < m + k → m < N → c2.getD m 0 = cUp (fun t => a.getD t 0) N m) ∧
        (∀ m, m + k ≤ hi → c2.getD m 0 = c.getD m 0) := by
  intro k
  induction k with
  | zero =>
    intro hi c _ _ hc hpre
    exact ⟨c, rfl, hc, fun m h1 h2 => hpre m (by omega) h2, fun m _ => rfl⟩
  | succ k ih =>
    intro hi c hk hhi hc hpre
    have hia : hi < a.length := by omega
    have hic : hi < c.length := by omega
    have hic2 : hi + 2 < c.length := by omega
    have hcast2 : ((hi : Int) + 2) = ((hi + 2 : Nat) : Int) := by push_cast; rfl
    have hstep : get_cl_mid a (hi : Int) c
        = some (c.set hi (a.getD hi 0 / ((hi : ℚ) + 2) + c.getD (hi + 2) 0)) := by
      simp only [get_cl_mid, rd_nat _ _ hia, Option.some_bind]
      rw [hcast2, rd_nat _ _ hic2, Option.some_bind, wr_nat _ _ _ hic]
      simp
    rw [loopDown_succ _ _ _ _ _ hstep]
    have hcast : ((hi : Int) - 1) = ((hi - 1 : Nat) : Int) := by omega
    rw [hcast]
    have hnew : (c.set hi (a.getD hi 0 / ((hi : ℚ) + 2) + c.getD (hi + 2) 0)).getD hi 0
        = cUp (fun t => a.getD t 0) N hi := by
      rw [getD_set _ _ _ _ hic, if_pos rfl, cUp_rec _ _ _ (by omega : hi < N),
        hpre (hi + 2) (by omega) hhi]
    obtain ⟨c2, hrun, hl, hval, hold⟩ :=
      ih (hi - 1) (c.set hi (a.getD hi 0 / ((hi : ℚ) + 2) + c.getD (hi + 2) 0))
        (by omega) (by omega) (by rw [List.length_set]; exact hc)
        (by
          intro m h1 h2
          by_cases hm : m = hi
          · rw [hm]; exact hnew
          · rw [getD_set _ _ _ _ hic, if_neg hm]
            exact hpre m (by omega) h2)
    refine ⟨c2, hrun, hl, ?_, ?_⟩
    · intro m h1 h2
      exact hval m (by omega) h2
    · intro m h1
      rw [hold m (by omega), getD_set _ _ _ _ hic, if_neg (by omega)]


/-- After the two downward loops of `get_cl`, the entries `2 .. N-1` of `c` hold
their final values and the entries `0`, `1` are untouched. -/
theorem get_cl_high (a c : Vec) (n : Nat) (ha : a.length = n + 2) (hc : c.length = n + 2) :
    ∃ c1 c2 : Vec,
      forDownGe (((n + 2 : Nat) : Int) - 1) (max 2 (((n + 2 : Nat) : Int) - 2))
        (get_cl_top a) c = some c1 ∧
      forDownGe (((n + 2 : Nat) : Int) - 3) 2 (get_cl_mid a) c1 = some c2 ∧
      c2.length = n + 2 ∧
      ∀ m, 2 ≤ m → m < n + 2 → c2.getD m 0 = cUp (fun t => a.getD t 0) (n + 2) m := by
  have hkt : (((n + 2 : Nat) : Int) - 1 + 1 - max 2 (((n + 2 : Nat) : Int) - 2)).toNat
      = min n 2 := by omega
  have hstart : (((n + 2 : Nat) : Int) - 1) = ((n + 1 : Nat) : Int) := by omega
  obtain ⟨c1, hrun1, hl1, hval1⟩ := get_cl_top_loop a (min n 2) (n + 1) c
    (by omega) (by omega) (by omega)
  have htop : ∀ m, 2 ≤ m → n ≤ m → m < n + 2 →
      c1.getD m 0 = cUp (fun t => a.getD t 0) (n + 2) m := by
    intro m h2 hnm hm
    have hin : m ≤ n + 1 ∧ n + 1 < m + min n 2 := by omega
    rw [hval1 m, if_pos hin, cUp_rec _ _ _ hm, cUp_of_le _ _ _ (by omega : n + 2 ≤ m + 2),
      add_zero]
  have hkm : (((n + 2 : Nat) : Int) - 3 + 1 - 2).toNat = n - 2 := by omega
  by_cases hn : n ≤ 2
  · have hk0 : n - 2 = 0 := by omega
    refine ⟨c1, c1, ?_, ?_, by rw [hl1, hc], ?_⟩
    · unfold forDownGe
      rw [hkt, hstart, hrun1]
    · unfold forDownGe
      rw [hkm, hk0]
      rfl
    · intro m h2 hm
      exact htop m h2 (by omega) hm
  · have hstart2 : (((n + 2 : Nat) : Int) - 3) = ((n - 1 : Nat) : Int) := by omega
    obtain ⟨c2, hrun2, hl2, hval2, _⟩ := get_cl_mid_loop a (n + 2) ha (n - 2) (n - 1) c1
      (by omega) (by omega) (by rw [hl1, hc])
      (fun m h1 h2 => htop m (by omega) (by omega) h2)
    refine ⟨c1, c2, ?_, ?_, hl2, ?_⟩
    · unfold forDownGe
      rw [hkt, hstart, hrun1]
    · unfold forDownGe
      rw [hkm, hstart2, hrun2]
    · intro m h2 hm
      exact hval2 m (by omega) hm

/-- For at least two coefficients and an output buffer of the same length, the
body of `get_cl` makes no out-of-range access and produces `clRef u`. -/
theorem get_cl_body_eq (u c : Vec) (n : Nat) (hu : u.length = n + 2)
    (hc : c.length = n + 2) : get_cl_body u c = some (clRef u) := by
  obtain ⟨a0, a1, a, h0, h1, h2, hal, haval⟩ := get_cl_a_stage u (n + 1) hu
  have hal2 : a.length = n + 2 := by rw [hal, hu]
  have hlen : (u.length : Int) = ((n + 2 : Nat) : Int) := by rw [hu]
  obtain ⟨c1, c2, h3, h4, hl2, hval2⟩ := get_cl_high a c n hal2 hc
  have hfun : (fun t => a.getD t 0) = aRef u (n + 2) := by
    funext t
    rw [haval t, hu]
  rw [hfun] at hval2
  have hra1 : rd a 1 = some (a.getD 1 0) := by
    simpa using rd_nat a 1 (by omega)
  have hra0 : rd a 0 = some (a.getD 0 0) := by
    simpa using rd_nat a 0 (by omega)
  -- the statement for `c(1)`
  have hs1 : ∃ c3 : Vec,
      (if ((n + 2 : Nat) : Int) ≥ 4 then
          (rd a 1).bind fun a1 => (rd c2 3).bind fun c3 => wr c2 1 (a1 + 3 * c3)
        else (rd a 1).bind fun a1 => wr c2 1 a1) = some c3 ∧ c3.length = n + 2 ∧
      c3.getD 1 0 = aRef u (n + 2) 1 + 3 * cUp (aRef u (n + 2)) (n + 2) 3 ∧
      ∀ m, m ≠ 1 → c3.getD m 0 = c2.getD m 0 := by
    have hw : ∀ x, wr c2 1 x = some (c2.set 1 x) := by
      intro x
      simpa using wr_nat c2 1 x (by omega)
    by_cases hN : ((n + 2 : Nat) : Int) ≥ 4
    · have hr3 : rd c2 3 = some (c2.getD 3 0) := by
        simpa using rd_nat c2 3 (by omega)
      refine ⟨c2.set 1 (a.getD 1 0 + 3 * c2.getD 3 0), ?_, ?_, ?_, ?_⟩
      · rw [if_pos hN, hra1, Option.some_bind, hr3, Option.some_bind, hw]
      · rw [List.length_set, hl2]
      · rw [getD_set _ _ _ _ (by omega), if_pos rfl, hval2 3 (by omega) (by omega), haval 1, hu]
      · intro m hm
        rw [getD_set _ _ _ _ (by omega), if_neg hm]
    · refine ⟨c2.set 1 (a.getD 1 0), ?_, ?_, ?_, ?_⟩
      · rw [if_neg hN, hra1, Option.some_bind, hw]
      · rw [List.length_set, hl2]
      · rw [getD_set _ _ _ _ (by omega), if_pos rfl, cUp_of_le _ _ _ (by omega : n + 2 ≤ 3),
          haval 1, hu]
        ring
      · intro m hm
        rw [getD_set _ _ _ _ (by omega), if_neg hm]
  obtain ⟨c3, h5, hl3, hv31, hv3⟩ := hs1
  -- the statement for `c(0)`
  have hs0 : ∃ c4 : Vec,
      (if ((n + 2 : Nat) : Int) ≥ 3 then
          (rd a 0).bind fun a0 => (rd c3 2).bind fun c2 => wr c3 0 (a0 + 2 * c2)
        else (rd a 0).bind fun a0 => wr c3 0 a0) = some c4 ∧ c4.length = n + 2 ∧
      c4.getD 0 0 = aRef u (n + 2) 0 + 2 * cUp (aRef u (n + 2)) (n + 2) 2 ∧
      ∀ m, m ≠ 0 → c4.getD m 0 = c3.getD m 0 := by
    have hw : ∀ x, wr c3 0 x = some (c3.set 0 x) := by
      intro x
      simpa using wr_nat c3 0 x (by omega)
    by_cases hN : ((n + 2 : Nat) : Int) ≥ 3
    · have hr2 : rd c3 2 = some (c3.getD 2 0) := by
        simpa using rd_nat c3 2 (by omega)
      refine ⟨c3.set 0 (a.getD 0 0 + 2 * c3.getD 2 0), ?_, ?_, ?_, ?_⟩
      · rw [if_pos hN, hra0, Option.some_bind, hr2, Option.some_bind, hw]
      · rw [List.length_set, hl3]
      · rw [getD_set _ _ _ _ (by omega), if_pos rfl, hv3 2 (by omega),
          hval2 2 (by omega) (by omega), haval 0, hu]
      · intro m hm
        rw [getD_set _ _ _ _ (by omega), if_neg hm]
    · refine ⟨c3.set 0 (a.getD 0 0), ?_, ?_, ?_, ?_⟩
      · rw [if_neg hN, hra0, Option.some_bind, hw]
      · rw [List.length_set, hl3]
      · rw [getD_set _ _ _ _ (by omega), if_pos rfl, cUp_of_le _ _ _ (by omega : n + 2 ≤ 2),
          haval 0, hu]
        ring
      · intro m hm
        rw [getD_set _ _ _ _ (by omega), if_neg hm]
  obtain ⟨c4, h6, hl4, hv40, hv4⟩ := hs0
  have hfinal : c4 = clRef u := by
    apply vec_ext
    · rw [hl4, clRef]; simp [hu]
    · intro m hm
      rw [hl4] at hm
      rw [clRef, getD_range_map _ _ _ (by omega), hu, cOf]
      by_cases hm0 : m = 0
      · subst hm0
        rw [if_pos rfl, hv40]
      · rw [if_neg hm0]
        by_cases hm1 : m = 1
        · subst hm1
          rw [if_pos rfl, hv4 1 (by omega), hv31]
        · rw [if_neg hm1, hv4 m hm0, hv3 m hm1, hval2 m (by omega) hm]
  rw [hlen] at h0 h1 h2
  unfold get_cl_body
  simp only [hlen, h0, Option.some_bind, h1, h2, h3, h4, h5, h6, hfinal]


/-! ## The last loop nest of `get_cl_rev` -/

theorem get_cl_rev_inner_run (ba : Vec) (i : Nat) :
    ∀ (k : Nat) (bu : Vec), k ≤ ba.length → i < bu.length →
      ∃ bu2 : Vec,
        loopUp (get_cl_rev_inner ba i) k 0 ⟨bu, 1, 1⟩
            = some ⟨bu2, bcoeffAt i k, signAt k⟩ ∧
          bu2.length = bu.length ∧
          ∀ m, bu2.getD m 0 = bu.getD m 0 -
            (if m = i then ∑ j ∈ Finset.range k, ba.getD j 0 * weight i j else 0) := by
  intro k
  induction k with
  | zero =>
    intro bu _ _
    refine ⟨bu, rfl, rfl, ?_⟩
    intro m
    simp
  | succ k ih =>
    intro bu hk hi
    obtain ⟨bu1, hrun, hl, hval⟩ := ih bu (by omega) hi
    have hi1 : i < bu1.length := by rw [hl]; exact hi
    have hstep : get_cl_rev_inner ba (i : Int) (k : Int) ⟨bu1, bcoeffAt i k, signAt k⟩
        = some ⟨bu1.set i (bu1.getD i 0 - ba.getD k 0 * bcoeffAt i k * (signAt k : ℚ)),
            bcoeffAt i (k + 1), signAt (k + 1)⟩ := by
      simp [get_cl_rev_inner, rd_nat _ _ hi1, rd_nat _ _ (by omega : k < ba.length),
        wr_nat _ _ _ hi1, bcoeffAt, signAt]
    refine ⟨bu1.set i (bu1.getD i 0 - ba.getD k 0 * bcoeffAt i k * (signAt k : ℚ)),
      ?_, by rw [List.length_set, hl], ?_⟩
    · rw [loopUp_snoc, hrun, Option.some_bind, zero_add, hstep]
    · intro m
      rw [getD_set _ _ _ _ hi1]
      by_cases hm : m = i
      · subst hm
        rw [if_pos rfl, if_pos rfl, hval m, if_pos rfl, Finset.sum_range_succ]
        simp only [weight, mul_assoc]
        ring
      · rw [if_neg hm, if_neg hm, hval m, if_neg hm]

theorem get_cl_rev_outer_run (ba : Vec) (i : Nat) (bu : Vec) (hi : i < ba.length)
    (hb : i < bu.length) :
    ∃ bu2 : Vec, get_cl_rev_outer ba (i : Int) bu = some bu2 ∧ bu2.length = bu.length ∧
      ∀ m, bu2.getD m 0 = bu.getD m 0 -
        (if m = i then ∑ j ∈ Finset.range (i + 1), ba.getD j 0 * weight i j else 0) := by
  obtain ⟨bu2, hrun, hl, hval⟩ := get_cl_rev_inner_run ba i (i + 1) bu (by omega) hb
  refine ⟨bu2, ?_, hl, hval⟩
  have hcount : ((i : Int) + 1 - 0).toNat = i + 1 := by omega
  simp only [get_cl_rev_outer, forLe, hcount, hrun]
  rfl

theorem get_cl_rev_outer_loop (ba : Vec) :
    ∀ (k : Nat) (bu : Vec), 1 + k ≤ ba.length → bu.length = ba.length →
      ∃ bu2 : Vec, loopUp (get_cl_rev_outer ba) k 1 bu = some bu2 ∧
        bu2.length = bu.length ∧
        ∀ m, bu2.getD m 0 = bu.getD m 0 -
          (if 1 ≤ m ∧ m < 1 + k then
            ∑ j ∈ Finset.range (m + 1), ba.getD j 0 * weight m j else 0) := by
  intro k
  induction k with
  | zero =>
    intro bu _ _
    refine ⟨bu, rfl, rfl, ?_⟩
    intro m
    have h : ¬ (1 ≤ m ∧ m < 1 + 0) := by omega
    rw [if_neg h, sub_zero]
  | succ k ih =>
    intro bu hk hb
    obtain ⟨bu1, hrun, hl, hval⟩ := ih bu (by omega) hb
    have hcast : (1 : Int) + (k : Int) = ((1 + k : Nat) : Int) := by push_cast; rfl
    obtain ⟨bu2, hstep, hl2, hval2⟩ :=
      get_cl_rev_outer_run ba (1 + k) bu1 (by omega) (by rw [hl, hb]; omega)
    refine ⟨bu2, ?_, by rw [hl2, hl], ?_⟩
    · rw [loopUp_snoc, hrun, Option.some_bind, hcast, hstep]
    · intro m
      rw [hval2 m, hval m]
      by_cases hm : m = 1 + k
      · have h1 : ¬ (1 ≤ m ∧ m < 1 + k) := by omega
        have h2 : 1 ≤ m ∧ m < 1 + (k + 1) := by omega
        rw [if_pos hm, if_neg h1, if_pos h2, sub_zero, hm]
      · rw [if_neg hm, sub_zero]
        by_cases h1 : 1 ≤ m ∧ m < 1 + k
        · have h2 : 1 ≤ m ∧ m < 1 + (k + 1) := by omega
          rw [if_pos h1, if_pos h2]
        · have h2 : ¬ (1 ≤ m ∧ m < 1 + (k + 1)) := by omega
          rw [if_neg h1, if_neg h2]


/-! ## The first statements of `get_cl_rev` -/

theorem get_cl_rev_copy_loop (bc_ : Vec) (N : Nat) (hN : bc_.length = N) :
    ∀ (k : Nat) (s : RevState), k ≤ N → s.bc.length = N → s.bu.length = N →
      ∃ s2 : RevState, loopUp (get_cl_rev_copy bc_) k 0 s = some s2 ∧
        s2.ba = s.ba ∧ s2.bc.length = N ∧ s2.bu.length = N ∧
        (∀ m, s2.bc.getD m 0 = if m < k then bc_.getD m 0 else s.bc.getD m 0) ∧
        (∀ m, s2.bu.getD m 0 = if m < k then 0 else s.bu.getD m 0) := by
  intro k
  induction k with
  | zero =>
    intro s _ hbc hbu
    exact ⟨s, rfl, rfl, hbc, hbu, fun m => by simp, fun m => by simp⟩
  | succ k ih =>
    intro s hk hbc hbu
    obtain ⟨s1, hrun, hba1, hbc1, hbu1, hvbc, hvbu⟩ := ih s (by omega) hbc hbu
    have hstep : get_cl_rev_copy bc_ (k : Int) s1
        = some ⟨s1.ba, s1.bc.set k (bc_.getD k 0), s1.bu.set k 0⟩ := by
      simp [get_cl_rev_copy, wr_nat _ _ _ (by omega : k < s1.bu.length),
        rd_nat _ _ (by omega : k < bc_.length), wr_nat _ _ _ (by omega : k < s1.bc.length)]
    refine ⟨⟨s1.ba, s1.bc.set k (bc_.getD k 0), s1.bu.set k 0⟩, ?_, hba1, ?_, ?_, ?_, ?_⟩
    · rw [loopUp_snoc, hrun, Option.some_bind, zero_add, hstep]
    · simp only [List.length_set]; exact hbc1
    · simp only [List.length_set]; exact hbu1
    · intro m
      show (s1.bc.set k (bc_.getD k 0)).getD m 0 = _
      rw [getD_set _ _ _ _ (by omega), hvbc m]
      by_cases hm : m = k
      · subst hm
        rw [if_pos rfl, if_pos (by omega : m < m + 1)]
      · rw [if_neg hm]
        by_cases h1 : m < k
        · rw [if_pos h1, if_pos (by omega : m < k + 1)]
        · rw [if_neg h1, if_neg (by omega : ¬ m < k + 1)]
    · intro m
      show (s1.bu.set k 0).getD m 0 = _
      rw [getD_set _ _ _ _ (by omega), hvbu m]
      by_cases hm : m = k
      · subst hm
        rw [if_pos rfl, if_pos (by omega : m < m + 1)]
      · rw [if_neg hm]
        by_cases h1 : m < k
        · rw [if_pos h1, if_pos (by omega : m < k + 1)]
        · rw [if_neg h1, if_neg (by omega : ¬ m < k + 1)]

/-- The branch on `N >= 3` (with `k = 0`, `thr = 3`) and the branch on `N >= 4`
(with `k = 1`, `thr = 4`) of `get_cl_rev`. -/
theorem get_cl_rev_branch (k : Nat) (kI thr : Int) (mult : ℚ) (N : Nat) (s : RevState)
    (hkI : kI = (k : Int)) (hthr : thr = (k : Int) + 3) (hk : k < N)
    (hba : s.ba.length = N) (hbc : s.bc.length = N) :
    ∃ s2 : RevState,
      (if (N : Int) ≥ thr then get_cl_rev_fold kI mult s else get_cl_rev_seed kI s) = some s2 ∧
      s2.ba.length = N ∧ s2.bc.length = N ∧ s2.bu = s.bu ∧
      (∀ m, s2.ba.getD m 0 = if m = k then s.bc.getD k 0 else s.ba.getD m 0) ∧
      (∀ m, s2.bc.getD m 0 =
        if m = k + 2 ∧ k + 3 ≤ N then s.bc.getD (k + 2) 0 + mult * s.bc.getD k 0
        else s.bc.getD m 0) := by
  subst hkI hthr
  have hrk : rd s.bc (k : Int) = some (s.bc.getD k 0) := rd_nat _ _ (by omega)
  have hwk : ∀ x, wr s.ba (k : Int) x = some (s.ba.set k x) := fun x => wr_nat _ _ _ (by omega)
  by_cases hN : (N : Int) ≥ (k : Int) + 3
  · have hk2 : k + 2 < s.bc.length := by omega
    have hcast : ((k : Int) + 2) = ((k + 2 : Nat) : Int) := by push_cast; rfl
    refine ⟨⟨s.ba.set k (s.bc.getD k 0),
      s.bc.set (k + 2) (s.bc.getD (k + 2) 0 + mult * s.bc.getD k 0), s.bu⟩, ?_, ?_, ?_, rfl, ?_, ?_⟩
    · rw [if_pos hN]
      simp only [get_cl_rev_fold, hrk, hwk, Option.some_bind, hcast, rd_nat _ _ hk2,
        wr_nat _ _ _ hk2]
    · simp only [List.length_set]; exact hba
    · simp only [List.length_set]; exact hbc
    · intro m
      show (s.ba.set k (s.bc.getD k 0)).getD m 0 = _
      rw [getD_set _ _ _ _ (by omega)]
    · intro m
      show (s.bc.set (k + 2) (s.bc.getD (k + 2) 0 + mult * s.bc.getD k 0)).getD m 0 = _
      rw [getD_set _ _ _ _ hk2]
      by_cases hm : m = k + 2
      · rw [if_pos hm, if_pos ⟨hm, by omega⟩]
      · rw [if_neg hm, if_neg (fun h => hm h.1)]
  · refine ⟨⟨s.ba.set k (s.bc.getD k 0), s.bc, s.bu⟩, ?_, ?_, hbc, rfl, ?_, ?_⟩
    · rw [if_neg hN]
      simp only [get_cl_rev_seed, hrk, hwk, Option.some_bind]
    · simp only [List.length_set]; exact hba
    · intro m
      show (s.ba.set k (s.bc.getD k 0)).getD m 0 = _
      rw [getD_set _ _ _ _ (by omega)]
    · intro m
      rw [if_neg (by omega)]

theorem bcFinal_zero (b : Nat → ℚ) : bcFinal b 0 = b 0 := by rw [bcFinal]

theorem bcFinal_one (b : Nat → ℚ) : bcFinal b 1 = b 1 := by rw [bcFinal]

theorem bcFinal_two (b : Nat → ℚ) : bcFinal b 2 = b 2 + 2 * b 0 := by rw [bcFinal]

theorem bcFinal_three (b : Nat → ℚ) : bcFinal b 3 = b 3 + 3 * b 1 := by rw [bcFinal]

theorem bcFinal_add_four (b : Nat → ℚ) (j : Nat) :
    bcFinal b (j + 4) = b (j + 4) + bcFinal b (j + 2) := by rw [bcFinal]

theorem get_cl_rev_mid_loop (b : Nat → ℚ) (N : Nat) (s0 : RevState) :
    ∀ (k : Nat), k = 0 ∨ k + 4 ≤ N →
      s0.ba.length = N → s0.bc.length = N →
      (∀ m, m < 2 → s0.ba.getD m 0 = baOf b m) →
      (∀ m, m < N → m < 4 → s0.bc.getD m 0 = bcFinal b m) →
      (∀ m, 4 ≤ m → s0.bc.getD m 0 = b m) →
      ∃ s2 : RevState, loopUp get_cl_rev_mid k 2 s0 = some s2 ∧ s2.bu = s0.bu ∧
        s2.ba.length = N ∧ s2.bc.length = N ∧
        (∀ m, m < k + 2 → s2.ba.getD m 0 = baOf b m) ∧
        (∀ m, m < N → m < k + 4 → s2.bc.getD m 0 = bcFinal b m) ∧
        (∀ m, k + 4 ≤ m → s2.bc.getD m 0 = b m) := by
  intro k
  induction k with
  | zero =>
    intro _ hba hbc h1 h2 h3
    exact ⟨s0, rfl, rfl, hba, hbc, fun m hm => h1 m (by omega), fun m hm hm4 => h2 m hm (by omega),
      fun m hm => h3 m (by omega)⟩
  | succ k ih =>
    intro hk hba hbc h1 h2 h3
    have hk4 : k + 1 + 4 ≤ N := by omega
    obtain ⟨s1, hrun, hbu1, hba1, hbc1, hv1, hv2, hv3⟩ :=
      ih (Or.inr (by omega)) hba hbc h1 h2 h3
    have hj : k + 2 < s1.bc.length := by omega
    have hj2 : k + 4 < s1.bc.length := by omega
    have hja : k + 2 < s1.ba.length := by omega
    have hc1 : (2 : Int) + (k : Int) = ((k + 2 : Nat) : Int) := by push_cast; ring
    have hc2 : ((k + 2 : Nat) : Int) + 2 = ((k + 4 : Nat) : Int) := by push_cast; ring
    have hstep : get_cl_rev_mid ((k + 2 : Nat) : Int) s1
        = some ⟨s1.ba.set (k + 2) (s1.bc.getD (k + 2) 0 / (((k + 2 : Nat) : ℚ) + 2)),
            s1.bc.set (k + 4) (s1.bc.getD (k + 4) 0 + s1.bc.getD (k + 2) 0), s1.bu⟩ := by
      have hdiv : ((((k + 2 : Nat) : Int) + 2 : Int) : ℚ) = ((k + 2 : Nat) : ℚ) + 2 := by
        push_cast; ring
      unfold get_cl_rev_mid
      rw [hdiv]
      simp only [rd_nat _ _ hj, Option.some_bind, wr_nat _ _ _ hja, hc2,
        rd_nat _ _ hj2, wr_nat _ _ _ hj2]
    refine ⟨⟨s1.ba.set (k + 2) (s1.bc.getD (k + 2) 0 / (((k + 2 : Nat) : ℚ) + 2)),
            s1.bc.set (k + 4) (s1.bc.getD (k + 4) 0 + s1.bc.getD (k + 2) 0), s1.bu⟩,
      ?_, hbu1, ?_, ?_, ?_, ?_, ?_⟩
    · rw [loopUp_snoc, hrun, Option.some_bind, hc1, hstep]
    · simp only [List.length_set]; exact hba1
    · simp only [List.length_set]; exact hbc1
    · intro m hm
      show (s1.ba.set (k + 2) _).getD m 0 = _
      rw [getD_set _ _ _ _ hja]
      by_cases hmk : m = k + 2
      · rw [if_pos hmk, hv2 (k + 2) (by omega) (by omega), hmk, baOf,
          if_neg (by omega : ¬ k + 2 < 2)]
      · rw [if_neg hmk]
        exact hv1 m (by omega)
    · intro m hm hm4
      show (s1.bc.set (k + 4) _).getD m 0 = _
      rw [getD_set _ _ _ _ hj2]
      by_cases hmk : m = k + 4
      · rw [if_pos hmk, hv3 (k + 4) (by omega), hv2 (k + 2) (by omega) (by omega), hmk,
          bcFinal_add_four]
      · rw [if_neg hmk]
        exact hv2 m hm (by omega)
    · intro m hm
      show (s1.bc.set (k + 4) _).getD m 0 = _
      rw [getD_set _ _ _ _ hj2, if_neg (by omega)]
      exact hv3 m (by omega)

theorem get_cl_rev_top_loop (N : Nat) (lo : Nat) :
    ∀ (k : Nat) (s : RevState), lo + k ≤ N → s.ba.length = N → s.bc.length = N →
      ∃ s2 : RevState, loopUp get_cl_rev_top k (lo : Int) s = some s2 ∧
        s2.bc = s.bc ∧ s2.bu = s.bu ∧ s2.ba.length = N ∧
        ∀ m, s2.ba.getD m 0 =
          if lo ≤ m ∧ m < lo + k then s.bc.getD m 0 / ((m : ℚ) + 2) else s.ba.getD m 0 := by
  intro k
  induction k with
  | zero =>
    intro s _ hba _
    refine ⟨s, rfl, rfl, rfl, hba, ?_⟩
    intro m
    rw [if_neg (by omega)]
  | succ k ih =>
    intro s hk hba hbc
    obtain ⟨s1, hrun, hbc1, hbu1, hba1, hv⟩ := ih s (by omega) hba hbc
    have hc : (lo : Int) + (k : Int) = ((lo + k : Nat) : Int) := by push_cast; rfl
    have hj : lo + k < s1.bc.length := by rw [hbc1]; omega
    have hja : lo + k < s1.ba.length := by omega
    have hstep : get_cl_rev_top ((lo + k : Nat) : Int) s1
        = some ⟨s1.ba.set (lo + k) (s1.bc.getD (lo + k) 0 / (((lo + k : Nat) : ℚ) + 2)),
            s1.bc, s1.bu⟩ := by
      have hdiv : ((((lo + k : Nat) : Int) + 2 : Int) : ℚ) = ((lo + k : Nat) : ℚ) + 2 := by
        push_cast; ring
      unfold get_cl_rev_top
      rw [hdiv]
      simp only [rd_nat _ _ hj, Option.some_bind, wr_nat _ _ _ hja]
    refine ⟨⟨s1.ba.set (lo + k) (s1.bc.getD (lo + k) 0 / (((lo + k : Nat) : ℚ) + 2)),
            s1.bc, s1.bu⟩, ?_, hbc1, hbu1, ?_, ?_⟩
    · rw [loopUp_snoc, hrun, Option.some_bind, hc, hstep]
    · simp only [List.length_set]; exact hba1
    · intro m
      show (s1.ba.set (lo + k) _).getD m 0 = _
      rw [getD_set _ _ _ _ hja]
      by_cases hmk : m = lo + k
      · rw [if_pos hmk, if_pos (by omega), hbc1, hmk]
      · rw [if_neg hmk, hv m]
        by_cases h1 : lo ≤ m ∧ m < lo + k
        · rw [if_pos h1, if_pos (by omega)]
        · rw [if_neg h1, if_neg (by omega)]


/-- The state of `get_cl_rev` after the copy loop and the two branches. -/
theorem get_cl_rev_seeded (bc_ bu : Vec) (n : Nat) (hb : bc_.length = n + 2)
    (hu : bu.length = n + 2) :
    ∃ s1 s2 s3 : RevState,
      loopUp (get_cl_rev_copy bc_) (n + 2) 0
        ⟨List.replicate (n + 2) 0, List.replicate (n + 2) 0, bu⟩ = some s1 ∧
      (if ((n + 2 : Nat) : Int) ≥ 3 then get_cl_rev_fold 0 2 s1 else get_cl_rev_seed 0 s1)
        = some s2 ∧
      (if ((n + 2 : Nat) : Int) ≥ 4 then get_cl_rev_fold 1 3 s2 else get_cl_rev_seed 1 s2)
        = some s3 ∧
      s3.ba.length = n + 2 ∧ s3.bc.length = n + 2 ∧ s3.bu.length = n + 2 ∧
      (∀ m, s3.bu.getD m 0 = 0) ∧
      (∀ m, m < 2 → s3.ba.getD m 0 = baOf (fun m => bc_.getD m 0) m) ∧
      (∀ m, m < n + 2 → m < 4 → s3.bc.getD m 0 = bcFinal (fun m => bc_.getD m 0) m) ∧
      (∀ m, 4 ≤ m → s3.bc.getD m 0 = bc_.getD m 0) := by
  obtain ⟨s1, hrun1, hba1, hbcl1, hbul1, hvbc1, hvbu1⟩ :=
    get_cl_rev_copy_loop bc_ (n + 2) hb (n + 2)
      ⟨List.replicate (n + 2) 0, List.replicate (n + 2) 0, bu⟩ (le_refl _) (by simp) hu
  dsimp only at hba1 hvbc1 hvbu1
  have hbal1 : s1.ba.length = n + 2 := by rw [hba1]; simp
  have hbc1 : ∀ m, s1.bc.getD m 0 = bc_.getD m 0 := by
    intro m
    rw [hvbc1 m]
    by_cases hm : m < n + 2
    · rw [if_pos hm]
    · rw [if_neg hm, getD_replicate_zero, getD_of_length_le bc_ m (by omega)]
  have hbu1 : ∀ m, s1.bu.getD m 0 = 0 := by
    intro m
    rw [hvbu1 m]
    by_cases hm : m < n + 2
    · rw [if_pos hm]
    · rw [if_neg hm]
      exact getD_of_length_le _ _ (by omega)
  obtain ⟨s2, hrun2, hbal2, hbcl2, hbu2, hvba2, hvbc2⟩ :=
    get_cl_rev_branch 0 0 3 2 (n + 2) s1 rfl rfl (by omega) hbal1 hbcl1
  obtain ⟨s3, hrun3, hbal3, hbcl3, hbu3, hvba3, hvbc3⟩ :=
    get_cl_rev_branch 1 1 4 3 (n + 2) s2 rfl rfl (by omega) hbal2 hbcl2
  refine ⟨s1, s2, s3, hrun1, hrun2, hrun3, hbal3, hbcl3, by rw [hbu3, hbu2, hbul1], ?_, ?_, ?_, ?_⟩
  · intro m
    rw [hbu3, hbu2]
    exact hbu1 m
  · intro m hm
    rw [hvba3 m, baOf, if_pos hm]
    by_cases h1 : m = 1
    · rw [if_pos h1, hvbc2 1, if_neg (by omega), hbc1 1, h1]
    · have h0 : m = 0 := by omega
      rw [if_neg h1, hvba2 m, if_pos h0, hbc1 0, h0]
  · intro m hm hm4
    rw [hvbc3 m]
    by_cases h3 : m = 3
    · subst h3
      rw [if_pos ⟨rfl, by omega⟩, hvbc2 3, hvbc2 1, if_neg (by omega), if_neg (by omega),
        hbc1 3, hbc1 1, bcFinal_three]
    · rw [if_neg (fun h => h3 h.1), hvbc2 m]
      by_cases h2 : m = 2
      · subst h2
        rw [if_pos ⟨rfl, by omega⟩, hbc1 2, hbc1 0, bcFinal_two]
      · rw [if_neg (fun h => h2 h.1), hbc1 m]
        by_cases h1 : m = 1
        · subst h1; rw [bcFinal_one]
        · have h0 : m = 0 := by omega
          subst h0; rw [bcFinal_zero]
  · intro m hm
    rw [hvbc3 m, if_neg (by omega), hvbc2 m, if_neg (by omega), hbc1 m]

/-- The vector `ba` of `get_cl_rev` after the two loops that fill it. -/
theorem get_cl_rev_ba_stage (b : Nat → ℚ) (n : Nat) (s3 : RevState)
    (hbal3 : s3.ba.length = n + 2) (hbcl3 : s3.bc.length = n + 2)
    (h1 : ∀ m, m < 2 → s3.ba.getD m 0 = baOf b m)
    (h2 : ∀ m, m < n + 2 → m < 4 → s3.bc.getD m 0 = bcFinal b m)
    (h3 : ∀ m, 4 ≤ m → s3.bc.getD m 0 = b m) :
    ∃ s4 s5 : RevState,
      forLe 2 (((n + 2 : Nat) : Int) - 3) get_cl_rev_mid s3 = some s4 ∧
      forLe (max 2 (((n + 2 : Nat) : Int) - 2)) (((n + 2 : Nat) : Int) - 1) get_cl_rev_top s4
        = some s5 ∧
      s5.bu = s3.bu ∧ s5.ba.length = n + 2 ∧
      ∀ m, m < n + 2 → s5.ba.getD m 0 = baOf b m := by
  have hk4 : (((n + 2 : Nat) : Int) - 3 + 1 - 2).toNat = n - 2 := by omega
  obtain ⟨s4, hrun4, hbu4, hbal4, hbcl4, hvba4, hvbc4, _⟩ :=
    get_cl_rev_mid_loop b (n + 2) s3 (n - 2) (by omega) hbal3 hbcl3 h1 h2 h3
  have hk5 : (((n + 2 : Nat) : Int) - 1 + 1 - max 2 (((n + 2 : Nat) : Int) - 2)).toNat
      = min n 2 := by omega
  have hlo : max 2 (((n + 2 : Nat) : Int) - 2) = ((n - 2 + 2 : Nat) : Int) := by omega
  obtain ⟨s5, hrun5, hbc5, hbu5, hbal5, hvba5⟩ :=
    get_cl_rev_top_loop (n + 2) (n - 2 + 2) (min n 2) s4 (by omega) hbal4 hbcl4
  refine ⟨s4, s5, ?_, ?_, by rw [hbu5, hbu4], hbal5, ?_⟩
  · unfold forLe
    rw [hk4, hrun4]
  · unfold forLe
    rw [hk5, hlo, hrun5]
  · intro m hm
    rw [hvba5 m]
    by_cases h1 : n - 2 + 2 ≤ m ∧ m < n - 2 + 2 + min n 2
    · rw [if_pos h1, hvbc4 m hm (by omega), baOf, if_neg (by omega)]
    · rw [if_neg h1]
      exact hvba4 m (by omega)

/-- For at least two coefficients and an output buffer of the same length, the
body of `get_cl_rev` makes no out-of-range access and produces `clRevRef bc_`. -/
theorem get_cl_rev_body_eq (bc_ bu : Vec) (n : Nat) (hb : bc_.length = n + 2)
    (hu : bu.length = n + 2) : get_cl_rev_body bc_ bu = some (clRevRef bc_) := by
  have hlen : (bc_.length : Int) = ((n + 2 : Nat) : Int) := by rw [hb]
  have hNat : (((n + 2 : Nat) : Int)).toNat = n + 2 := by omega
  have hk1 : (((n + 2 : Nat) : Int) - 0).toNat = n + 2 := by omega
  obtain ⟨s1, s2, s3, hrun1, hrun2, hrun3, hbal3, hbcl3, hbul3, hbu3, hv1, hv2, hv3⟩ :=
    get_cl_rev_seeded bc_ bu n hb hu
  obtain ⟨s4, s5, hrun4, hrun5, hbu5, hbal5, hba5⟩ :=
    get_cl_rev_ba_stage (fun m => bc_.getD m 0) n s3 hbal3 hbcl3 hv1 hv2 hv3
  have hk6 : (((n + 2 : Nat) : Int) - 1).toNat = n + 1 := by omega
  obtain ⟨bu6, hrun6, hbul6, hvbu6⟩ :=
    get_cl_rev_outer_loop s5.ba (n + 1) s5.bu (by omega) (by rw [hbal5, hbu5, hbul3])
  have hfinal : bu6 = clRevRef bc_ := by
    apply vec_ext
    · rw [hbul6, hbu5, hbul3, clRevRef]; simp [hb]
    · intro m hm
      rw [hbul6, hbu5, hbul3] at hm
      rw [clRevRef, getD_range_map _ _ _ (by omega), hvbu6 m, hbu5, hbu3 m, buOf]
      congr 1
      by_cases h1 : 1 ≤ m
      · rw [if_pos ⟨h1, by omega⟩, if_pos h1]
        apply Finset.sum_congr rfl
        intro j hj
        rw [Finset.mem_range] at hj
        rw [hba5 j (by omega)]
      · rw [if_neg (fun h => h1 h.1), if_neg h1]
  have hfl : forLt 0 ((n + 2 : Nat) : Int) (get_cl_rev_copy bc_)
      ⟨List.replicate (n + 2) 0, List.replicate (n + 2) 0, bu⟩ = some s1 := by
    unfold forLt
    rw [hk1, hrun1]
  have hf6 : forLt 1 ((n + 2 : Nat) : Int) (get_cl_rev_outer s5.ba) s5.bu = some bu6 := by
    unfold forLt
    rw [hk6, hrun6]
  unfold get_cl_rev_body
  simp only [hlen, hNat, hfl, Option.some_bind, hrun2, hrun3, hrun4, hrun5, hf6, hfinal]


/-! ## The reverse pass is the transpose of the forward pass -/

/-- Telescoping identity behind the transposition of the `j, j + 2` coupling. -/
theorem telescope (a b D B : Nat → ℚ) (N : Nat)
    (hD : ∀ x, N ≤ x → D x = 0)
    (hrec : ∀ x, x < N → D x = a x / ((x : ℚ) + 2) + D (x + 2))
    (hB : ∀ x, 2 ≤ x → B (x + 2) = b (x + 2) + B x) :
    ∀ (k m : Nat), 2 ≤ m → m + k = N →
      ∑ t ∈ Finset.range k, B (t + m) / (((t + m : Nat) : ℚ) + 2) * a (t + m)
        = ∑ t ∈ Finset.range k, b (t + m) * D (t + m)
          + (B m - b m) * D m + (B (m + 1) - b (m + 1)) * D (m + 1) := by
  intro k
  induction k with
  | zero =>
    intro m _ hm
    rw [hD m (by omega), hD (m + 1) (by omega)]
    simp
  | succ k ih =>
    intro m hm2 hm
    have hshift : ∀ t, t + 1 + m = t + (m + 1) := fun t => by omega
    rw [Finset.sum_range_succ', Finset.sum_range_succ']
    simp only [hshift, Nat.zero_add]
    rw [ih (m + 1) (by omega) (by omega), hrec m (by omega), hB m hm2]
    have hne : ((m : ℚ) + 2) ≠ 0 := by positivity
    field_simp
    ring

theorem cUp_sub (a a2 : Nat → ℚ) (N j : Nat) :
    cUp a N j - cUp a2 N j = cUp (fun x => a x - a2 x) N j := by
  unfold cUp
  rw [← Finset.sum_sub_distrib]
  apply Finset.sum_congr rfl
  intro k _
  by_cases h : j + 2 * k < N
  · rw [if_pos h, if_pos h, if_pos h, sub_div]
  · rw [if_neg h, if_neg h, if_neg h, sub_zero]

theorem cOf_sub (a a2 : Nat → ℚ) (N j : Nat) :
    cOf a N j - cOf a2 N j = cOf (fun x => a x - a2 x) N j := by
  unfold cOf
  by_cases h0 : j = 0
  · rw [if_pos h0, if_pos h0, if_pos h0, ← cUp_sub]
    ring
  · rw [if_neg h0, if_neg h0, if_neg h0]
    by_cases h1 : j = 1
    · rw [if_pos h1, if_pos h1, if_pos h1, ← cUp_sub]
      ring
    · rw [if_neg h1, if_neg h1, if_neg h1, cUp_sub]

/-- The `c` stage: `baOf` is the transpose of `cOf`. -/
theorem cOf_transpose (a b : Nat → ℚ) (n : Nat) :
    ∑ k ∈ Finset.range (n + 2), b k * cOf a (n + 2) k
      = ∑ j ∈ Finset.range (n + 2), baOf b j * a j := by
  have ht := telescope a b (cUp a (n + 2)) (bcFinal b) (n + 2)
    (fun x hx => cUp_of_le a (n + 2) x hx)
    (fun x hx => cUp_rec a (n + 2) x hx)
    (fun x hx => by
      obtain ⟨y, rfl⟩ : ∃ y, x = y + 2 := ⟨x - 2, by omega⟩
      exact bcFinal_add_four b y)
    n 2 (le_refl _) (by omega)
  rw [Finset.sum_range_succ', Finset.sum_range_succ', Finset.sum_range_succ',
    Finset.sum_range_succ']
  have hc : ∀ t : Nat, cOf a (n + 2) (t + 1 + 1) = cUp a (n + 2) (t + 2) := by
    intro t
    rw [cOf, if_neg (by omega), if_neg (by omega)]
  have hb : ∀ t : Nat, baOf b (t + 1 + 1) = bcFinal b (t + 2) / (((t + 2 : Nat) : ℚ) + 2) := by
    intro t
    rw [baOf, if_neg (by omega)]
  simp only [hc, hb, ht]
  have e0 : cOf a (n + 2) 0 = a 0 + 2 * cUp a (n + 2) 2 := by rw [cOf, if_pos rfl]
  have e1 : cOf a (n + 2) (0 + 1) = a 1 + 3 * cUp a (n + 2) 3 := by
    rw [cOf, if_neg (by omega), if_pos rfl]
  have f0 : baOf b 0 = b 0 := by rw [baOf, if_pos (by omega)]
  have f1 : baOf b (0 + 1) = b 1 := by rw [baOf, if_pos (by omega)]
  rw [e0, e1, f0, f1, bcFinal_two, bcFinal_three]
  ring

/-- A sum over `0 .. i` written as a sum over `0 .. N-1`. -/
theorem sum_range_le (f : Nat → ℚ) (N i : Nat) (h : i < N) :
    ∑ j ∈ Finset.range (i + 1), f j = ∑ j ∈ Finset.range N, if j ≤ i then f j else 0 := by
  rw [← Finset.sum_filter]
  apply Finset.sum_congr
  · ext j
    simp only [Finset.mem_range, Finset.mem_filter]
    omega
  · intro _ _
    rfl

/-- The `a` stage: `buOf` is the transpose of the map from `u` to `a`. -/
theorem buOf_transpose (ba d : Nat → ℚ) (N : Nat) :
    ∑ i ∈ Finset.range N, buOf ba i * d i
      = ∑ j ∈ Finset.range N, ba j *
          (0 - ∑ i ∈ Finset.range N, if 1 ≤ i ∧ j ≤ i then d i * weight i j else 0) := by
  have hl : ∀ i ∈ Finset.range N, buOf ba i * d i
      = ∑ j ∈ Finset.range N, if 1 ≤ i ∧ j ≤ i then -(ba j * (d i * weight i j)) else 0 := by
    intro i hi
    rw [Finset.mem_range] at hi
    unfold buOf
    by_cases h1 : 1 ≤ i
    · rw [if_pos h1, sum_range_le _ N i hi, zero_sub, neg_mul, Finset.sum_mul,
        ← Finset.sum_neg_distrib]
      apply Finset.sum_congr rfl
      intro j _
      by_cases hj : j ≤ i
      · rw [if_pos hj, if_pos ⟨h1, hj⟩]
        ring
      · rw [if_neg hj, if_neg (fun h => hj h.2)]
        ring
    · rw [if_neg h1]
      have : ∀ j ∈ Finset.range N,
          (if 1 ≤ i ∧ j ≤ i then -(ba j * (d i * weight i j)) else 0) = 0 := by
        intro j _
        rw [if_neg (fun h => h1 h.1)]
      rw [Finset.sum_congr rfl this]
      simp
  have hr : ∀ j ∈ Finset.range N, ba j *
      (0 - ∑ i ∈ Finset.range N, if 1 ≤ i ∧ j ≤ i then d i * weight i j else 0)
      = ∑ i ∈ Finset.range N, if 1 ≤ i ∧ j ≤ i then -(ba j * (d i * weight i j)) else 0 := by
    intro j _
    rw [zero_sub, mul_neg, Finset.mul_sum, ← Finset.sum_neg_distrib]
    apply Finset.sum_congr rfl
    intro i _
    by_cases h : 1 ≤ i ∧ j ≤ i
    · rw [if_pos h, if_pos h]
    · rw [if_neg h, if_neg h]
      ring
  rw [Finset.sum_congr rfl hl, Finset.sum_congr rfl hr, Finset.sum_comm]

theorem aRef_sub (u u2 : Vec) (N j : Nat) :
    aRef u N j - aRef u2 N j
      = 0 - ∑ i ∈ Finset.range N,
          if 1 ≤ i ∧ j ≤ i then (u.getD i 0 - u2.getD i 0) * weight i j else 0 := by
  unfold aRef
  have : ∀ i ∈ Finset.range N,
      (if 1 ≤ i ∧ j ≤ i then (u.getD i 0 - u2.getD i 0) * weight i j else 0)
        = (if 1 ≤ i ∧ j ≤ i then u.getD i 0 * weight i j else 0)
          - (if 1 ≤ i ∧ j ≤ i then u2.getD i 0 * weight i j else 0) := by
    intro i _
    by_cases h : 1 ≤ i ∧ j ≤ i
    · rw [if_pos h, if_pos h, if_pos h]; ring
    · rw [if_neg h, if_neg h, if_neg h]; ring
  rw [Finset.sum_congr rfl this, Finset.sum_sub_distrib]
  ring

/-- The adjoint identity on the reference functions. -/
theorem clRef_adjoint (u u2 bc : Vec) (n : Nat) (hu : u.length = n + 2)
    (hu2 : u2.length = n + 2) (hbc : bc.length = n + 2) :
    ∑ i ∈ Finset.range (n + 2), (clRevRef bc).getD i 0 * (u.getD i 0 - u2.getD i 0)
      = ∑ k ∈ Finset.range (n + 2),
          bc.getD k 0 * ((clRef u).getD k 0 - (clRef u2).getD k 0) := by
  have hl : ∀ i ∈ Finset.range (n + 2),
      (clRevRef bc).getD i 0 * (u.getD i 0 - u2.getD i 0)
        = buOf (baOf fun m => bc.getD m 0) i * (fun i => u.getD i 0 - u2.getD i 0) i := by
    intro i hi
    rw [Finset.mem_range] at hi
    rw [clRevRef, getD_range_map _ _ _ (by omega)]
  have hr : ∀ k ∈ Finset.range (n + 2),
      bc.getD k 0 * ((clRef u).getD k 0 - (clRef u2).getD k 0)
        = (fun m => bc.getD m 0) k *
            cOf (fun x => aRef u (n + 2) x - aRef u2 (n + 2) x) (n + 2) k := by
    intro k hk
    rw [Finset.mem_range] at hk
    rw [clRef, clRef, getD_range_map _ _ _ (by omega), getD_range_map _ _ _ (by omega),
      hu, hu2, cOf_sub]
  rw [Finset.sum_congr rfl hl, Finset.sum_congr rfl hr, cOf_transpose, buOf_transpose]
  apply Finset.sum_congr rfl
  intro j _
  rw [aRef_sub]


theorem get_cl_eq (u c : Vec) (hN : 2 ≤ u.length) (hc : c.length = u.length) :
    get_cl u c = Outcome.returned (clRef u) (clRef u) := by
  obtain ⟨n, hn⟩ : ∃ n, u.length = n + 2 := ⟨u.length - 2, by omega⟩
  have hg : ¬ ((u.length : Int) < 1 ∨ (c.length : Int) ≠ (u.length : Int)) := by omega
  unfold get_cl
  simp only [hg, if_false, get_cl_body_eq u c n hn (by omega)]

theorem get_cl_rev_eq (bc bu : Vec) (hN : 2 ≤ bc.length) (hb : bu.length = bc.length) :
    get_cl_rev bc bu = Outcome.returned (clRevRef bc) (clRevRef bc) := by
  obtain ⟨n, hn⟩ : ∃ n, bc.length = n + 2 := ⟨bc.length - 2, by omega⟩
  have hg : ¬ ((bc.length : Int) < 1 ∨ (bu.length : Int) ≠ (bc.length : Int)) := by omega
  unfold get_cl_rev
  simp only [hg, if_false, get_cl_rev_body_eq bc bu n hn (by omega)]

theorem sum_mul_indicator (f : Nat → ℚ) (N i : Nat) (h : i < N) :
    ∑ x ∈ Finset.range N, f x * (if x = i then 1 else 0) = f i := by
  simp only [mul_ite, mul_one, mul_zero]
  rw [Finset.sum_ite_eq' (Finset.range N) i f, if_pos (Finset.mem_range.mpr h)]

theorem indicator_mul_sum (f : Nat → ℚ) (N i : Nat) (h : i < N) :
    ∑ x ∈ Finset.range N, (if x = i then 1 else 0) * f x = f i := by
  simp only [ite_mul, one_mul, zero_mul]
  rw [Finset.sum_ite_eq' (Finset.range N) i f, if_pos (Finset.mem_range.mpr h)]

/-- The unit-vector form of the adjoint identity on the reference functions. -/
theorem clRef_jacobian (u : Vec) (k i : Nat) (hN : 2 ≤ u.length) (hk : k < u.length)
    (hi : i < u.length) :
    (clRevRef (unitVec u.length k)).getD i 0
      = (clRef (addUnit u i)).getD k 0 - (clRef u).getD k 0 := by
  obtain ⟨n, hn⟩ : ∃ n, u.length = n + 2 := ⟨u.length - 2, by omega⟩
  have hadd : (addUnit u i).length = n + 2 := by rw [addUnit, List.length_set, hn]
  have hunit : (unitVec u.length k).length = n + 2 := by simp [unitVec, hn]
  have h := clRef_adjoint (addUnit u i) u (unitVec u.length k) n hadd hn hunit
  have hl : ∀ x ∈ Finset.range (n + 2),
      (clRevRef (unitVec u.length k)).getD x 0 * ((addUnit u i).getD x 0 - u.getD x 0)
        = (clRevRef (unitVec u.length k)).getD x 0 * (if x = i then 1 else 0) := by
    intro x _
    rw [addUnit, getD_set _ _ _ _ hi]
    by_cases hx : x = i
    · rw [if_pos hx, if_pos hx, hx]; ring
    · rw [if_neg hx, if_neg hx]; ring
  have hr : ∀ x ∈ Finset.range (n + 2),
      (unitVec u.length k).getD x 0 * ((clRef (addUnit u i)).getD x 0 - (clRef u).getD x 0)
        = (if x = k then 1 else 0) *
            ((clRef (addUnit u i)).getD x 0 - (clRef u).getD x 0) := by
    intro x hx
    rw [Finset.mem_range] at hx
    rw [unitVec, getD_range_map _ _ _ (by omega)]
  rw [Finset.sum_congr rfl hl, Finset.sum_congr rfl hr,
    sum_mul_indicator _ _ _ (by omega),
    indicator_mul_sum (fun x => (clRef (addUnit u i)).getD x 0 - (clRef u).getD x 0) _ _
      (by omega)] at h
  exact h

/-- C1. Over exact arithmetic `get_cl_rev` is the adjoint of `get_cl`: for at least
two coefficients, all three calls return, the sum of `get_cl_rev(bc)[i] * (u[i] - u2[i])`
over `i` equals the sum of `bc[k] * (get_cl(u)[k] - get_cl(u2)[k])` over `k`, and
component `i` of `get_cl_rev(e_k)` equals `get_cl(u + e_i)[k] - get_cl(u)[k]`; the
previous contents of the output buffers play no role. -/
theorem get_cl_rev_is_adjoint (u u2 bc cbuf cbuf2 cbuf3 ubuf ubuf2 : Vec) (k i : Nat)
    (hN : 2 ≤ u.length) (hu2 : u2.length = u.length) (hbc : bc.length = u.length)
    (hc1 : cbuf.length = u.length) (hc2 : cbuf2.length = u.length)
    (hc3 : cbuf3.length = u.length) (hb1 : ubuf.length = u.length)
    (hb2 : ubuf2.length = u.length) (hk : k < u.length) (hi : i < u.length) :
    ∃ c c2 ci bu buk : Vec,
      get_cl u cbuf = Outcome.returned c c ∧
      get_cl u2 cbuf2 = Outcome.returned c2 c2 ∧
      get_cl (addUnit u i) cbuf3 = Outcome.returned ci ci ∧
      get_cl_rev bc ubuf = Outcome.returned bu bu ∧
      get_cl_rev (unitVec u.length k) ubuf2 = Outcome.returned buk buk ∧
      (∑ x ∈ Finset.range u.length, bu.getD x 0 * (u.getD x 0 - u2.getD x 0)
        = ∑ y ∈ Finset.range u.length, bc.getD y 0 * (c.getD y 0 - c2.getD y 0)) ∧
      buk.getD i 0 = ci.getD k 0 - c.getD k 0 := by
  obtain ⟨n, hn⟩ : ∃ n, u.length = n + 2 := ⟨u.length - 2, by omega⟩
  have hadd : (addUnit u i).length = u.length := by rw [addUnit, List.length_set]
  have hunit : (unitVec u.length k).length = u.length := by simp [unitVec]
  refine ⟨clRef u, clRef u2, clRef (addUnit u i), clRevRef bc,
    clRevRef (unitVec u.length k), get_cl_eq u cbuf hN hc1,
    get_cl_eq u2 cbuf2 (by omega) (by omega),
    get_cl_eq (addUnit u i) cbuf3 (by omega) (by omega),
    get_cl_rev_eq bc ubuf (by omega) (by omega),
    get_cl_rev_eq (unitVec u.length k) ubuf2 (by omega) (by omega), ?_,
    clRef_jacobian u k i hN hk hi⟩
  rw [hn]
  exact clRef_adjoint u u2 bc n hn (by omega) (by omega)

/-- Witness for C1 at `u = (0, 1/3, 1/5)`, `u2 = (1, 0, 2)`, `bc = (1, 2, 3)`,
`k = 2`, `i = 1`. -/
theorem get_cl_rev_is_adjoint_witness :
    ∃ c c2 ci bu buk : Vec,
      get_cl [0, 1 / 3, 1 / 5] [0, 0, 0] = Outcome.returned c c ∧
      get_cl [1, 0, 2] [0, 0, 0] = Outcome.returned c2 c2 ∧
      get_cl (addUnit [0, 1 / 3, 1 / 5] 1) [0, 0, 0] = Outcome.returned ci ci ∧
      get_cl_rev [1, 2, 3] [0, 0, 0] = Outcome.returned bu bu ∧
      get_cl_rev (unitVec ([0, 1 / 3, 1 / 5] : Vec).length 2) [0, 0, 0]
        = Outcome.returned buk buk ∧
      (∑ x ∈ Finset.range ([0, 1 / 3, 1 / 5] : Vec).length,
          bu.getD x 0 * (([0, 1 / 3, 1 / 5] : Vec).getD x 0 - ([1, 0, 2] : Vec).getD x 0)
        = ∑ y ∈ Finset.range ([0, 1 / 3, 1 / 5] : Vec).length,
          ([1, 2, 3] : Vec).getD y 0 * (c.getD y 0 - c2.getD y 0)) ∧
      buk.getD 1 0 = ci.getD 2 0 - c.getD 2 0 :=
  get_cl_rev_is_adjoint [0, 1 / 3, 1 / 5] [1, 0, 2] [1, 2, 3] [0, 0, 0] [0, 0, 0] [0, 0, 0]
    [0, 0, 0] [0, 0, 0] 2 1 (by decide) rfl rfl rfl rfl rfl rfl rfl (by decide) (by decide)


end starry

/-! ## Flat arrays -/

theorem array_t.size_put (x : array_t) (i : Nat) (v : ℚ) : (x.put i v).size = x.size := by
  simp [array_t.put, array_t.size]

theorem array_t.at_put (x : array_t) (i j : Nat) (v : ℚ) (h : i < x.size) :
    (x.put i v).at j = if j = i then v else x.at j := by
  unfold array_t.put array_t.at
  exact getD_set x.data i j v h

theorem array_t.at_put_ne (x : array_t) (i j : Nat) (v : ℚ) (h : j ≠ i) :
    (x.put i v).at j = x.at j := by
  unfold array_t.put array_t.at
  simp only [List.getD_eq_getElem?_getD, List.getElem?_set]
  rw [if_neg (fun e => h e.symm)]

theorem array_t.at_of_size_le (x : array_t) (j : Nat) (h : x.size ≤ j) : x.at j = 0 :=
  getD_of_length_le x.data j h

namespace starry

/-! ## The matrix `dfdcl` -/

theorem col_index_ne (N k k2 i i2 : Nat) (hi : i < N) (hi2 : i2 < N) (h : k ≠ k2 ∨ i ≠ i2) :
    k * N + i ≠ k2 * N + i2 := by
  intro e
  rcases Nat.lt_trichotomy k k2 with hlt | heq | hgt
  · have h1 : (k + 1) * N ≤ k2 * N := Nat.mul_le_mul_right N hlt
    rw [Nat.add_mul, Nat.one_mul] at h1
    omega
  · subst heq
    rcases h with h | h
    · exact h rfl
    · omega
  · have h1 : (k2 + 1) * N ≤ k * N := Nat.mul_le_mul_right N hgt
    rw [Nat.add_mul, Nat.one_mul] at h1
    omega

theorem col_index_lt (N n k i : Nat) (hk : k < n) (hi : i < N) : k * N + i < n * N := by
  have h1 : (k + 1) * N ≤ n * N := Nat.mul_le_mul_right N hk
  rw [Nat.add_mul, Nat.one_mul] at h1
  omega

theorem setCol_succ (d : array_t) (n N i : Nat) (v : Nat → ℚ) :
    setCol d (n + 1) N i v = (setCol d n N i v).put (n * N + i) (v n) := by
  unfold setCol
  rw [List.range_succ, List.foldl_append]
  rfl

theorem size_setCol (d : array_t) (n N i : Nat) (v : Nat → ℚ) :
    (setCol d n N i v).size = d.size := by
  induction n with
  | zero => rfl
  | succ n ih => rw [setCol_succ, array_t.size_put, ih]

theorem at_setCol_other (d : array_t) (N i : Nat) (v : Nat → ℚ) (p : Nat) :
    ∀ n, (∀ k, k < n → p ≠ k * N + i) → (setCol d n N i v).at p = d.at p := by
  intro n
  induction n with
  | zero => intro _; rfl
  | succ n ih =>
    intro h
    rw [setCol_succ, array_t.at_put_ne _ _ _ _ (h n (by omega))]
    exact ih (fun k hk => h k (by omega))

theorem at_setCol_col (d : array_t) (N i : Nat) (v : Nat → ℚ) (hi : i < N) :
    ∀ n k, k < n → n * N ≤ d.size → (setCol d n N i v).at (k * N + i) = v k := by
  intro n
  induction n with
  | zero => intro k hk; omega
  | succ n ih =>
    intro k hk hsz
    have hle : n * N ≤ (n + 1) * N := Nat.mul_le_mul_right N (by omega)
    have hlt : n * N + i < d.size := by
      have := col_index_lt N (n + 1) n i (by omega) hi
      omega
    rw [setCol_succ, array_t.at_put _ _ _ _ (by rw [size_setCol]; exact hlt)]
    by_cases hkn : k = n
    · subst hkn
      rw [if_pos rfl]
    · rw [if_neg (col_index_ne N k n i i hi hi (Or.inl hkn))]
      exact ih k (by omega) (by omega)

theorem setZero_succ (d : array_t) (n : Nat) :
    (List.range (n + 1)).foldl (fun d p => d.put p 0) d
      = ((List.range n).foldl (fun d p => d.put p 0) d).put n 0 := by
  rw [List.range_succ, List.foldl_append]
  rfl

theorem size_zero_fold (d : array_t) (n : Nat) :
    ((List.range n).foldl (fun d p => d.put p 0) d).size = d.size := by
  induction n with
  | zero => rfl
  | succ n ih => rw [setZero_succ, array_t.size_put, ih]

theorem at_zero_fold (d : array_t) (p : Nat) :
    ∀ n, n ≤ d.size →
      ((List.range n).foldl (fun d p => d.put p 0) d).at p = if p < n then 0 else d.at p := by
  intro n
  induction n with
  | zero =>
    intro _
    rw [if_neg (by omega)]
    rfl
  | succ n ih =>
    intro hn
    rw [setZero_succ, array_t.at_put _ _ _ _ (by rw [size_zero_fold]; omega), ih (by omega)]
    by_cases hp : p = n
    · rw [if_pos hp, if_pos (by omega)]
    · rw [if_neg hp]
      by_cases h1 : p < n
      · rw [if_pos h1, if_pos (by omega)]
      · rw [if_neg h1, if_neg (by omega)]

theorem size_setZero (d : array_t) (num_cl N : Nat) : (setZero d num_cl N).size = d.size :=
  size_zero_fold d (num_cl * N)

theorem at_setZero (d : array_t) (num_cl N p : Nat) (h : d.size = num_cl * N) :
    (setZero d num_cl N).at p = 0 := by
  unfold setZero
  rw [at_zero_fold d p (num_cl * N) (by omega)]
  by_cases hp : p < num_cl * N
  · rw [if_pos hp]
  · rw [if_neg hp]
    exact array_t.at_of_size_le d p (by omega)


/-! ## The loop over the samples of `LimbDark::apply` -/

section Samples

variable {σ : Type} (E : GreensLimbDark σ) (cl b r los : array_t) (N : Nat)

theorem apply_sample_ld (m : LimbDarkMem σ) (i : Nat) :
    (apply_sample E cl b r los N m i).ld
      = if occulting b r los i then E.compute m.ld |b.at i| |r.at i| else m.ld := by
  unfold apply_sample occulting
  by_cases h1 : los.at i > 0
  · by_cases h2 : fl64 |b.at i| < fl64 (1 + |r.at i|)
    · simp [h1, h2]
    · simp [h1, h2]
  · simp [h1]

theorem apply_sample_f (m : LimbDarkMem σ) (i : Nat) :
    (apply_sample E cl b r los N m i).f
      = if occulting b r los i then
          (m.f.put i 0).put i (dot (E.sT (E.compute m.ld |b.at i| |r.at i|)) cl - 1)
        else m.f.put i 0 := by
  unfold apply_sample occulting
  by_cases h1 : los.at i > 0
  · by_cases h2 : fl64 |b.at i| < fl64 (1 + |r.at i|)
    · simp [h1, h2]
    · simp [h1, h2]
  · simp [h1]

theorem apply_sample_dfdb (m : LimbDarkMem σ) (i : Nat) :
    (apply_sample E cl b r los N m i).dfdb
      = if occulting b r los i then
          (m.dfdb.put i 0).put i
            ((sgn (b.at i) : ℚ) * dot (E.dsTdb (E.compute m.ld |b.at i| |r.at i|)) cl)
        else m.dfdb.put i 0 := by
  unfold apply_sample occulting
  by_cases h1 : los.at i > 0
  · by_cases h2 : fl64 |b.at i| < fl64 (1 + |r.at i|)
    · simp [h1, h2]
    · simp [h1, h2]
  · simp [h1]

theorem apply_sample_dfdr (m : LimbDarkMem σ) (i : Nat) :
    (apply_sample E cl b r los N m i).dfdr
      = if occulting b r los i then
          (m.dfdr.put i 0).put i
            ((sgn (r.at i) : ℚ) * dot (E.dsTdr (E.compute m.ld |b.at i| |r.at i|)) cl)
        else m.dfdr.put i 0 := by
  unfold apply_sample occulting
  by_cases h1 : los.at i > 0
  · by_cases h2 : fl64 |b.at i| < fl64 (1 + |r.at i|)
    · simp [h1, h2]
    · simp [h1, h2]
  · simp [h1]

theorem apply_sample_dfdcl (m : LimbDarkMem σ) (i : Nat) :
    (apply_sample E cl b r los N m i).dfdcl
      = if occulting b r los i then
          setCol m.dfdcl cl.size N i (E.sT (E.compute m.ld |b.at i| |r.at i|))
        else m.dfdcl := by
  unfold apply_sample occulting
  by_cases h1 : los.at i > 0
  · by_cases h2 : fl64 |b.at i| < fl64 (1 + |r.at i|)
    · simp [h1, h2]
    · simp [h1, h2]
  · simp [h1]

theorem samples_succ (m0 : LimbDarkMem σ) (n : Nat) :
    (List.range (n + 1)).foldl (apply_sample E cl b r los N) m0
      = apply_sample E cl b r los N
          ((List.range n).foldl (apply_sample E cl b r los N) m0) n := by
  rw [List.range_succ, List.foldl_append]
  rfl

theorem samples_ld (m0 : LimbDarkMem σ) (n : Nat) :
    ((List.range n).foldl (apply_sample E cl b r los N) m0).ld
      = engineAt E m0.ld b r los n := by
  induction n with
  | zero => rfl
  | succ n ih =>
    rw [samples_succ, apply_sample_ld, ih]
    rfl

theorem samples_size (m0 : LimbDarkMem σ) (n : Nat) :
    ((List.range n).foldl (apply_sample E cl b r los N) m0).f.size = m0.f.size ∧
    ((List.range n).foldl (apply_sample E cl b r los N) m0).dfdb.size = m0.dfdb.size ∧
    ((List.range n).foldl (apply_sample E cl b r los N) m0).dfdr.size = m0.dfdr.size ∧
    ((List.range n).foldl (apply_sample E cl b r los N) m0).dfdcl.size = m0.dfdcl.size := by
  induction n with
  | zero => exact ⟨rfl, rfl, rfl, rfl⟩
  | succ n ih =>
    obtain ⟨h1, h2, h3, h4⟩ := ih
    rw [samples_succ, apply_sample_f, apply_sample_dfdb, apply_sample_dfdr, apply_sample_dfdcl]
    by_cases ho : occulting b r los n
    · simp only [if_pos ho, array_t.size_put, size_setCol]
      exact ⟨h1, h2, h3, h4⟩
    · simp only [if_neg ho, array_t.size_put]
      exact ⟨h1, h2, h3, h4⟩

theorem samples_f (m0 : LimbDarkMem σ) (n : Nat) (hn : n ≤ m0.f.size) (j : Nat) :
    ((List.range n).foldl (apply_sample E cl b r los N) m0).f.at j
      = if j < n then fRef E m0.ld cl b r los j else m0.f.at j := by
  induction n with
  | zero =>
    rw [if_neg (by omega)]
    rfl
  | succ n ih =>
    have hsz := (samples_size E cl b r los N m0 n).1
    rw [samples_succ, apply_sample_f, samples_ld]
    by_cases hj : j = n
    · subst hj
      rw [if_pos (show j < j + 1 by omega), fRef, engineResult]
      by_cases ho : occulting b r los j
      · rw [if_pos ho, if_pos ho,
          array_t.at_put _ _ _ _ (by rw [array_t.size_put, hsz]; omega), if_pos rfl]
      · rw [if_neg ho, if_neg ho, array_t.at_put _ _ _ _ (by rw [hsz]; omega), if_pos rfl]
    · have hkeep : (if occulting b r los n then
          (((List.range n).foldl (apply_sample E cl b r los N) m0).f.put n 0).put n
            (dot (E.sT (E.compute (engineAt E m0.ld b r los n) |b.at n| |r.at n|)) cl - 1)
          else ((List.range n).foldl (apply_sample E cl b r los N) m0).f.put n 0).at j
          = ((List.range n).foldl (apply_sample E cl b r los N) m0).f.at j := by
        by_cases ho : occulting b r los n
        · rw [if_pos ho, array_t.at_put_ne _ _ _ _ hj, array_t.at_put_ne _ _ _ _ hj]
        · rw [if_neg ho, array_t.at_put_ne _ _ _ _ hj]
      rw [hkeep, ih (by omega)]
      by_cases h1 : j < n
      · rw [if_pos h1, if_pos (by omega)]
      · rw [if_neg h1, if_neg (by omega)]

theorem samples_dfdb (m0 : LimbDarkMem σ) (n : Nat) (hn : n ≤ m0.dfdb.size) (j : Nat) :
    ((List.range n).foldl (apply_sample E cl b r los N) m0).dfdb.at j
      = if j < n then dfdbRef E m0.ld cl b r los j else m0.dfdb.at j := by
  induction n with
  | zero =>
    rw [if_neg (by omega)]
    rfl
  | succ n ih =>
    have hsz := (samples_size E cl b r los N m0 n).2.1
    rw [samples_succ, apply_sample_dfdb, samples_ld]
    by_cases hj : j = n
    · subst hj
      rw [if_pos (show j < j + 1 by omega), dfdbRef, engineResult]
      by_cases ho : occulting b r los j
      · rw [if_pos ho, if_pos ho,
          array_t.at_put _ _ _ _ (by rw [array_t.size_put, hsz]; omega), if_pos rfl]
      · rw [if_neg ho, if_neg ho, array_t.at_put _ _ _ _ (by rw [hsz]; omega), if_pos rfl]
    · have hkeep : (if occulting b r los n then
          (((List.range n).foldl (apply_sample E cl b r los N) m0).dfdb.put n 0).put n
            ((sgn (b.at n) : ℚ) *
              dot (E.dsTdb (E.compute (engineAt E m0.ld b r los n) |b.at n| |r.at n|)) cl)
          else ((List.range n).foldl (apply_sample E cl b r los N) m0).dfdb.put n 0).at j
          = ((List.range n).foldl (apply_sample E cl b r los N) m0).dfdb.at j := by
        by_cases ho : occulting b r los n
        · rw [if_pos ho, array_t.at_put_ne _ _ _ _ hj, array_t.at_put_ne _ _ _ _ hj]
        · rw [if_neg ho, array_t.at_put_ne _ _ _ _ hj]
      rw [hkeep, ih (by omega)]
      by_cases h1 : j < n
      · rw [if_pos h1, if_pos (by omega)]
      · rw [if_neg h1, if_neg (by omega)]

theorem samples_dfdr (m0 : LimbDarkMem σ) (n : Nat) (hn : n ≤ m0.dfdr.size) (j : Nat) :
    ((List.range n).foldl (apply_sample E cl b r los N) m0).dfdr.at j
      = if j < n then dfdrRef E m0.ld cl b r los j else m0.dfdr.at j := by
  induction n with
  | zero =>
    rw [if_neg (by omega)]
    rfl
  | succ n ih =>
    have hsz := (samples_size E cl b r los N m0 n).2.2.1
    rw [samples_succ, apply_sample_dfdr, samples_ld]
    by_cases hj : j = n
    · subst hj
      rw [if_pos (show j < j + 1 by omega), dfdrRef, engineResult]
      by_cases ho : occulting b r los j
      · rw [if_pos ho, if_pos ho,
          array_t.at_put _ _ _ _ (by rw [array_t.size_put, hsz]; omega), if_pos rfl]
      · rw [if_neg ho, if_neg ho, array_t.at_put _ _ _ _ (by rw [hsz]; omega), if_pos rfl]
    · have hkeep : (if occulting b r los n then
          (((List.range n).foldl (apply_sample E cl b r los N) m0).dfdr.put n 0).put n
            ((sgn (r.at n) : ℚ) *
              dot (E.dsTdr (E.compute (engineAt E m0.ld b r los n) |b.at n| |r.at n|)) cl)
          else ((List.range n).foldl (apply_sample E cl b r los N) m0).dfdr.put n 0).at j
          = ((List.range n).foldl (apply_sample E cl b r los N) m0).dfdr.at j := by
        by_cases ho : occulting b r los n
        · rw [if_pos ho, array_t.at_put_ne _ _ _ _ hj, array_t.at_put_ne _ _ _ _ hj]
        · rw [if_neg ho, array_t.at_put_ne _ _ _ _ hj]
      rw [hkeep, ih (by omega)]
      by_cases h1 : j < n
      · rw [if_pos h1, if_pos (by omega)]
      · rw [if_neg h1, if_neg (by omega)]

theorem samples_dfdcl (m0 : LimbDarkMem σ) (n : Nat) (hn : n ≤ N)
    (hsz : cl.size * N ≤ m0.dfdcl.size) (j k : Nat) (hj : j < N) (hk : k < cl.size) :
    ((List.range n).foldl (apply_sample E cl b r los N) m0).dfdcl.at (k * N + j)
      = if j < n ∧ occulting b r los j then E.sT (engineResult E m0.ld b r los j) k
        else m0.dfdcl.at (k * N + j) := by
  induction n with
  | zero =>
    rw [if_neg (by omega)]
    rfl
  | succ n ih =>
    have hs := (samples_size E cl b r los N m0 n).2.2.2
    rw [samples_succ, apply_sample_dfdcl, samples_ld]
    by_cases ho : occulting b r los n
    · rw [if_pos ho]
      by_cases hjn : j = n
      · subst hjn
        rw [at_setCol_col _ N j _ hj cl.size k hk (by rw [hs]; exact hsz),
          if_pos ⟨by omega, ho⟩, engineResult]
      · rw [at_setCol_other _ N n _ (k * N + j) cl.size
          (fun k2 _ => col_index_ne N k k2 j n hj (by omega) (Or.inr hjn)), ih (by omega)]
        by_cases h1 : j < n ∧ occulting b r los j
        · rw [if_pos h1, if_pos ⟨by omega, h1.2⟩]
        · rw [if_neg h1, if_neg (fun h => h1 ⟨by omega, h.2⟩)]
    · rw [if_neg ho, ih (by omega)]
      by_cases h1 : j < n ∧ occulting b r los j
      · rw [if_pos h1, if_pos ⟨by omega, h1.2⟩]
      · have h2 : ¬ (j < n + 1 ∧ occulting b r los j) := by
          intro h
          by_cases hjn : j = n
          · subst hjn; exact ho h.2
          · exact h1 ⟨by omega, h.2⟩
        rw [if_neg h1, if_neg h2]

end Samples

/-! ## `LimbDark::apply` as a whole -/

theorem apply_checks_none (cl b r los f dfdcl dfdb dfdr : array_t)
    (h : apply_checks cl b r los f dfdcl dfdb dfdr = none) :
    r.size = b.size ∧ los.size = b.size ∧ f.size = b.size ∧ dfdb.size = b.size ∧
      dfdr.size = b.size ∧ dfdcl.size = b.size * cl.size := by
  unfold apply_checks at h
  simp only [] at h
  split_ifs at h with h1 h2 h3 h4 h5 h6 h7
  refine ⟨?_, ?_, ?_, ?_, ?_, ?_⟩
  · exact not_not.mp (fun e => h1 (Or.inl e))
  · exact not_not.mp (fun e => h1 (Or.inr e))
  · exact not_not.mp (fun e => h5 (Or.inl e))
  · exact not_not.mp (fun e => h5 (Or.inr (Or.inl e)))
  · exact not_not.mp (fun e => h5 (Or.inr (Or.inr e)))
  · exact not_not.mp (fun e => h6 (Or.inr (Or.inr e)))

/-- The result of a call of `LimbDark::apply` that passes the checks. -/
theorem apply_spec {σ : Type} (E : GreensLimbDark σ) (self : σ)
    (cl b r los f dfdcl dfdb dfdr : array_t)
    (h : apply_checks cl b r los f dfdcl dfdb dfdr = none) :
    ∃ m : LimbDarkMem σ,
      apply E self cl b r los f dfdcl dfdb dfdr
        = Outcome.returned (m.f, m.dfdcl, m.dfdb, m.dfdr) m ∧
      m.ld = engineAt E (apply_reinit E self cl.size) b r los b.size ∧
      ∀ i, i < b.size →
        m.f.at i = fRef E (apply_reinit E self cl.size) cl b r los i ∧
        m.dfdb.at i = dfdbRef E (apply_reinit E self cl.size) cl b r los i ∧
        m.dfdr.at i = dfdrRef E (apply_reinit E self cl.size) cl b r los i ∧
        ∀ k, k < cl.size →
          m.dfdcl.at (k * b.size + i) = dfdclRef E (apply_reinit E self cl.size) b r los i k := by
  obtain ⟨_, _, hf, hdb, hdr, hcl⟩ := apply_checks_none cl b r los f dfdcl dfdb dfdr h
  refine ⟨(List.range b.size).foldl (apply_sample E cl b r los b.size)
    ⟨f, setZero dfdcl cl.size b.size, dfdb, dfdr, apply_reinit E self cl.size⟩, ?_, ?_, ?_⟩
  · unfold apply
    rw [h]
  · rw [samples_ld]
  · intro i hi
    refine ⟨?_, ?_, ?_, ?_⟩
    · rw [samples_f E cl b r los b.size _ b.size (by show b.size ≤ f.size; omega) i,
        if_pos hi]
    · rw [samples_dfdb E cl b r los b.size _ b.size (by show b.size ≤ dfdb.size; omega) i,
        if_pos hi]
    · rw [samples_dfdr E cl b r los b.size _ b.size (by show b.size ≤ dfdr.size; omega) i,
        if_pos hi]
    · intro k hk
      have hsz : cl.size * b.size ≤ (setZero dfdcl cl.size b.size).size := by
        rw [size_setZero, hcl, Nat.mul_comm]
      rw [samples_dfdcl E cl b r los b.size _ b.size (le_refl _) hsz i k hi hk, dfdclRef]
      by_cases ho : occulting b r los i
      · rw [if_pos ⟨hi, ho⟩, if_pos ho]
      · rw [if_neg (fun e => ho e.2), if_neg ho]
        exact at_setZero dfdcl cl.size b.size _ (by rw [hcl, Nat.mul_comm])


/-! ## Sign flips of `b` and `r` -/

theorem sgn_neg (x : ℚ) : sgn (-x) = -sgn x := by
  unfold sgn
  rcases lt_trichotomy x 0 with h | h | h
  · have h1 : (0 : ℚ) < -x := by linarith
    have h2 : ¬ (-x < (0 : ℚ)) := by linarith
    have h3 : ¬ ((0 : ℚ) < x) := by linarith
    simp [h, h1, h2, h3]
  · subst h
    simp
  · have h1 : ¬ ((0 : ℚ) < -x) := by linarith
    have h2 : -x < (0 : ℚ) := by linarith
    have h3 : ¬ (x < (0 : ℚ)) := by linarith
    simp [h, h1, h2, h3]

theorem sgn_zero : sgn 0 = 0 := by
  simp [sgn]

theorem abs_at_flip (x : array_t) (i j : Nat) (hi : i < x.size) :
    |(x.put i (-(x.at i))).at j| = |x.at j| := by
  rw [array_t.at_put _ _ _ _ hi]
  by_cases hj : j = i
  · rw [if_pos hj, abs_neg, hj]
  · rw [if_neg hj]

section Congr

variable {σ : Type} (E : GreensLimbDark σ) (ld : σ) (cl b b2 r r2 los : array_t)
  (hb : ∀ j, |b.at j| = |b2.at j|) (hr : ∀ j, |r.at j| = |r2.at j|)

include hb hr

theorem occulting_congr (j : Nat) : occulting b r los j ↔ occulting b2 r2 los j := by
  unfold occulting
  rw [hb j, hr j]

theorem engineAt_congr (n : Nat) : engineAt E ld b r los n = engineAt E ld b2 r2 los n := by
  induction n with
  | zero => rfl
  | succ n ih =>
    by_cases ho : occulting b r los n
    · have ho2 : occulting b2 r2 los n := (occulting_congr b b2 r r2 los hb hr n).mp ho
      simp only [engineAt, if_pos ho, if_pos ho2, ih, hb n, hr n]
    · have ho2 : ¬ occulting b2 r2 los n :=
        fun e => ho ((occulting_congr b b2 r r2 los hb hr n).mpr e)
      simp only [engineAt, if_neg ho, if_neg ho2, ih]

theorem engineResult_congr (i : Nat) :
    engineResult E ld b r los i = engineResult E ld b2 r2 los i := by
  unfold engineResult
  rw [engineAt_congr E ld b b2 r r2 los hb hr i, hb i, hr i]

theorem fRef_congr (i : Nat) : fRef E ld cl b r los i = fRef E ld cl b2 r2 los i := by
  unfold fRef
  rw [engineResult_congr E ld b b2 r r2 los hb hr i]
  by_cases ho : occulting b r los i
  · rw [if_pos ho, if_pos ((occulting_congr b b2 r r2 los hb hr i).mp ho)]
  · rw [if_neg ho, if_neg (fun e => ho ((occulting_congr b b2 r r2 los hb hr i).mpr e))]

theorem dfdclRef_congr (i k : Nat) :
    dfdclRef E ld b r los i k = dfdclRef E ld b2 r2 los i k := by
  unfold dfdclRef
  rw [engineResult_congr E ld b b2 r r2 los hb hr i]
  by_cases ho : occulting b r los i
  · rw [if_pos ho, if_pos ((occulting_congr b b2 r r2 los hb hr i).mp ho)]
  · rw [if_neg ho, if_neg (fun e => ho ((occulting_congr b b2 r r2 los hb hr i).mpr e))]

theorem dfdbRef_congr (i : Nat) (c : ℚ) (hs : (sgn (b2.at i) : ℚ) = c * (sgn (b.at i) : ℚ)) :
    dfdbRef E ld cl b2 r2 los i = c * dfdbRef E ld cl b r los i := by
  unfold dfdbRef
  rw [engineResult_congr E ld b b2 r r2 los hb hr i]
  by_cases ho : occulting b r los i
  · rw [if_pos ho, if_pos ((occulting_congr b b2 r r2 los hb hr i).mp ho), hs]
    ring
  · rw [if_neg ho, if_neg (fun e => ho ((occulting_congr b b2 r r2 los hb hr i).mpr e)),
      mul_zero]

theorem dfdrRef_congr (i : Nat) (c : ℚ) (hs : (sgn (r2.at i) : ℚ) = c * (sgn (r.at i) : ℚ)) :
    dfdrRef E ld cl b2 r2 los i = c * dfdrRef E ld cl b r los i := by
  unfold dfdrRef
  rw [engineResult_congr E ld b b2 r r2 los hb hr i]
  by_cases ho : occulting b r los i
  · rw [if_pos ho, if_pos ((occulting_congr b b2 r r2 los hb hr i).mp ho), hs]
    ring
  · rw [if_neg ho, if_neg (fun e => ho ((occulting_congr b b2 r r2 los hb hr i).mpr e)),
      mul_zero]

end Congr

/-- C2. In a call of `LimbDark::apply` that passes the checks, a sample `i` with
`los[i] <= 0` or `|b[i]| >= 1 + |r[i]|` ends with `f[i] = 0`, `dfdb[i] = 0`,
`dfdr[i] = 0` and a zero column `i` of `dfdcl`, for every engine, every state of
the object, every coefficient array and all previous contents of the buffers. -/
theorem apply_skipped_sample {σ : Type} (E : GreensLimbDark σ) (self : σ)
    (cl b r los f dfdcl dfdb dfdr : array_t) (i : Nat)
    (hshape : apply_checks cl b r los f dfdcl dfdb dfdr = none) (hi : i < b.size)
    (hskip : los.at i ≤ 0 ∨ |b.at i| ≥ 1 + |r.at i|) :
    ∃ m : LimbDarkMem σ,
      apply E self cl b r los f dfdcl dfdb dfdr
        = Outcome.returned (m.f, m.dfdcl, m.dfdb, m.dfdr) m ∧
      m.f.at i = 0 ∧ m.dfdb.at i = 0 ∧ m.dfdr.at i = 0 ∧
      ∀ k, k < cl.size → m.dfdcl.at (k * b.size + i) = 0 := by
  obtain ⟨m, hm, _, hv⟩ := apply_spec E self cl b r los f dfdcl dfdb dfdr hshape
  obtain ⟨h1, h2, h3, h4⟩ := hv i hi
  have ho : ¬ occulting b r los i := by
    unfold occulting
    intro e
    rcases hskip with h | h
    · exact absurd e.1 (not_lt.mpr h)
    · have hpos : (0 : ℚ) < 1 + |r.at i| := by positivity
      exact absurd e.2 (not_lt.mpr (fl64_mono _ _ hpos h))
  refine ⟨m, hm, ?_, ?_, ?_, ?_⟩
  · rw [h1, fRef, if_neg ho]
  · rw [h2, dfdbRef, if_neg ho]
  · rw [h3, dfdrRef, if_neg ho]
  · intro k hk
    rw [h4 k hk, dfdclRef, if_neg ho]

/-- Witness for C2: one sample with `los = 0`, two coefficients. -/
theorem apply_skipped_sample_witness :
    ∃ m : LimbDarkMem Int,
      apply sampleEngine 0 (vector1 [1, 2]) (vector1 [1 / 2]) (vector1 [1 / 10]) (vector1 [0])
          (vector1 [5]) (matrix2 2 1 [7, 7]) (vector1 [5]) (vector1 [5])
        = Outcome.returned (m.f, m.dfdcl, m.dfdb, m.dfdr) m ∧
      m.f.at 0 = 0 ∧ m.dfdb.at 0 = 0 ∧ m.dfdr.at 0 = 0 ∧
      ∀ k, k < (vector1 [1, 2]).size → m.dfdcl.at (k * (vector1 [1 / 2]).size + 0) = 0 :=
  apply_skipped_sample sampleEngine 0 (vector1 [1, 2]) (vector1 [1 / 2]) (vector1 [1 / 10])
    (vector1 [0]) (vector1 [5]) (matrix2 2 1 [7, 7]) (vector1 [5]) (vector1 [5]) 0
    (by decide) (by decide) (Or.inl (le_refl (0 : ℚ)))

theorem apply_checks_flip_b (cl b r los f dfdcl dfdb dfdr : array_t) (i : Nat) (v : ℚ)
    (h : apply_checks cl b r los f dfdcl dfdb dfdr = none) :
    apply_checks cl (b.put i v) r los f dfdcl dfdb dfdr = none := by
  unfold apply_checks at h ⊢
  rw [array_t.size_put]
  exact h

theorem apply_checks_flip_r (cl b r los f dfdcl dfdb dfdr : array_t) (i : Nat) (v : ℚ)
    (h : apply_checks cl b r los f dfdcl dfdb dfdr = none) :
    apply_checks cl b (r.put i v) los f dfdcl dfdb dfdr = none := by
  unfold apply_checks at h ⊢
  rw [array_t.size_put]
  exact h

/-- C9. `LimbDark::apply` is symmetric under sign flips: in calls that pass the
checks, made on the same object, replacing `b[i]` by `-b[i]` leaves `f[i]`, column
`i` of `dfdcl` and `dfdr[i]` unchanged and negates `dfdb[i]`; replacing `r[i]` by
`-r[i]` leaves `f[i]`, column `i` of `dfdcl` and `dfdb[i]` unchanged and negates
`dfdr[i]`; and `dfdb[i] = 0` when `b[i] = 0`. -/
theorem apply_sign_symmetry {σ : Type} (E : GreensLimbDark σ) (self : σ)
    (cl b r los f dfdcl dfdb dfdr : array_t) (i : Nat)
    (hshape : apply_checks cl b r los f dfdcl dfdb dfdr = none) (hi : i < b.size) :
    ∃ m mb mr : LimbDarkMem σ,
      apply E self cl b r los f dfdcl dfdb dfdr
        = Outcome.returned (m.f, m.dfdcl, m.dfdb, m.dfdr) m ∧
      apply E self cl (b.put i (-(b.at i))) r los f dfdcl dfdb dfdr
        = Outcome.returned (mb.f, mb.dfdcl, mb.dfdb, mb.dfdr) mb ∧
      apply E self cl b (r.put i (-(r.at i))) los f dfdcl dfdb dfdr
        = Outcome.returned (mr.f, mr.dfdcl, mr.dfdb, mr.dfdr) mr ∧
      mb.f.at i = m.f.at i ∧
      (∀ k, k < cl.size → mb.dfdcl.at (k * b.size + i) = m.dfdcl.at (k * b.size + i)) ∧
      mb.dfdr.at i = m.dfdr.at i ∧
      mb.dfdb.at i = -m.dfdb.at i ∧
      mr.f.at i = m.f.at i ∧
      (∀ k, k < cl.size → mr.dfdcl.at (k * b.size + i) = m.dfdcl.at (k * b.size + i)) ∧
      mr.dfdb.at i = m.dfdb.at i ∧
      mr.dfdr.at i = -m.dfdr.at i ∧
      (b.at i = 0 → m.dfdb.at i = 0) := by
  have hir : i < r.size := by
    rw [(apply_checks_none cl b r los f dfdcl dfdb dfdr hshape).1]
    exact hi
  obtain ⟨m, hm, _, hv⟩ := apply_spec E self cl b r los f dfdcl dfdb dfdr hshape
  obtain ⟨mb, hmb, _, hvb⟩ := apply_spec E self cl (b.put i (-(b.at i))) r los f dfdcl dfdb dfdr
    (apply_checks_flip_b cl b r los f dfdcl dfdb dfdr i _ hshape)
  obtain ⟨mr, hmr, _, hvr⟩ := apply_spec E self cl b (r.put i (-(r.at i))) los f dfdcl dfdb dfdr
    (apply_checks_flip_r cl b r los f dfdcl dfdb dfdr i _ hshape)
  rw [array_t.size_put] at hvb
  obtain ⟨h1, h2, h3, h4⟩ := hv i hi
  obtain ⟨b1, b2, b3, b4⟩ := hvb i hi
  obtain ⟨r1, r2, r3, r4⟩ := hvr i hi
  have hbabs : ∀ j, |b.at j| = |(b.put i (-(b.at i))).at j| :=
    fun j => (abs_at_flip b i j hi).symm
  have hrabs : ∀ j, |r.at j| = |(r.put i (-(r.at i))).at j| :=
    fun j => (abs_at_flip r i j hir).symm
  have hsame : ∀ (x : array_t) (j : Nat), |x.at j| = |x.at j| := fun _ _ => rfl
  have hbi : (b.put i (-(b.at i))).at i = -(b.at i) := by
    rw [array_t.at_put _ _ _ _ hi, if_pos rfl]
  have hri : (r.put i (-(r.at i))).at i = -(r.at i) := by
    rw [array_t.at_put _ _ _ _ hir, if_pos rfl]
  refine ⟨m, mb, mr, hm, hmb, hmr, ?_, ?_, ?_, ?_, ?_, ?_, ?_, ?_, ?_⟩
  · rw [b1, h1]
    exact (fRef_congr E _ cl b _ r r los hbabs (hsame r) i).symm
  · intro k hk
    rw [b4 k hk, h4 k hk]
    exact (dfdclRef_congr E _ b _ r r los hbabs (hsame r) i k).symm
  · rw [b3, h3, dfdrRef_congr E _ cl b _ r r los hbabs (hsame r) i 1 (by rw [one_mul]), one_mul]
  · rw [b2, h2, dfdbRef_congr E _ cl b _ r r los hbabs (hsame r) i (-1)
      (by rw [hbi, sgn_neg]; push_cast; ring)]
    ring
  · rw [r1, h1]
    exact (fRef_congr E _ cl b b r _ los (hsame b) hrabs i).symm
  · intro k hk
    rw [r4 k hk, h4 k hk]
    exact (dfdclRef_congr E _ b b r _ los (hsame b) hrabs i k).symm
  · rw [r2, h2, dfdbRef_congr E _ cl b b r _ los (hsame b) hrabs i 1 (by rw [one_mul]), one_mul]
  · rw [r3, h3, dfdrRef_congr E _ cl b b r _ los (hsame b) hrabs i (-1)
      (by rw [hri, sgn_neg]; push_cast; ring)]
    ring
  · intro hb0
    rw [h2, dfdbRef, hb0, sgn_zero]
    by_cases ho : occulting b r los i
    · rw [if_pos ho]; simp
    · rw [if_neg ho]

/-- Witness for C9: three samples, flipped at `i = 0`. -/
theorem apply_sign_symmetry_witness :
    ∃ m mb mr : LimbDarkMem Int,
      apply sampleEngine 0 (vector1 [1, 2]) (vector1 [-1 / 2, 3, 1 / 4])
          (vector1 [1 / 10, 1 / 10, -1 / 5]) (vector1 [1, 1, 1]) (vector1 [5, 5, 5])
          (matrix2 2 3 [7, 7, 7, 7, 7, 7]) (vector1 [5, 5, 5]) (vector1 [5, 5, 5])
        = Outcome.returned (m.f, m.dfdcl, m.dfdb, m.dfdr) m ∧
      apply sampleEngine 0 (vector1 [1, 2])
          ((vector1 [-1 / 2, 3, 1 / 4]).put 0 (-((vector1 [-1 / 2, 3, 1 / 4]).at 0)))
          (vector1 [1 / 10, 1 / 10, -1 / 5]) (vector1 [1, 1, 1]) (vector1 [5, 5, 5])
          (matrix2 2 3 [7, 7, 7, 7, 7, 7]) (vector1 [5, 5, 5]) (vector1 [5, 5, 5])
        = Outcome.returned (mb.f, mb.dfdcl, mb.dfdb, mb.dfdr) mb ∧
      apply sampleEngine 0 (vector1 [1, 2]) (vector1 [-1 / 2, 3, 1 / 4])
          ((vector1 [1 / 10, 1 / 10, -1 / 5]).put 0 (-((vector1 [1 / 10, 1 / 10, -1 / 5]).at 0)))
          (vector1 [1, 1, 1]) (vector1 [5, 5, 5])
          (matrix2 2 3 [7, 7, 7, 7, 7, 7]) (vector1 [5, 5, 5]) (vector1 [5, 5, 5])
        = Outcome.returned (mr.f, mr.dfdcl, mr.dfdb, mr.dfdr) mr ∧
      mb.f.at 0 = m.f.at 0 ∧
      (∀ k, k < (vector1 [1, 2]).size →
        mb.dfdcl.at (k * (vector1 [-1 / 2, 3, 1 / 4]).size + 0)
          = m.dfdcl.at (k * (vector1 [-1 / 2, 3, 1 / 4]).size + 0)) ∧
      mb.dfdr.at 0 = m.dfdr.at 0 ∧
      mb.dfdb.at 0 = -m.dfdb.at 0 ∧
      mr.f.at 0 = m.f.at 0 ∧
      (∀ k, k < (vector1 [1, 2]).size →
        mr.dfdcl.at (k * (vector1 [-1 / 2, 3, 1 / 4]).size + 0)
          = m.dfdcl.at (k * (vector1 [-1 / 2, 3, 1 / 4]).size + 0)) ∧
      mr.dfdb.at 0 = m.dfdb.at 0 ∧
      mr.dfdr.at 0 = -m.dfdr.at 0 ∧
      ((vector1 [-1 / 2, 3, 1 / 4]).at 0 = 0 → m.dfdb.at 0 = 0) :=
  apply_sign_symmetry sampleEngine 0 (vector1 [1, 2]) (vector1 [-1 / 2, 3, 1 / 4])
    (vector1 [1 / 10, 1 / 10, -1 / 5]) (vector1 [1, 1, 1]) (vector1 [5, 5, 5])
    (matrix2 2 3 [7, 7, 7, 7, 7, 7]) (vector1 [5, 5, 5]) (vector1 [5, 5, 5]) 0
    (by decide) (by decide)


theorem apply_checks_none_full (cl b r los f dfdcl dfdb dfdr : array_t)
    (h : apply_checks cl b r los f dfdcl dfdb dfdr = none) :
    (r.size = b.size ∧ los.size = b.size ∧ f.size = b.size ∧ dfdb.size = b.size ∧
      dfdr.size = b.size) ∧
    f.readonly = false ∧ dfdcl.readonly = false ∧ dfdb.readonly = false ∧
    dfdr.readonly = false ∧
    ¬ (dfdcl.ndim ≤ 1 ∨ dfdcl.shape.getD 0 0 ≠ cl.size ∨ dfdcl.size ≠ b.size * cl.size) := by
  obtain ⟨h1, h2, h3, h4, h5, _⟩ := apply_checks_none cl b r los f dfdcl dfdb dfdr h
  unfold apply_checks at h
  simp only [] at h
  split_ifs at h with g1 g2 g3 g4 g5 g6 g7
  exact ⟨⟨h1, h2, h3, h4, h5⟩, by simpa using g2, by simpa using g7, by simpa using g3,
    by simpa using g4, g6⟩

/-- C6. `LimbDark::apply` is fail-fast: when the lengths of `b`, `r`, `los`, `f`,
`dfdb`, `dfdr` are not all equal, or one of the output buffers is read-only, or
`dfdcl` fails its dimension check, the call raises an error and `f`, `dfdcl`,
`dfdb`, `dfdr` (and the engine of the object) are what they were before the call. -/
theorem apply_fail_fast {σ : Type} (E : GreensLimbDark σ) (self : σ)
    (cl b r los f dfdcl dfdb dfdr : array_t)
    (hbad : ¬ (r.size = b.size ∧ los.size = b.size ∧ f.size = b.size ∧ dfdb.size = b.size ∧
        dfdr.size = b.size) ∨
      f.readonly = true ∨ dfdcl.readonly = true ∨ dfdb.readonly = true ∨
      dfdr.readonly = true ∨
      (dfdcl.ndim ≤ 1 ∨ dfdcl.shape.getD 0 0 ≠ cl.size ∨ dfdcl.size ≠ b.size * cl.size)) :
    ∃ e : Error,
      apply E self cl b r los f dfdcl dfdb dfdr
        = Outcome.raised e ⟨f, dfdcl, dfdb, dfdr, self⟩ := by
  cases hc : apply_checks cl b r los f dfdcl dfdb dfdr with
  | some e =>
    refine ⟨e, ?_⟩
    unfold apply
    rw [hc]
  | none =>
    exfalso
    obtain ⟨g1, g2, g3, g4, g5, g6⟩ := apply_checks_none_full cl b r los f dfdcl dfdb dfdr hc
    rcases hbad with h | h | h | h | h | h
    · exact h g1
    · rw [g2] at h; exact Bool.noConfusion h
    · rw [g3] at h; exact Bool.noConfusion h
    · rw [g4] at h; exact Bool.noConfusion h
    · rw [g5] at h; exact Bool.noConfusion h
    · exact g6 h

/-- Witness for C6: `b` of length 5 and `r` of length 4. -/
theorem apply_fail_fast_witness :
    ∃ e : Error,
      apply sampleEngine 0 (vector1 [1, 2]) (vector1 [0, 0, 0, 0, 0]) (vector1 [0, 0, 0, 0])
          (vector1 [1, 1, 1, 1, 1]) (vector1 [5, 5, 5, 5, 5])
          (matrix2 2 5 [7, 7, 7, 7, 7, 7, 7, 7, 7, 7]) (vector1 [5, 5, 5, 5, 5])
          (vector1 [5, 5, 5, 5, 5])
        = Outcome.raised e ⟨vector1 [5, 5, 5, 5, 5], matrix2 2 5 [7, 7, 7, 7, 7, 7, 7, 7, 7, 7],
            vector1 [5, 5, 5, 5, 5], vector1 [5, 5, 5, 5, 5], 0⟩ :=
  apply_fail_fast sampleEngine 0 (vector1 [1, 2]) (vector1 [0, 0, 0, 0, 0])
    (vector1 [0, 0, 0, 0]) (vector1 [1, 1, 1, 1, 1]) (vector1 [5, 5, 5, 5, 5])
    (matrix2 2 5 [7, 7, 7, 7, 7, 7, 7, 7, 7, 7]) (vector1 [5, 5, 5, 5, 5])
    (vector1 [5, 5, 5, 5, 5]) (Or.inl (by decide))

/-! ## `get_cl` and `get_cl_rev` at the edge of their length contract -/

/-- C7. A single coefficient passes the dimension check of `get_cl` and of
`get_cl_rev`, and both then access index 1 of vectors of length 1: `get_cl` in
`c(1) = a[1]`, `get_cl_rev` in `ba[1] = bc[1]`. -/
theorem get_cl_single_coefficient (x y : ℚ) :
    get_cl [x] [y] = Outcome.undefined ∧ get_cl_rev [x] [y] = Outcome.undefined := by
  constructor
  · simp [get_cl, get_cl_body, forLt, forDownGe, loopUp, loopDown, rd, wr]
  · simp [get_cl_rev, get_cl_rev_body, forLt, forLe, loopUp, get_cl_rev_copy,
      get_cl_rev_seed, rd, wr]

/-- C8. `get_cl` and `get_cl_rev` raise the dimension-mismatch error exactly when
the input has fewer than one element or the output buffer has another length
than the input; they raise no other error, and when they raise, the output buffer
is what it was before the call. -/
theorem get_cl_dimension_error (u c : Vec) :
    (get_cl u c = Outcome.raised Error.dimension_mismatch c ↔
      (u.length < 1 ∨ c.length ≠ u.length)) ∧
    (get_cl_rev u c = Outcome.raised Error.dimension_mismatch c ↔
      (u.length < 1 ∨ c.length ≠ u.length)) ∧
    (∀ e m, get_cl u c = Outcome.raised e m → e = Error.dimension_mismatch ∧ m = c) ∧
    (∀ e m, get_cl_rev u c = Outcome.raised e m → e = Error.dimension_mismatch ∧ m = c) := by
  have hg : ((u.length : Int) < 1 ∨ (c.length : Int) ≠ (u.length : Int)) ↔
      (u.length < 1 ∨ c.length ≠ u.length) := by omega
  have h1 : ∀ e m, get_cl u c = Outcome.raised e m →
      ((u.length < 1 ∨ c.length ≠ u.length) ∧ e = Error.dimension_mismatch ∧ m = c) := by
    intro e m h
    unfold get_cl at h
    by_cases g : (u.length : Int) < 1 ∨ (c.length : Int) ≠ (u.length : Int)
    · simp only [g, if_true] at h
      injection h with he hm
      exact ⟨hg.mp g, he.symm, hm.symm⟩
    · simp only [g, if_false] at h
      cases hb : get_cl_body u c with
      | none => rw [hb] at h; exact Outcome.noConfusion h
      | some v => rw [hb] at h; exact Outcome.noConfusion h
  have h2 : ∀ e m, get_cl_rev u c = Outcome.raised e m →
      ((u.length < 1 ∨ c.length ≠ u.length) ∧ e = Error.dimension_mismatch ∧ m = c) := by
    intro e m h
    unfold get_cl_rev at h
    by_cases g : (u.length : Int) < 1 ∨ (c.length : Int) ≠ (u.length : Int)
    · simp only [g, if_true] at h
      injection h with he hm
      exact ⟨hg.mp g, he.symm, hm.symm⟩
    · simp only [g, if_false] at h
      cases hb : get_cl_rev_body u c with
      | none => rw [hb] at h; exact Outcome.noConfusion h
      | some v => rw [hb] at h; exact Outcome.noConfusion h
  refine ⟨⟨fun h => (h1 _ _ h).1, ?_⟩, ⟨fun h => (h2 _ _ h).1, ?_⟩,
    fun e m h => (h1 e m h).2, fun e m h => (h2 e m h).2⟩
  · intro g
    unfold get_cl
    simp only [hg.mpr g, if_true]
  · intro g
    unfold get_cl_rev
    simp only [hg.mpr g, if_true]

end starry

/-! ## The batch solver `kepler` -/

namespace kepler

/-- C4. The code accepts the eccentricity `e = 1`: for `M = (0)`, `ecc = (1)`
the call does not raise; it calls the solver and returns the pair
`(cosf_out, sinf_out)`. -/
theorem kepler_accepts_unit_eccentricity (solve_kepler : ℚ → ℚ → ℚ → ℚ → ℚ × ℚ) :
    kepler solve_kepler (vector1 [0]) (vector1 [1]) (vector1 [0])
        (vector1 [0])
      = Outcome.returned
          ((vector1 [0]).put 0 (solve_kepler 0 1 0 0).1,
            (vector1 [0]).put 0 (solve_kepler 0 1 0 0).2)
          ⟨(vector1 [0]).put 0 (solve_kepler 0 1 0 0).2,
            (vector1 [0]).put 0 (solve_kepler 0 1 0 0).1⟩ := by
  simp [kepler, kepler_loop, vector1, array_t.size, array_t.at, array_t.put]

theorem kepler_loop_raise (solve_kepler : ℚ → ℚ → ℚ → ℚ → ℚ × ℚ) (M ecc : array_t) :
    ∀ (k c n : Nat) (m : KeplerMem), k < c →
      n + k < m.sinf.size → n + k < m.cosf.size →
      (∀ j, n ≤ j → j < n + k → ¬ (ecc.at j < 0 ∨ ecc.at j > 1)) →
      (ecc.at (n + k) < 0 ∨ ecc.at (n + k) > 1) →
      ∃ m2 : KeplerMem,
        kepler_loop solve_kepler M ecc c n m = Outcome.raised Error.eccentricity_range m2 ∧
        (∀ j, m2.sinf.at j =
          if n ≤ j ∧ j < n + k then
            (solve_kepler (M.at j) (ecc.at j) (m.cosf.at j) (m.sinf.at j)).2
          else m.sinf.at j) ∧
        (∀ j, m2.cosf.at j =
          if n ≤ j ∧ j < n + k then
            (solve_kepler (M.at j) (ecc.at j) (m.cosf.at j) (m.sinf.at j)).1
          else m.cosf.at j) := by
  intro k
  induction k with
  | zero =>
    intro c n m hc _ _ _ hbad
    obtain ⟨c2, rfl⟩ : ∃ c2, c = c2 + 1 := ⟨c - 1, by omega⟩
    refine ⟨m, ?_, ?_, ?_⟩
    · rw [Nat.add_zero] at hbad
      simp only [kepler_loop, hbad, if_true]
    · intro j
      rw [if_neg (by omega)]
    · intro j
      rw [if_neg (by omega)]
  | succ k ih =>
    intro c n m hc hs hcs hvalid hbad
    obtain ⟨c2, rfl⟩ : ∃ c2, c = c2 + 1 := ⟨c - 1, by omega⟩
    have hn : ¬ (ecc.at n < 0 ∨ ecc.at n > 1) := hvalid n (le_refl _) (by omega)
    have hidx : n + 1 + k = n + (k + 1) := by omega
    obtain ⟨m2, hrun, hsv, hcv⟩ := ih c2 (n + 1)
      ⟨m.sinf.put n (solve_kepler (M.at n) (ecc.at n) (m.cosf.at n) (m.sinf.at n)).2,
        m.cosf.put n (solve_kepler (M.at n) (ecc.at n) (m.cosf.at n) (m.sinf.at n)).1⟩
      (by omega) (by rw [array_t.size_put]; omega) (by rw [array_t.size_put]; omega)
      (fun j h1 h2 => hvalid j (by omega) (by omega)) (by rw [hidx]; exact hbad)
    refine ⟨m2, ?_, ?_, ?_⟩
    · simp only [kepler_loop, hn, if_false]
      exact hrun
    · intro j
      rw [hsv j]
      by_cases hj : j = n
      · subst hj
        rw [if_neg (by omega), if_pos (by omega),
          array_t.at_put _ _ _ _ (by omega), if_pos rfl]
      · simp only [array_t.at_put_ne _ _ _ _ hj]
        by_cases h1 : n + 1 ≤ j ∧ j < n + 1 + k
        · rw [if_pos h1, if_pos (by omega)]
        · rw [if_neg h1, if_neg (by omega)]
    · intro j
      rw [hcv j]
      by_cases hj : j = n
      · subst hj
        rw [if_neg (by omega), if_pos (by omega),
          array_t.at_put _ _ _ _ (by omega), if_pos rfl]
      · simp only [array_t.at_put_ne _ _ _ _ hj]
        by_cases h1 : n + 1 ≤ j ∧ j < n + 1 + k
        · rw [if_pos h1, if_pos (by omega)]
        · rw [if_neg h1, if_neg (by omega)]

/-- C5, the claim as stated fails: with a solver that writes `cos f = 1`,
`sin f = 0`, the call on `ecc = (0, 2)` fails for `ecc[1]`, and by then element 0
of `sinf` and of `cosf` has been overwritten. -/
theorem kepler_overwrites_before_failure :
    ∃ m : KeplerMem,
      kepler (fun _ _ _ _ => (1, 0)) (vector1 [0, 0]) (vector1 [0, 2]) (vector1 [9, 9])
          (vector1 [8, 8])
        = Outcome.raised Error.eccentricity_range m ∧
      m.sinf.at 0 ≠ (vector1 [9, 9]).at 0 ∧ m.cosf.at 0 ≠ (vector1 [8, 8]).at 0 := by
  refine ⟨⟨(vector1 [9, 9]).put 0 0, (vector1 [8, 8]).put 0 1⟩, ?_, ?_, ?_⟩
  · simp [kepler, kepler_loop, vector1, array_t.size, array_t.at, array_t.put]
  · simp [vector1, array_t.at, array_t.put]
  · simp [vector1, array_t.at, array_t.put]

/-- C5 as amended. The validation of `kepler` is made element by element, each
one right before it is solved: when `ecc[n]` is the first element below `0` or
above `1`, the elements before it lying in `[0, 1)`, the call fails with the
eccentricity error, every element of `sinf` and `cosf` at an index `>= n` holds
its value from before the call, and every element at an index `< n` holds what
the solver wrote. -/
theorem kepler_fails_at_first_invalid (solve_kepler : ℚ → ℚ → ℚ → ℚ → ℚ × ℚ)
    (M ecc sinf cosf : array_t) (n : Nat)
    (hw : sinf.readonly = false ∧ cosf.readonly = false)
    (hsz : ecc.size = M.size ∧ cosf.size = M.size ∧ sinf.size = M.size)
    (hn : n < M.size)
    (hvalid : ∀ j, j < n → 0 ≤ ecc.at j ∧ ecc.at j < 1)
    (hbad : ecc.at n < 0 ∨ ecc.at n > 1) :
    ∃ m : KeplerMem,
      kepler solve_kepler M ecc sinf cosf = Outcome.raised Error.eccentricity_range m ∧
      (∀ j, n ≤ j → m.sinf.at j = sinf.at j ∧ m.cosf.at j = cosf.at j) ∧
      (∀ j, j < n →
        m.cosf.at j = (solve_kepler (M.at j) (ecc.at j) (cosf.at j) (sinf.at j)).1 ∧
        m.sinf.at j = (solve_kepler (M.at j) (ecc.at j) (cosf.at j) (sinf.at j)).2) := by
  obtain ⟨m, hrun, hsv, hcv⟩ := kepler_loop_raise solve_kepler M ecc n M.size 0 ⟨sinf, cosf⟩ hn
    (by show 0 + n < sinf.size; omega) (by show 0 + n < cosf.size; omega)
    (fun j _ h2 => by
      have := hvalid j (by omega)
      intro e
      rcases e with e | e
      · exact absurd this.1 (not_le.mpr e)
      · exact absurd e (not_lt.mpr (le_of_lt this.2)))
    (by rw [Nat.zero_add]; exact hbad)
  refine ⟨m, ?_, ?_, ?_⟩
  · unfold kepler
    have hg : ¬ (ecc.size ≠ M.size ∨ cosf.size ≠ M.size ∨ sinf.size ≠ M.size) := by
      rw [hsz.1, hsz.2.1, hsz.2.2]
      simp
    simp only [hw.1, hw.2, hg, if_false, Bool.false_eq_true]
    exact hrun
  · intro j hj
    rw [hsv j, hcv j, if_neg (by omega), if_neg (by omega)]
    exact ⟨rfl, rfl⟩
  · intro j hj
    rw [hsv j, hcv j, if_pos (by omega), if_pos (by omega)]
    exact ⟨rfl, rfl⟩

/-- Witness for C5 as amended: `ecc = (0, 2)`, failing at `n = 1`. -/
theorem kepler_fails_at_first_invalid_witness :
    ∃ m : KeplerMem,
      kepler (fun _ _ _ _ => (1, 0)) (vector1 [0, 0]) (vector1 [0, 2]) (vector1 [9, 9])
          (vector1 [8, 8])
        = Outcome.raised Error.eccentricity_range m ∧
      (∀ j, 1 ≤ j → m.sinf.at j = (vector1 [9, 9]).at j ∧ m.cosf.at j = (vector1 [8, 8]).at j) ∧
      (∀ j, j < 1 →
        m.cosf.at j = ((fun _ _ _ _ => (1, 0) : ℚ → ℚ → ℚ → ℚ → ℚ × ℚ)
          ((vector1 [0, 0]).at j) ((vector1 [0, 2]).at j) ((vector1 [8, 8]).at j)
          ((vector1 [9, 9]).at j)).1 ∧
        m.sinf.at j = ((fun _ _ _ _ => (1, 0) : ℚ → ℚ → ℚ → ℚ → ℚ × ℚ)
          ((vector1 [0, 0]).at j) ((vector1 [0, 2]).at j) ((vector1 [8, 8]).at j)
          ((vector1 [9, 9]).at j)).2) :=
  kepler_fails_at_first_invalid (fun _ _ _ _ => (1, 0)) (vector1 [0, 0]) (vector1 [0, 2])
    (vector1 [9, 9]) (vector1 [8, 8]) 1 ⟨rfl, rfl⟩ ⟨rfl, rfl, rfl⟩ (by decide)
    (fun j hj => by
      have hj0 : j = 0 := by omega
      subst hj0
      simp [vector1, array_t.at])
    (Or.inr (by simp [vector1, array_t.at]))

end kepler

end driver

/-! ## The tolerance of the Kepler op -/

/-- C10, the claim as stated fails: for single precision (`eps = 2^-23`) and the
requested tolerance `1.5 * eps`, the constructor stores the requested tolerance,
which is below `2 * eps`. -/
theorem KeplerOpBase_tol_below_twice_eps :
    ∃ k : KeplerOpBase,
      KeplerOpBase.construct 2000 (3 / 16777216) (1 / 8388608) = some k ∧
      (0 : ℚ) < 1 / 8388608 ∧ k.tol_ < 2 * (1 / 8388608) := by
  refine ⟨⟨2000, 3 / 16777216⟩, ?_, by norm_num, by norm_num⟩
  have h : ¬ ((3 : ℚ) / 16777216 < 1 / 8388608) := by norm_num
  have hm : ¬ ¬ ((2000 : Int) ≥ 0) := by decide
  unfold KeplerOpBase.construct
  rw [if_neg hm, if_neg h]

/-- C10 as amended. For `maxiter >= 0` and `eps > 0` the constructor succeeds and
the stored tolerance is at least `eps`: it is `2 * eps` when the requested
tolerance is below `eps` and the requested tolerance otherwise, in particular
whenever `tol >= 2 * eps`. -/
theorem KeplerOpBase_tol_clamp (maxiter : Int) (tol eps : ℚ) (hm : 0 ≤ maxiter)
    (heps : 0 < eps) :
    ∃ k : KeplerOpBase,
      KeplerOpBase.construct maxiter tol eps = some k ∧ k.maxiter_ = maxiter ∧
      k.tol_ ≥ eps ∧ (tol < eps → k.tol_ = 2 * eps) ∧ (eps ≤ tol → k.tol_ = tol) ∧
      (2 * eps ≤ tol → k.tol_ = tol) := by
  have hm2 : ¬ ¬ (maxiter ≥ 0) := not_not.mpr hm
  refine ⟨⟨maxiter, if tol < eps then 2 * eps else tol⟩, ?_, rfl, ?_, ?_, ?_, ?_⟩
  · unfold KeplerOpBase.construct
    rw [if_neg hm2]
  · show (if tol < eps then 2 * eps else tol) ≥ eps
    by_cases h : tol < eps
    · rw [if_pos h]; linarith
    · rw [if_neg h]; exact not_lt.mp h
  · intro h
    show (if tol < eps then 2 * eps else tol) = 2 * eps
    rw [if_pos h]
  · intro h
    show (if tol < eps then 2 * eps else tol) = tol
    rw [if_neg (not_lt.mpr h)]
  · intro h
    show (if tol < eps then 2 * eps else tol) = tol
    rw [if_neg (not_lt.mpr (by linarith))]

/-- Witness for C10 as amended: the default attributes `maxiter = 2000`,
`tol = -1` in single precision. -/
theorem KeplerOpBase_tol_clamp_witness :
    ∃ k : KeplerOpBase,
      KeplerOpBase.construct 2000 (-1) (1 / 8388608) = some k ∧ k.maxiter_ = 2000 ∧
      k.tol_ ≥ 1 / 8388608 ∧ ((-1 : ℚ) < 1 / 8388608 → k.tol_ = 2 * (1 / 8388608)) ∧
      ((1 : ℚ) / 8388608 ≤ -1 → k.tol_ = -1) ∧
      (2 * ((1 : ℚ) / 8388608) ≤ -1 → k.tol_ = -1) :=
  KeplerOpBase_tol_clamp 2000 (-1) (1 / 8388608) (by decide) (by norm_num)

/-! ## The closed form of `get_cl` -/

namespace driver

namespace starry

theorem signAt_eq (j : Nat) : signAt j = (-1 : Int) ^ j := by
  induction j with
  | zero => rfl
  | succ j ih => rw [signAt, ih, pow_succ]

theorem bcoeffAt_eq_choose (i : Nat) : ∀ j, j ≤ i → bcoeffAt i j = (Nat.choose i j : ℚ) := by
  intro j
  induction j with
  | zero =>
    intro _
    simp [bcoeffAt]
  | succ j ih =>
    intro hj
    have h1 := Nat.choose_succ_right_eq i j
    have h2 : ((Nat.choose i (j + 1) : ℚ)) * ((j : ℚ) + 1) = (Nat.choose i j : ℚ) * ((i : ℚ) - j) := by
      have h3 : ((Nat.choose i (j + 1) * (j + 1) : Nat) : ℚ) = ((Nat.choose i j * (i - j) : Nat) : ℚ) := by
        rw [h1]
      rw [Nat.cast_mul, Nat.cast_mul, Nat.cast_sub (by omega)] at h3
      push_cast at h3
      exact h3
    have hne : ((j : ℚ) + 1) ≠ 0 := by positivity
    rw [bcoeffAt, ih (by omega)]
    push_cast
    rw [eq_comm, ← mul_div_assoc, ← h2]
    field_simp

theorem aRef_eq_aClosed (u : Vec) (N j : Nat) (hN : 1 ≤ N) :
    aRef u N j = aClosed u N j := by
  unfold aRef aClosed
  congr 1
  have hset : (Finset.range N).filter (fun i => 1 ≤ i ∧ j ≤ i) = Finset.Icc (max 1 j) (N - 1) := by
    ext i
    simp only [Finset.mem_filter, Finset.mem_range, Finset.mem_Icc]
    omega
  rw [← Finset.sum_filter, hset, Finset.mul_sum]
  apply Finset.sum_congr rfl
  intro i hi
  rw [Finset.mem_Icc] at hi
  rw [weight, bcoeffAt_eq_choose i j (by omega), signAt_eq]
  push_cast
  ring

theorem cUp_eq_cClosedHigh (u : Vec) (N j : Nat) (hN : 1 ≤ N) :
    cUp (aRef u N) N j = cClosedHigh u N j := by
  unfold cUp cClosedHigh
  rw [Finset.sum_filter]
  apply Finset.sum_congr rfl
  intro k _
  by_cases h : j + 2 * k < N
  · rw [if_pos h, if_pos (by omega), aRef_eq_aClosed u N _ hN]
    push_cast
    rfl
  · rw [if_neg h, if_neg (by omega)]

theorem cOf_eq_cClosed (u : Vec) (N j : Nat) (hN : 1 ≤ N) :
    cOf (aRef u N) N j = cClosed u N j := by
  unfold cOf cClosed
  by_cases h0 : j = 0
  · subst h0
    rw [if_pos rfl, if_neg (by omega), if_neg (by omega), aRef_eq_aClosed u N 0 hN]
    by_cases h3 : 3 ≤ N
    · rw [if_pos h3, cUp_eq_cClosedHigh u N 2 hN]
    · rw [if_neg h3, cUp_of_le _ _ _ (by omega), mul_zero, add_zero]
  · rw [if_neg h0]
    by_cases h1 : j = 1
    · subst h1
      rw [if_pos rfl, if_neg (by omega), if_pos rfl, aRef_eq_aClosed u N 1 hN]
      by_cases h4 : 4 ≤ N
      · rw [if_pos h4, cUp_eq_cClosedHigh u N 3 hN]
      · rw [if_neg h4, cUp_of_le _ _ _ (by omega), mul_zero, add_zero]
    · rw [if_neg h1, if_pos (by omega), cUp_eq_cClosedHigh u N j hN]

theorem clRef_eq_closed (u : Vec) (hN : 1 ≤ u.length) : clRef u = get_cl_closed u := by
  unfold clRef get_cl_closed
  apply List.map_congr_left
  intro j _
  exact cOf_eq_cClosed u u.length j hN

theorem get_cl_three (u0 u1 u2 b0 b1 b2 : ℚ) :
    get_cl [u0, u1, u2] [b0, b1, b2]
      = Outcome.returned [1 - u1 - 3 * u2 / 2, u1 + 2 * u2, -u2 / 4]
          [1 - u1 - 3 * u2 / 2, u1 + 2 * u2, -u2 / 4] := by
  have h : clRef [u0, u1, u2] = [1 - u1 - 3 * u2 / 2, u1 + 2 * u2, -u2 / 4] := by
    simp [clRef, List.range_succ, cOf, cUp, aRef, weight, bcoeffAt, signAt,
      Finset.sum_range_succ]
    refine ⟨?_, ?_, ?_⟩ <;> ring
  rw [get_cl_eq [u0, u1, u2] [b0, b1, b2] (by simp) (by simp), h]

/-- C15. For at least two coefficients `get_cl` returns its closed-form reference
`get_cl_closed` (built from `aClosed`, `cClosedHigh`, `cClosed`); after `j <= i`
steps of the inner loop of outer step `i` the variable `bcoeff` is `binom(i, j)`
and `sign` is `(-1)^j`; and for three coefficients the output is
`(1 - u1 - 3 u2 / 2, u1 + 2 u2, -u2 / 4)`. -/
theorem get_cl_closed_form (u c0 a : Vec) (i j : Nat) (hN : 2 ≤ u.length)
    (hc : c0.length = u.length) (ha : a.length = u.length) (hi : i < u.length)
    (hj : j ≤ i) :
    get_cl u c0 = Outcome.returned (get_cl_closed u) (get_cl_closed u) ∧
    (∃ a2 : Vec, loopUp (get_cl_inner u (i : Int)) j 0 ⟨a, 1, 1⟩
        = some ⟨a2, (Nat.choose i j : ℚ), (-1 : Int) ^ j⟩) ∧
    (∀ u0 u1 u2 b0 b1 b2 : ℚ,
      get_cl [u0, u1, u2] [b0, b1, b2]
        = Outcome.returned [1 - u1 - 3 * u2 / 2, u1 + 2 * u2, -u2 / 4]
            [1 - u1 - 3 * u2 / 2, u1 + 2 * u2, -u2 / 4]) := by
  refine ⟨?_, ?_, get_cl_three⟩
  · rw [get_cl_eq u c0 hN hc, clRef_eq_closed u (by omega)]
  · obtain ⟨a2, hrun, _, _⟩ := get_cl_inner_run u i hi j 0 a (by omega)
    refine ⟨a2, ?_⟩
    have h0 : ((0 : Nat) : Int) = 0 := rfl
    have hb : bcoeffAt i 0 = 1 := rfl
    have hs : signAt 0 = 1 := rfl
    rw [h0, hb, hs, Nat.zero_add, bcoeffAt_eq_choose i j hj, signAt_eq] at hrun
    exact hrun

/-- Witness for C15 at `u = (0, 1/3, 1/5)`, `i = 2`, `j = 1`. -/
theorem get_cl_closed_form_witness :
    get_cl [0, 1 / 3, 1 / 5] [0, 0, 0]
      = Outcome.returned (get_cl_closed [0, 1 / 3, 1 / 5]) (get_cl_closed [0, 1 / 3, 1 / 5]) ∧
    (∃ a2 : Vec, loopUp (get_cl_inner [0, 1 / 3, 1 / 5] ((2 : Nat) : Int)) 1 0 ⟨[1, 0, 0], 1, 1⟩
        = some ⟨a2, (Nat.choose 2 1 : ℚ), (-1 : Int) ^ 1⟩) ∧
    (∀ u0 u1 u2 b0 b1 b2 : ℚ,
      get_cl [u0, u1, u2] [b0, b1, b2]
        = Outcome.returned [1 - u1 - 3 * u2 / 2, u1 + 2 * u2, -u2 / 4]
            [1 - u1 - 3 * u2 / 2, u1 + 2 * u2, -u2 / 4]) :=
  get_cl_closed_form [0, 1 / 3, 1 / 5] [0, 0, 0] [1, 0, 0] 2 1 (by decide) rfl rfl
    (by decide) (by decide)

/-! ## The degree-0 coefficient and the uniform disk -/

theorem aRef_congr (u u2 : Vec) (N j : Nat) (h : ∀ i, 1 ≤ i → i < N → u2.getD i 0 = u.getD i 0) :
    aRef u2 N j = aRef u N j := by
  unfold aRef
  congr 1
  apply Finset.sum_congr rfl
  intro i hi
  rw [Finset.mem_range] at hi
  by_cases hc : 1 ≤ i ∧ j ≤ i
  · rw [if_pos hc, if_pos hc, h i hc.1 hi]
  · rw [if_neg hc, if_neg hc]

/-- C16. The degree-0 coefficient is never read: for at least two coefficients,
two inputs of `get_cl` that agree on the entries `1 .. N-1` give the same output,
and entry 0 of the output of `get_cl_rev` is 0. -/
theorem get_cl_ignores_degree_zero (u u2 c0 c02 bc bu0 : Vec) (hN : 2 ≤ u.length)
    (hlen : u2.length = u.length) (hsame : ∀ j, 1 ≤ j → u2.getD j 0 = u.getD j 0)
    (hc : c0.length = u.length) (hc2 : c02.length = u.length)
    (hbc : bc.length = u.length) (hbu : bu0.length = u.length) :
    ∃ c bu : Vec,
      get_cl u c0 = Outcome.returned c c ∧ get_cl u2 c02 = Outcome.returned c c ∧
      get_cl_rev bc bu0 = Outcome.returned bu bu ∧ bu.getD 0 0 = 0 := by
  have hfun : aRef u2 u.length = aRef u u.length := by
    funext j
    exact aRef_congr u u2 u.length j (fun i h1 _ => hsame i h1)
  refine ⟨clRef u, clRevRef bc, get_cl_eq u c0 hN hc, ?_,
    get_cl_rev_eq bc bu0 (by omega) (by omega), ?_⟩
  · rw [get_cl_eq u2 c02 (by omega) (by omega), clRef, clRef, hlen, hfun]
  · rw [clRevRef, getD_range_map _ _ _ (by omega), buOf, if_neg (by omega), sub_zero]

/-- Witness for C16 at `u = (0, 1/3, 1/5)`, `u2 = (7, 1/3, 1/5)`. -/
theorem get_cl_ignores_degree_zero_witness :
    ∃ c bu : Vec,
      get_cl [0, 1 / 3, 1 / 5] [0, 0, 0] = Outcome.returned c c ∧
      get_cl [7, 1 / 3, 1 / 5] [0, 0, 0] = Outcome.returned c c ∧
      get_cl_rev [1, 2, 3] [0, 0, 0] = Outcome.returned bu bu ∧ bu.getD 0 0 = 0 :=
  get_cl_ignores_degree_zero [0, 1 / 3, 1 / 5] [7, 1 / 3, 1 / 5] [0, 0, 0] [0, 0, 0]
    [1, 2, 3] [0, 0, 0] (by decide) rfl
    (fun j hj => by
      obtain ⟨k, rfl⟩ : ∃ k, j = k + 1 := ⟨j - 1, by omega⟩
      rfl)
    rfl rfl rfl rfl

/-- C19. Without limb darkening the output is the uniform-disk coefficient: for at
least two coefficients with `u[1] = ... = u[N-1] = 0`, `get_cl` returns
`(1, 0, ..., 0)`. -/
theorem get_cl_uniform_disk (u c0 : Vec) (hN : 2 ≤ u.length) (hc : c0.length = u.length)
    (hz : ∀ j, 1 ≤ j → j < u.length → u.getD j 0 = 0) :
    get_cl u c0 = Outcome.returned (unitVec u.length 0) (unitVec u.length 0) := by
  have ha : ∀ j, aRef u u.length j = if j = 0 then 1 else 0 := by
    intro j
    unfold aRef
    have hsum : (∑ i ∈ Finset.range u.length,
        if 1 ≤ i ∧ j ≤ i then u.getD i 0 * weight i j else 0) = 0 := by
      apply Finset.sum_eq_zero
      intro i hi
      rw [Finset.mem_range] at hi
      by_cases hcnd : 1 ≤ i ∧ j ≤ i
      · rw [if_pos hcnd, hz i hcnd.1 hi, zero_mul]
      · rw [if_neg hcnd]
    rw [hsum, sub_zero]
  have hup : ∀ j, 1 ≤ j → cUp (aRef u u.length) u.length j = 0 := by
    intro j hj
    unfold cUp
    apply Finset.sum_eq_zero
    intro k _
    by_cases hcnd : j + 2 * k < u.length
    · rw [if_pos hcnd, ha, if_neg (by omega), zero_div]
    · rw [if_neg hcnd]
  have hcl : clRef u = unitVec u.length 0 := by
    apply vec_ext
    · simp [clRef, unitVec]
    · intro m hm
      have hm2 : m < u.length := by simpa [clRef] using hm
      rw [clRef, unitVec, getD_range_map _ _ _ hm2, getD_range_map _ _ _ hm2, cOf]
      by_cases h0 : m = 0
      · rw [if_pos h0, if_pos h0, ha, if_pos rfl, hup 2 (by omega)]
        ring
      · rw [if_neg h0, if_neg h0]
        by_cases h1 : m = 1
        · rw [if_pos h1, ha, if_neg (by omega), hup 3 (by omega)]
          ring
        · rw [if_neg h1, hup m (by omega)]
  rw [get_cl_eq u c0 hN hc, hcl]

/-- Witness for C19 at `u = (5, 0, 0)`. -/
theorem get_cl_uniform_disk_witness :
    get_cl [5, 0, 0] [9, 9, 9]
      = Outcome.returned (unitVec ([5, 0, 0] : Vec).length 0) (unitVec ([5, 0, 0] : Vec).length 0) :=
  get_cl_uniform_disk [5, 0, 0] [9, 9, 9] (by decide) rfl
    (fun j h1 h2 => by
      have h3 : j < 3 := h2
      obtain rfl | rfl : j = 1 ∨ j = 2 := by omega
      · rfl
      · rfl)

/-! ## The dimension check of `dfdcl` and empty coefficient arrays -/

theorem apply_checks_dfdcl (cl b r los f dfdcl dfdb dfdr : array_t)
    (hsz : r.size = b.size ∧ los.size = b.size ∧ f.size = b.size ∧ dfdb.size = b.size ∧
      dfdr.size = b.size)
    (hw : f.readonly = false ∧ dfdb.readonly = false ∧ dfdr.readonly = false) :
    apply_checks cl b r los f dfdcl dfdb dfdr
      = if dfdcl.ndim ≤ 1 ∨ dfdcl.shape.getD 0 0 ≠ cl.size ∨ dfdcl.size ≠ b.size * cl.size then
          some Error.invalid_dimensions_for_dfdcl
        else if dfdcl.readonly then some Error.dfdcl_must_be_writeable
        else none := by
  obtain ⟨h1, h2, h3, h4, h5⟩ := hsz
  obtain ⟨w1, w2, w3⟩ := hw
  unfold apply_checks
  simp only [h1, h2, h3, h4, h5, w1, w2, w3, ne_eq, not_true_eq_false, or_self, if_false,
    Bool.false_eq_true]

/-- C11, the claim as stated fails: with two coefficients and three samples, a
`dfdcl` of the three-dimensional shape `(2, 3, 1)` is accepted and the call
returns. -/
theorem apply_accepts_three_dimensional_dfdcl :
    ∃ m : LimbDarkMem Int,
      apply sampleEngine 0 (vector1 [1, 2]) (vector1 [0, 0, 0]) (vector1 [0, 0, 0])
          (vector1 [1, 1, 1]) (vector1 [5, 5, 5]) ⟨[7, 7, 7, 7, 7, 7], [2, 3, 1], false⟩
          (vector1 [5, 5, 5]) (vector1 [5, 5, 5])
        = Outcome.returned (m.f, m.dfdcl, m.dfdb, m.dfdr) m ∧
      ([2, 3, 1] : List Nat) ≠ [(vector1 [1, 2]).size, (vector1 [0, 0, 0]).size] ∧
      ([2, 3, 1] : List Nat).prod = ([7, 7, 7, 7, 7, 7] : List ℚ).length := by
  obtain ⟨m, hm, _⟩ := apply_spec sampleEngine 0 (vector1 [1, 2]) (vector1 [0, 0, 0])
    (vector1 [0, 0, 0]) (vector1 [1, 1, 1]) (vector1 [5, 5, 5])
    ⟨[7, 7, 7, 7, 7, 7], [2, 3, 1], false⟩ (vector1 [5, 5, 5]) (vector1 [5, 5, 5]) (by decide)
  exact ⟨m, hm, by decide, by decide⟩

/-- C11 as amended. In a call whose per-sample arrays share one length and whose
`f`, `dfdb`, `dfdr` are writeable, `LimbDark::apply` raises the `dfdcl` dimension
error, with all buffers untouched, exactly when `dfdcl` has fewer than two
dimensions, or its first extent is not the number of coefficients, or its number
of elements is not the number of samples times the number of coefficients; with
at least one coefficient this rejects every two-dimensional `dfdcl` whose shape is
not `(N, N_b)`. -/
theorem apply_dfdcl_dimension_error {σ : Type} (E : GreensLimbDark σ) (self : σ)
    (cl b r los f dfdcl dfdb dfdr : array_t)
    (hsz : r.size = b.size ∧ los.size = b.size ∧ f.size = b.size ∧ dfdb.size = b.size ∧
      dfdr.size = b.size)
    (hw : f.readonly = false ∧ dfdb.readonly = false ∧ dfdr.readonly = false) :
    (apply E self cl b r los f dfdcl dfdb dfdr
        = Outcome.raised Error.invalid_dimensions_for_dfdcl ⟨f, dfdcl, dfdb, dfdr, self⟩ ↔
      (dfdcl.ndim ≤ 1 ∨ dfdcl.shape.getD 0 0 ≠ cl.size ∨ dfdcl.size ≠ b.size * cl.size)) ∧
    (dfdcl.ndim = 2 → dfdcl.shape.prod = dfdcl.size → 1 ≤ cl.size →
      dfdcl.shape ≠ [cl.size, b.size] →
      apply E self cl b r los f dfdcl dfdb dfdr
        = Outcome.raised Error.invalid_dimensions_for_dfdcl ⟨f, dfdcl, dfdb, dfdr, self⟩) := by
  have hchk := apply_checks_dfdcl cl b r los f dfdcl dfdb dfdr hsz hw
  have hiff : apply E self cl b r los f dfdcl dfdb dfdr
        = Outcome.raised Error.invalid_dimensions_for_dfdcl ⟨f, dfdcl, dfdb, dfdr, self⟩ ↔
      (dfdcl.ndim ≤ 1 ∨ dfdcl.shape.getD 0 0 ≠ cl.size ∨ dfdcl.size ≠ b.size * cl.size) := by
    by_cases hc : dfdcl.ndim ≤ 1 ∨ dfdcl.shape.getD 0 0 ≠ cl.size ∨ dfdcl.size ≠ b.size * cl.size
    · rw [if_pos hc] at hchk
      constructor
      · intro _
        exact hc
      · intro _
        unfold apply
        rw [hchk]
    · rw [if_neg hc] at hchk
      constructor
      · intro h
        exfalso
        unfold apply at h
        by_cases hro : dfdcl.readonly = true
        · rw [hchk, if_pos hro] at h
          injection h with he _
          exact Error.noConfusion he
        · rw [hchk, if_neg hro] at h
          exact Outcome.noConfusion h
      · intro h
        exact absurd h hc
  refine ⟨hiff, ?_⟩
  intro hnd hprod hcl hshape
  apply hiff.mpr
  by_contra hc
  have h0 : dfdcl.shape.getD 0 0 = cl.size := by
    by_contra e
    exact hc (Or.inr (Or.inl e))
  have hs : dfdcl.size = b.size * cl.size := by
    by_contra e
    exact hc (Or.inr (Or.inr e))
  unfold array_t.ndim at hnd
  match hsh : dfdcl.shape, hnd with
  | [s0, s1], _ =>
    rw [hsh] at h0 hprod hshape
    simp only [List.getD_cons_zero] at h0
    simp only [List.prod_cons, List.prod_nil, mul_one] at hprod
    rw [hs, h0] at hprod
    have h1 : s1 = b.size := by
      rw [Nat.mul_comm b.size cl.size] at hprod
      exact Nat.eq_of_mul_eq_mul_left (by omega) hprod
    exact hshape (by rw [h0, h1])

/-- Witness for C11 as amended: a `dfdcl` of the transposed shape `(3, 2)`. -/
theorem apply_dfdcl_dimension_error_witness :
    (apply sampleEngine 0 (vector1 [1, 2]) (vector1 [0, 0, 0]) (vector1 [0, 0, 0])
          (vector1 [1, 1, 1]) (vector1 [5, 5, 5]) (matrix2 3 2 [7, 7, 7, 7, 7, 7])
          (vector1 [5, 5, 5]) (vector1 [5, 5, 5])
        = Outcome.raised Error.invalid_dimensions_for_dfdcl
            ⟨vector1 [5, 5, 5], matrix2 3 2 [7, 7, 7, 7, 7, 7], vector1 [5, 5, 5],
              vector1 [5, 5, 5], 0⟩ ↔
      ((matrix2 3 2 [7, 7, 7, 7, 7, 7]).ndim ≤ 1 ∨
        (matrix2 3 2 [7, 7, 7, 7, 7, 7]).shape.getD 0 0 ≠ (vector1 [1, 2]).size ∨
        (matrix2 3 2 [7, 7, 7, 7, 7, 7]).size ≠ (vector1 [0, 0, 0]).size * (vector1 [1, 2]).size)) ∧
    ((matrix2 3 2 [7, 7, 7, 7, 7, 7]).ndim = 2 →
      (matrix2 3 2 [7, 7, 7, 7, 7, 7]).shape.prod = (matrix2 3 2 [7, 7, 7, 7, 7, 7]).size →
      1 ≤ (vector1 [1, 2]).size →
      (matrix2 3 2 [7, 7, 7, 7, 7, 7]).shape ≠ [(vector1 [1, 2]).size, (vector1 [0, 0, 0]).size] →
      apply sampleEngine 0 (vector1 [1, 2]) (vector1 [0, 0, 0]) (vector1 [0, 0, 0])
          (vector1 [1, 1, 1]) (vector1 [5, 5, 5]) (matrix2 3 2 [7, 7, 7, 7, 7, 7])
          (vector1 [5, 5, 5]) (vector1 [5, 5, 5])
        = Outcome.raised Error.invalid_dimensions_for_dfdcl
            ⟨vector1 [5, 5, 5], matrix2 3 2 [7, 7, 7, 7, 7, 7], vector1 [5, 5, 5],
              vector1 [5, 5, 5], 0⟩) :=
  apply_dfdcl_dimension_error sampleEngine 0 (vector1 [1, 2]) (vector1 [0, 0, 0])
    (vector1 [0, 0, 0]) (vector1 [1, 1, 1]) (vector1 [5, 5, 5]) (matrix2 3 2 [7, 7, 7, 7, 7, 7])
    (vector1 [5, 5, 5]) (vector1 [5, 5, 5]) ⟨rfl, rfl, rfl, rfl, rfl⟩ ⟨rfl, rfl, rfl⟩

/-- C12. An empty coefficient array is not rejected: with `cl` empty, one
occulting sample and a `dfdcl` of shape `(0, 1)`, every check passes, the engine is
invoked with `compute(0, 1/10)`, `f[0]` is overwritten with `-1` and the call
returns. -/
theorem apply_accepts_empty_coefficients {σ : Type} (E : GreensLimbDark σ) (self : σ) :
    ∃ m : LimbDarkMem σ,
      apply E self (vector1 []) (vector1 [0]) (vector1 [1 / 10]) (vector1 [1]) (vector1 [5])
          (matrix2 0 1 []) (vector1 [5]) (vector1 [5])
        = Outcome.returned (m.f, m.dfdcl, m.dfdb, m.dfdr) m ∧
      m.f.at 0 = -1 ∧ m.ld = E.compute (apply_reinit E self 0) 0 (1 / 10) := by
  obtain ⟨m, hm, hld, hv⟩ := apply_spec E self (vector1 []) (vector1 [0]) (vector1 [1 / 10])
    (vector1 [1]) (vector1 [5]) (matrix2 0 1 []) (vector1 [5]) (vector1 [5]) (by decide)
  have hocc : occulting (vector1 [0]) (vector1 [1 / 10]) (vector1 [1]) 0 := by
    constructor
    · show (0 : ℚ) < 1
      norm_num
    · show fl64 |(0 : ℚ)| < fl64 (1 + |(1 / 10 : ℚ)|)
      rw [abs_zero, fl64_zero]
      have h1 : fl64 1 ≤ fl64 (1 + |(1 / 10 : ℚ)|) :=
        fl64_mono _ _ (by norm_num) (by simp)
      rw [fl64_one] at h1
      linarith
  have hb0 : |(vector1 [0]).at 0| = 0 := by
    show |(0 : ℚ)| = 0
    exact abs_zero
  have hr0 : |(vector1 [1 / 10]).at 0| = 1 / 10 := by
    show |(1 / 10 : ℚ)| = 1 / 10
    exact abs_of_pos (by norm_num)
  refine ⟨m, hm, ?_, ?_⟩
  · rw [(hv 0 (by decide)).1, fRef, if_pos hocc]
    show dot _ (vector1 []) - 1 = -1
    simp [dot, vector1, array_t.size]
  · rw [hld]
    show engineAt E _ _ _ _ 1 = _
    rw [engineAt, if_pos hocc, hb0, hr0]
    rfl

/-! ## The engine held by the `LimbDark` object -/

theorem apply_eq_fold {σ : Type} (E : GreensLimbDark σ) (self : σ)
    (cl b r los f dfdcl dfdb dfdr : array_t)
    (h : apply_checks cl b r los f dfdcl dfdb dfdr = none) :
    apply E self cl b r los f dfdcl dfdb dfdr
      = Outcome.returned
          (((List.range b.size).foldl (apply_sample E cl b r los b.size)
              ⟨f, setZero dfdcl cl.size b.size, dfdb, dfdr, apply_reinit E self cl.size⟩).f,
            ((List.range b.size).foldl (apply_sample E cl b r los b.size)
              ⟨f, setZero dfdcl cl.size b.size, dfdb, dfdr, apply_reinit E self cl.size⟩).dfdcl,
            ((List.range b.size).foldl (apply_sample E cl b r los b.size)
              ⟨f, setZero dfdcl cl.size b.size, dfdb, dfdr, apply_reinit E self cl.size⟩).dfdb,
            ((List.range b.size).foldl (apply_sample E cl b r los b.size)
              ⟨f, setZero dfdcl cl.size b.size, dfdb, dfdr, apply_reinit E self cl.size⟩).dfdr)
          ((List.range b.size).foldl (apply_sample E cl b r los b.size)
            ⟨f, setZero dfdcl cl.size b.size, dfdb, dfdr, apply_reinit E self cl.size⟩) := by
  unfold apply
  rw [h]

theorem engineAt_lmax {σ : Type} (E : GreensLimbDark σ) (ld : σ) (b r los : array_t)
    (hkeep : ∀ s x y, E.lmax (E.compute s x y) = E.lmax s) (n : Nat) :
    E.lmax (engineAt E ld b r los n) = E.lmax ld := by
  induction n with
  | zero => rfl
  | succ n ih =>
    rw [engineAt]
    by_cases ho : occulting b r los n
    · rw [if_pos ho, hkeep, ih]
    · rw [if_neg ho, ih]

theorem apply_reinit_lmax {σ : Type} (E : GreensLimbDark σ) (self : σ) (n : Nat)
    (hmake : ∀ l, E.lmax (E.make l) = l) :
    E.lmax (apply_reinit E self n) = toInt32 (n : Int) := by
  unfold apply_reinit
  by_cases h : E.lmax self ≠ toInt32 (n : Int)
  · rw [if_pos h, hmake]
  · rw [if_neg h]
    exact not_not.mp h

theorem samples_indep {σ : Type} (E : GreensLimbDark σ) (cl b r los : array_t) (N : Nat)
    (hkeep : ∀ s x y, E.lmax (E.compute s x y) = E.lmax s)
    (hfun : ∀ s s2 x y, E.lmax s = E.lmax s2 →
      E.sT (E.compute s x y) = E.sT (E.compute s2 x y) ∧
      E.dsTdb (E.compute s x y) = E.dsTdb (E.compute s2 x y) ∧
      E.dsTdr (E.compute s x y) = E.dsTdr (E.compute s2 x y))
    (m1 m2 : LimbDarkMem σ) (hf : m1.f = m2.f) (hd : m1.dfdcl = m2.dfdcl)
    (hb : m1.dfdb = m2.dfdb) (hr : m1.dfdr = m2.dfdr) (hl : E.lmax m1.ld = E.lmax m2.ld) :
    ∀ n,
      ((List.range n).foldl (apply_sample E cl b r los N) m1).f
        = ((List.range n).foldl (apply_sample E cl b r los N) m2).f ∧
      ((List.range n).foldl (apply_sample E cl b r los N) m1).dfdcl
        = ((List.range n).foldl (apply_sample E cl b r los N) m2).dfdcl ∧
      ((List.range n).foldl (apply_sample E cl b r los N) m1).dfdb
        = ((List.range n).foldl (apply_sample E cl b r los N) m2).dfdb ∧
      ((List.range n).foldl (apply_sample E cl b r los N) m1).dfdr
        = ((List.range n).foldl (apply_sample E cl b r los N) m2).dfdr ∧
      E.lmax ((List.range n).foldl (apply_sample E cl b r los N) m1).ld
        = E.lmax ((List.range n).foldl (apply_sample E cl b r los N) m2).ld := by
  intro n
  induction n with
  | zero => exact ⟨hf, hd, hb, hr, hl⟩
  | succ n ih =>
    obtain ⟨i1, i2, i3, i4, i5⟩ := ih
    obtain ⟨e1, e2, e3⟩ := hfun _ _ |b.at n| |r.at n| i5
    rw [samples_succ, samples_succ]
    refine ⟨?_, ?_, ?_, ?_, ?_⟩
    · rw [apply_sample_f, apply_sample_f, i1, e1]
    · rw [apply_sample_dfdcl, apply_sample_dfdcl, i2, e1]
    · rw [apply_sample_dfdb, apply_sample_dfdb, i3, e2]
    · rw [apply_sample_dfdr, apply_sample_dfdr, i4, e3]
    · rw [apply_sample_ld, apply_sample_ld]
      by_cases ho : occulting b r los n
      · rw [if_pos ho, if_pos ho, hkeep, hkeep, i5]
      · rw [if_neg ho, if_neg ho, i5]

/-- C17. The engine of `LimbDark` is observably stateless. Take an engine whose
constructor stores its argument as `lmax`, whose `compute` leaves `lmax` as it
is, and whose vectors `sT`, `dsTdb`, `dsTdr` after `compute(b, r)` depend only on
`lmax`, `b` and `r`. Then two objects in any two prior states return the same `f`,
`dfdcl`, `dfdb`, `dfdr` on every input that passes the checks; and the object keeps
its engine when the cached `lmax` equals `int(num_cl)` and replaces it by a newly
constructed one exactly when it differs. -/
theorem apply_cache_stateless {σ : Type} (E : GreensLimbDark σ) (self1 self2 : σ)
    (cl b r los f dfdcl dfdb dfdr : array_t)
    (hshape : apply_checks cl b r los f dfdcl dfdb dfdr = none)
    (hmake : ∀ l, E.lmax (E.make l) = l)
    (hkeep : ∀ s x y, E.lmax (E.compute s x y) = E.lmax s)
    (hfun : ∀ s s2 x y, E.lmax s = E.lmax s2 →
      E.sT (E.compute s x y) = E.sT (E.compute s2 x y) ∧
      E.dsTdb (E.compute s x y) = E.dsTdb (E.compute s2 x y) ∧
      E.dsTdr (E.compute s x y) = E.dsTdr (E.compute s2 x y)) :
    ∃ m1 m2 : LimbDarkMem σ,
      apply E self1 cl b r los f dfdcl dfdb dfdr
        = Outcome.returned (m1.f, m1.dfdcl, m1.dfdb, m1.dfdr) m1 ∧
      apply E self2 cl b r los f dfdcl dfdb dfdr
        = Outcome.returned (m2.f, m2.dfdcl, m2.dfdb, m2.dfdr) m2 ∧
      (m1.f, m1.dfdcl, m1.dfdb, m1.dfdr) = (m2.f, m2.dfdcl, m2.dfdb, m2.dfdr) ∧
      (E.lmax self1 = toInt32 (cl.size : Int) →
        m1.ld = engineAt E self1 b r los b.size) ∧
      (E.lmax self1 ≠ toInt32 (cl.size : Int) →
        m1.ld = engineAt E (E.make (toInt32 (cl.size : Int))) b r los b.size) := by
  have hl : E.lmax (apply_reinit E self1 cl.size) = E.lmax (apply_reinit E self2 cl.size) := by
    rw [apply_reinit_lmax E self1 cl.size hmake, apply_reinit_lmax E self2 cl.size hmake]
  obtain ⟨h1, h2, h3, h4, _⟩ := samples_indep E cl b r los b.size hkeep hfun
    ⟨f, setZero dfdcl cl.size b.size, dfdb, dfdr, apply_reinit E self1 cl.size⟩
    ⟨f, setZero dfdcl cl.size b.size, dfdb, dfdr, apply_reinit E self2 cl.size⟩
    rfl rfl rfl rfl hl b.size
  refine ⟨_, _, apply_eq_fold E self1 cl b r los f dfdcl dfdb dfdr hshape,
    apply_eq_fold E self2 cl b r los f dfdcl dfdb dfdr hshape, ?_, ?_, ?_⟩
  · rw [h1, h2, h3, h4]
  · intro he
    rw [samples_ld]
    show engineAt E (apply_reinit E self1 cl.size) b r los b.size = _
    rw [apply_reinit, if_neg (not_not.mpr he)]
  · intro hne
    rw [samples_ld]
    show engineAt E (apply_reinit E self1 cl.size) b r los b.size = _
    rw [apply_reinit, if_pos hne]

/-- Witness for C17: objects with cached `lmax` 0 and 2, two coefficients. -/
theorem apply_cache_stateless_witness :
    ∃ m1 m2 : LimbDarkMem Int,
      apply sampleEngine 0 (vector1 [1, 2]) (vector1 [-1 / 2, 3, 1 / 4])
          (vector1 [1 / 10, 1 / 10, -1 / 5]) (vector1 [1, 1, 1]) (vector1 [5, 5, 5])
          (matrix2 2 3 [7, 7, 7, 7, 7, 7]) (vector1 [5, 5, 5]) (vector1 [5, 5, 5])
        = Outcome.returned (m1.f, m1.dfdcl, m1.dfdb, m1.dfdr) m1 ∧
      apply sampleEngine 2 (vector1 [1, 2]) (vector1 [-1 / 2, 3, 1 / 4])
          (vector1 [1 / 10, 1 / 10, -1 / 5]) (vector1 [1, 1, 1]) (vector1 [5, 5, 5])
          (matrix2 2 3 [7, 7, 7, 7, 7, 7]) (vector1 [5, 5, 5]) (vector1 [5, 5, 5])
        = Outcome.returned (m2.f, m2.dfdcl, m2.dfdb, m2.dfdr) m2 ∧
      (m1.f, m1.dfdcl, m1.dfdb, m1.dfdr) = (m2.f, m2.dfdcl, m2.dfdb, m2.dfdr) ∧
      (sampleEngine.lmax 0 = toInt32 ((vector1 [1, 2]).size : Int) →
        m1.ld = engineAt sampleEngine 0 (vector1 [-1 / 2, 3, 1 / 4])
          (vector1 [1 / 10, 1 / 10, -1 / 5]) (vector1 [1, 1, 1])
          (vector1 [-1 / 2, 3, 1 / 4]).size) ∧
      (sampleEngine.lmax 0 ≠ toInt32 ((vector1 [1, 2]).size : Int) →
        m1.ld = engineAt sampleEngine (sampleEngine.make (toInt32 ((vector1 [1, 2]).size : Int)))
          (vector1 [-1 / 2, 3, 1 / 4]) (vector1 [1 / 10, 1 / 10, -1 / 5]) (vector1 [1, 1, 1])
          (vector1 [-1 / 2, 3, 1 / 4]).size) :=
  apply_cache_stateless sampleEngine 0 2 (vector1 [1, 2]) (vector1 [-1 / 2, 3, 1 / 4])
    (vector1 [1 / 10, 1 / 10, -1 / 5]) (vector1 [1, 1, 1]) (vector1 [5, 5, 5])
    (matrix2 2 3 [7, 7, 7, 7, 7, 7]) (vector1 [5, 5, 5]) (vector1 [5, 5, 5])
    (by decide) (fun _ => rfl) (fun _ _ _ => rfl) (fun _ _ _ _ _ => ⟨rfl, rfl, rfl⟩)

/-- C18, the claim as stated fails: on an engine that stores its constructor
argument as `lmax`, a new `LimbDark` object called with two coefficients ends with
an engine of cached `lmax = 2`, the number of coefficients, not `2 - 1`. -/
theorem apply_engine_degree_is_coefficient_count :
    ∃ m : LimbDarkMem Int,
      apply sampleEngine (LimbDark_new sampleEngine) (vector1 [1, 2]) (vector1 [1 / 2])
          (vector1 [1 / 10]) (vector1 [1]) (vector1 [5]) (matrix2 2 1 [7, 7]) (vector1 [5])
          (vector1 [5])
        = Outcome.returned (m.f, m.dfdcl, m.dfdb, m.dfdr) m ∧
      sampleEngine.lmax m.ld = ((vector1 [1, 2]).size : Int) ∧
      sampleEngine.lmax m.ld ≠ ((vector1 [1, 2]).size : Int) - 1 := by
  obtain ⟨m, hm, hld, _⟩ := apply_spec sampleEngine (LimbDark_new sampleEngine) (vector1 [1, 2])
    (vector1 [1 / 2]) (vector1 [1 / 10]) (vector1 [1]) (vector1 [5]) (matrix2 2 1 [7, 7])
    (vector1 [5]) (vector1 [5]) (by decide)
  have hl : sampleEngine.lmax m.ld = 2 := by
    rw [hld, engineAt_lmax sampleEngine _ _ _ _ (fun _ _ _ => rfl),
      apply_reinit_lmax sampleEngine _ _ (fun _ => rfl)]
    decide
  refine ⟨m, hm, ?_, ?_⟩
  · rw [hl]; rfl
  · rw [hl]; decide

/-- C18 as amended. `LimbDark::apply` configures the engine with the number of
coefficients itself: for an engine whose constructor stores its argument as
`lmax` and whose `compute` leaves `lmax` as it is, after every call that passes
the checks, with `N < 2^31` coefficients, the engine held by the object has cached
`lmax = N`, and when the cached `lmax` was another one before the call the engine
was constructed with the argument `N`. -/
theorem apply_engine_degree {σ : Type} (E : GreensLimbDark σ) (self : σ)
    (cl b r los f dfdcl dfdb dfdr : array_t)
    (hshape : apply_checks cl b r los f dfdcl dfdb dfdr = none)
    (hmake : ∀ l, E.lmax (E.make l) = l)
    (hkeep : ∀ s x y, E.lmax (E.compute s x y) = E.lmax s)
    (hnum : (cl.size : Int) < 2147483648) :
    ∃ m : LimbDarkMem σ,
      apply E self cl b r los f dfdcl dfdb dfdr
        = Outcome.returned (m.f, m.dfdcl, m.dfdb, m.dfdr) m ∧
      E.lmax m.ld = (cl.size : Int) ∧
      (E.lmax self ≠ (cl.size : Int) →
        m.ld = engineAt E (E.make (cl.size : Int)) b r los b.size) := by
  have h32 : toInt32 (cl.size : Int) = (cl.size : Int) := by
    unfold toInt32
    omega
  obtain ⟨m, hm, hld, _⟩ := apply_spec E self cl b r los f dfdcl dfdb dfdr hshape
  refine ⟨m, hm, ?_, ?_⟩
  · rw [hld, engineAt_lmax E _ b r los hkeep, apply_reinit_lmax E self cl.size hmake, h32]
  · intro hne
    rw [hld, apply_reinit, h32, if_pos hne]

/-- Witness for C18 as amended: a new object and two coefficients. -/
theorem apply_engine_degree_witness :
    ∃ m : LimbDarkMem Int,
      apply sampleEngine (LimbDark_new sampleEngine) (vector1 [1, 2]) (vector1 [1 / 2])
          (vector1 [1 / 10]) (vector1 [1]) (vector1 [5]) (matrix2 2 1 [7, 7]) (vector1 [5])
          (vector1 [5])
        = Outcome.returned (m.f, m.dfdcl, m.dfdb, m.dfdr) m ∧
      sampleEngine.lmax m.ld = ((vector1 [1, 2]).size : Int) ∧
      (sampleEngine.lmax (LimbDark_new sampleEngine) ≠ ((vector1 [1, 2]).size : Int) →
        m.ld = engineAt sampleEngine (sampleEngine.make ((vector1 [1, 2]).size : Int))
          (vector1 [1 / 2]) (vector1 [1 / 10]) (vector1 [1]) (vector1 [1 / 2]).size) :=
  apply_engine_degree sampleEngine (LimbDark_new sampleEngine) (vector1 [1, 2])
    (vector1 [1 / 2]) (vector1 [1 / 10]) (vector1 [1]) (vector1 [5]) (matrix2 2 1 [7, 7])
    (vector1 [5]) (vector1 [5]) (by decide) (fun _ => rfl) (fun _ _ _ => rfl) (by decide)

end starry

/-! ## The pair returned by `kepler` -/

namespace kepler

theorem kepler_loop_return (solve_kepler : ℚ → ℚ → ℚ → ℚ → ℚ × ℚ) (M ecc : array_t) :
    ∀ (k n : Nat) (m : KeplerMem),
      n + k ≤ m.sinf.size → n + k ≤ m.cosf.size →
      (∀ j, n ≤ j → j < n + k → ¬ (ecc.at j < 0 ∨ ecc.at j > 1)) →
      ∃ m2 : KeplerMem,
        kepler_loop solve_kepler M ecc k n m = Outcome.returned (m2.cosf, m2.sinf) m2 ∧
        (∀ j, m2.sinf.at j =
          if n ≤ j ∧ j < n + k then
            (solve_kepler (M.at j) (ecc.at j) (m.cosf.at j) (m.sinf.at j)).2
          else m.sinf.at j) ∧
        (∀ j, m2.cosf.at j =
          if n ≤ j ∧ j < n + k then
            (solve_kepler (M.at j) (ecc.at j) (m.cosf.at j) (m.sinf.at j)).1
          else m.cosf.at j) ∧
        m2.cosf.shape = m.cosf.shape ∧ m2.sinf.shape = m.sinf.shape := by
  intro k
  induction k with
  | zero =>
    intro n m _ _ _
    refine ⟨m, rfl, ?_, ?_, rfl, rfl⟩
    · intro j
      rw [if_neg (by omega)]
    · intro j
      rw [if_neg (by omega)]
  | succ k ih =>
    intro n m hs hcs hvalid
    have hn : ¬ (ecc.at n < 0 ∨ ecc.at n > 1) := hvalid n (le_refl _) (by omega)
    obtain ⟨m2, hrun, hsv, hcv, hsh1, hsh2⟩ := ih (n + 1)
      ⟨m.sinf.put n (solve_kepler (M.at n) (ecc.at n) (m.cosf.at n) (m.sinf.at n)).2,
        m.cosf.put n (solve_kepler (M.at n) (ecc.at n) (m.cosf.at n) (m.sinf.at n)).1⟩
      (by rw [array_t.size_put]; omega) (by rw [array_t.size_put]; omega)
      (fun j h1 h2 => hvalid j (by omega) (by omega))
    refine ⟨m2, ?_, ?_, ?_, hsh1, hsh2⟩
    · simp only [kepler_loop, hn, if_false]
      exact hrun
    · intro j
      rw [hsv j]
      by_cases hj : j = n
      · subst hj
        rw [if_neg (by omega), if_pos (by omega),
          array_t.at_put _ _ _ _ (by omega), if_pos rfl]
      · simp only [array_t.at_put_ne _ _ _ _ hj]
        by_cases h1 : n + 1 ≤ j ∧ j < n + 1 + k
        · rw [if_pos h1, if_pos (by omega)]
        · rw [if_neg h1, if_neg (by omega)]
    · intro j
      rw [hcv j]
      by_cases hj : j = n
      · subst hj
        rw [if_neg (by omega), if_pos (by omega),
          array_t.at_put _ _ _ _ (by omega), if_pos rfl]
      · simp only [array_t.at_put_ne _ _ _ _ hj]
        by_cases h1 : n + 1 ≤ j ∧ j < n + 1 + k
        · rw [if_pos h1, if_pos (by omega)]
        · rw [if_neg h1, if_neg (by omega)]

/-- C13, the claim as stated fails: with a solver that writes `cos f = 1`,
`sin f = 0`, the first component of the returned pair is the buffer passed as
`cosf` (now holding `1`), not the one passed as `sinf` (now holding `0`). -/
theorem kepler_returns_cosf_first :
    ∃ (v : array_t × array_t) (m : KeplerMem),
      kepler (fun _ _ _ _ => (1, 0)) (vector1 [0]) (vector1 [0]) (vector1 [9]) (vector1 [8])
        = Outcome.returned v m ∧
      v.1 = m.cosf ∧ v.2 = m.sinf ∧ v.1 ≠ m.sinf ∧ v.2 ≠ m.cosf := by
  refine ⟨((vector1 [8]).put 0 1, (vector1 [9]).put 0 0),
    ⟨(vector1 [9]).put 0 0, (vector1 [8]).put 0 1⟩, ?_, rfl, rfl, ?_, ?_⟩
  · simp [kepler, kepler_loop, vector1, array_t.size, array_t.at, array_t.put]
  · simp [vector1, array_t.put]
  · simp [vector1, array_t.put]

/-- C13 as amended. The batch solver returns its pair in the order
`(cosf_out, sinf_out)`: for writeable buffers of the length of `M` and
eccentricities in `[0, 1)`, the call returns, the first component is the buffer
passed as the `cosf` argument and the second the buffer passed as the `sinf`
argument, each element holding what the solver wrote through its third and fourth
argument. -/
theorem kepler_returns_cosf_sinf (solve_kepler : ℚ → ℚ → ℚ → ℚ → ℚ × ℚ)
    (M ecc sinf cosf : array_t)
    (hw : sinf.readonly = false ∧ cosf.readonly = false)
    (hsz : ecc.size = M.size ∧ cosf.size = M.size ∧ sinf.size = M.size)
    (hvalid : ∀ j, j < M.size → 0 ≤ ecc.at j ∧ ecc.at j < 1) :
    ∃ m : KeplerMem,
      kepler solve_kepler M ecc sinf cosf = Outcome.returned (m.cosf, m.sinf) m ∧
      m.cosf.shape = cosf.shape ∧ m.sinf.shape = sinf.shape ∧
      ∀ j, j < M.size →
        m.cosf.at j = (solve_kepler (M.at j) (ecc.at j) (cosf.at j) (sinf.at j)).1 ∧
        m.sinf.at j = (solve_kepler (M.at j) (ecc.at j) (cosf.at j) (sinf.at j)).2 := by
  obtain ⟨m, hrun, hsv, hcv, hsh1, hsh2⟩ :=
    kepler_loop_return solve_kepler M ecc M.size 0 ⟨sinf, cosf⟩
      (by show 0 + M.size ≤ sinf.size; omega) (by show 0 + M.size ≤ cosf.size; omega)
      (fun j _ h2 => by
        have := hvalid j (by omega)
        intro e
        rcases e with e | e
        · exact absurd this.1 (not_le.mpr e)
        · exact absurd e (not_lt.mpr (le_of_lt this.2)))
  refine ⟨m, ?_, hsh1, hsh2, ?_⟩
  · unfold kepler
    have hg : ¬ (ecc.size ≠ M.size ∨ cosf.size ≠ M.size ∨ sinf.size ≠ M.size) := by
      rw [hsz.1, hsz.2.1, hsz.2.2]
      simp
    simp only [hw.1, hw.2, hg, if_false, Bool.false_eq_true]
    exact hrun
  · intro j hj
    rw [hsv j, hcv j, if_pos (by omega), if_pos (by omega)]
    exact ⟨rfl, rfl⟩

/-- Witness for C13 as amended: one element, `M = 0`, `ecc = 0`. -/
theorem kepler_returns_cosf_sinf_witness :
    ∃ m : KeplerMem,
      kepler (fun _ _ _ _ => (1, 0)) (vector1 [0]) (vector1 [0]) (vector1 [9]) (vector1 [8])
        = Outcome.returned (m.cosf, m.sinf) m ∧
      m.cosf.shape = (vector1 [8]).shape ∧ m.sinf.shape = (vector1 [9]).shape ∧
      ∀ j, j < (vector1 [0]).size →
        m.cosf.at j = ((fun _ _ _ _ => (1, 0) : ℚ → ℚ → ℚ → ℚ → ℚ × ℚ)
          ((vector1 [0]).at j) ((vector1 [0]).at j) ((vector1 [8]).at j)
          ((vector1 [9]).at j)).1 ∧
        m.sinf.at j = ((fun _ _ _ _ => (1, 0) : ℚ → ℚ → ℚ → ℚ → ℚ × ℚ)
          ((vector1 [0]).at j) ((vector1 [0]).at j) ((vector1 [8]).at j)
          ((vector1 [9]).at j)).2 :=
  kepler_returns_cosf_sinf (fun _ _ _ _ => (1, 0)) (vector1 [0]) (vector1 [0])
    (vector1 [9]) (vector1 [8]) ⟨rfl, rfl⟩ ⟨rfl, rfl, rfl⟩
    (fun j hj => by
      have hj1 : j < 1 := hj
      have hj0 : j = 0 := by omega
      subst hj0
      simp [vector1, array_t.at])

end kepler

end driver
